import Mathlib

/-! # ofxControlUtils: ramp engines, clocks and oscillators

A shallow embedding of `src/ofxControlUtils.cpp` and `src/ofxEasyControl.h`.

Modelling conventions

* Two number models are used.  In the exact model C++ `float` values are elements
  of an arbitrary linearly ordered field `K` (`ℚ` for evaluation) and rounding is
  not modelled; it is used for the properties that do not depend on which call
  first sees an accumulated sum pass a threshold (branch structure, queue handling,
  ordering, the shapes over the reals).  In the binary32 model (`fl32`, `fl64`,
  the definitions ending in `32`) every `float` operation is the exact operation on
  rationals followed by rounding to nearest, ties to even, and the period counter
  is a 32 bit `int`; it is used where the step at which something happens depends
  on the accumulated `float` sums (`update32` of the ramp engine, the scheduler and
  the oscillator).  Overflow to infinity is not modelled.
* The one division whose divisor can be zero, the ramp position
  `(elapsed - onset) / time`, is modelled with the IEEE results of a division by
  zero (`FloatDiv`): `x / 0` is `+inf`, `-inf` or `NaN`.
* `std::list` is `List`; `begin()` is the head, `push_back` appends at the tail.
* The functions of `<cmath>` and the constants `PI`, `HALF_PI` are parameters
  (`Cmath`).
* Firing an event (`event->onTimeOut()`) runs code outside the engine.  It is
  recorded in the list of fired events returned by `update`; what the callee does
  to the engine itself, if anything, is given by the parameter `onTimeOut` of the
  ramp engines (their `update` has a guard for it).  The callbacks of `ofxClock`
  and `ofxBaseOsc` are taken to act outside the object.
* A read past the end of a `std::vector` makes the function return `none`, and so
  does a step of the firing loop over an event list that a callback has destroyed
  (`fireAllOwned`).
* Template arguments are type tags and pointers are addresses; two pointers are
  the same when their types and their addresses are the same.
-/

namespace OfxControlUtils

/-! ## Numbers -/

/-- Result of a `float` division whose divisor may be zero. -/
inductive FloatDiv (K : Type) where
  | nan : FloatDiv K
  | negInf : FloatDiv K
  | posInf : FloatDiv K
  | finite (q : K) : FloatDiv K

/-- The quotient `a / b` of two finite floats: `0 / 0` is NaN, `a / 0` is an
infinity with the sign of `a`. -/
def fdiv {K : Type} [LinearOrderedField K] (a b : K) : FloatDiv K :=
  if b = 0 then
    (if a = 0 then FloatDiv.nan else if 0 < a then FloatDiv.posInf else FloatDiv.negInf)
  else FloatDiv.finite (a / b)

/-- The comparison `x > c` for a finite `c`; false for NaN. -/
def FloatDiv.gt {K : Type} [LinearOrderedField K] : FloatDiv K → K → Prop
  | FloatDiv.finite q, c => c < q
  | FloatDiv.posInf, _ => True
  | FloatDiv.negInf, _ => False
  | FloatDiv.nan, _ => False

instance FloatDiv.decGt {K : Type} [LinearOrderedField K] (x : FloatDiv K) (c : K) :
    Decidable (x.gt c) := by
  cases x <;> unfold FloatDiv.gt <;> infer_instance

/-- The comparison `x <= c` for a finite `c`; false for NaN. -/
def FloatDiv.le {K : Type} [LinearOrderedField K] : FloatDiv K → K → Prop
  | FloatDiv.finite q, c => q ≤ c
  | FloatDiv.posInf, _ => False
  | FloatDiv.negInf, _ => True
  | FloatDiv.nan, _ => False

instance FloatDiv.decLe {K : Type} [LinearOrderedField K] (x : FloatDiv K) (c : K) :
    Decidable (x.le c) := by
  cases x <;> unfold FloatDiv.le <;> infer_instance

/-- The value of a finite quotient (0 for the non-finite ones, which never reach
the places where the value is used). -/
def FloatDiv.val {K : Type} [LinearOrderedField K] : FloatDiv K → K
  | FloatDiv.finite q => q
  | _ => 0

/-- The functions of `<cmath>` and the angle constants used by the shape switch. -/
structure Cmath (K : Type) where
  exp : K → K
  pow : K → K → K
  sin : K → K
  cos : K → K
  PI : K
  HALF_PI : K

/-! ## ofxControl: the shared frame rate -/

/-- `OFXCONTROL_DEFAULT_RATE`. -/
def OFXCONTROL_DEFAULT_RATE {K : Type} [LinearOrderedField K] : K := 30

/-- `ofxControl::setFrameRate`: the new value of `_fps`. -/
def ofxControl.setFrameRate {K : Type} [LinearOrderedField K] (fps : K) : K :=
  if fps > 0 then fps else OFXCONTROL_DEFAULT_RATE

/-! ## Events -/

/-- The three event classes.  Template arguments are type tags, pointers are
addresses (0 is the null pointer), payloads are encoded values. -/
inductive ofxControlEventKind where
  | ofxControlVarEvent (T : Nat) (var : Nat) (val : Int) : ofxControlEventKind
  | ofxControlFuncEvent (TArg TReturn TObj : Nat) (obj func : Nat) (arg : Int) :
      ofxControlEventKind
  | ofxControlFuncEventVoid (TReturn TObj : Nat) (obj func : Nat) : ofxControlEventKind
  deriving DecidableEq, Repr

/-- `ofxControlBaseEvent` with the data of its concrete subclass. -/
structure ofxControlBaseEvent (K : Type) where
  delay : K
  elapsed : K
  kind : ofxControlEventKind

/-! ## ofxLine -/

/-- `enum class ofxLineShape`. -/
inductive ofxLineShape where
  | STEP | LIN | FAST_EXP | FAST_POW | FAST_COS | SLOW_EXP | SLOW_POW | SLOW_COS | S_CURVE
  deriving DecidableEq, Repr

/-- `_ofxLineSegment<float>`. -/
structure ofxLineSegment (K : Type) where
  time : K
  onset : K
  start : K
  target : K
  shape : ofxLineShape
  coeff : K
  elapsed : K
  eventList : List (ofxControlBaseEvent K)

/-- `ofxLine` (with the members of `ofxBaseControl`). -/
structure ofxLine (K : Type) where
  speed : K
  bRunning : Bool
  value : K
  shape : ofxLineShape
  coeff : K
  eventList : List (ofxControlBaseEvent K)
  segmentList : List (ofxLineSegment K)

section Line

variable {K : Type} [LinearOrderedField K]

/-- `ofxLine::init` (with `ofxBaseControl::init`): the state after construction. -/
def ofxLine.init : ofxLine K :=
  { speed := 1, bRunning := true, value := 0, shape := ofxLineShape.LIN, coeff := 0,
    eventList := [], segmentList := [] }

/-- `ofxBaseControl::setSpeed`. -/
def ofxLine.setSpeed (L : ofxLine K) (newSpeed : K) : ofxLine K :=
  { L with speed := if newSpeed ≥ 0 then newSpeed else 1 }

/-- `ofxBaseControl::pause`. -/
def ofxLine.pause (L : ofxLine K) : ofxLine K := { L with bRunning := false }

/-- `ofxBaseControl::resume`. -/
def ofxLine.resume (L : ofxLine K) : ofxLine K := { L with bRunning := true }

/-- The shape switch of `ofxLine::update` (and of `ofxMultiLine::update`): the
multiplier for a ramp position. `expf` is the single precision `exp`. -/
def shapeMult (m : Cmath K) (shape : ofxLineShape) (coeff ramp : K) : K :=
  match shape with
  | ofxLineShape.STEP => 0
  | ofxLineShape.LIN => ramp
  | ofxLineShape.FAST_EXP =>
      if coeff ≤ 0 then ramp
      else (m.exp (ramp * coeff * -1) - 1) / (m.exp (coeff * -1) - 1)
  | ofxLineShape.FAST_POW => m.pow ramp (1 / m.pow 2 coeff)
  | ofxLineShape.FAST_COS => m.sin (ramp * m.HALF_PI)
  | ofxLineShape.SLOW_EXP =>
      if coeff ≤ 0 then ramp
      else (m.exp (ramp * coeff) - 1) / (m.exp coeff - 1)
  | ofxLineShape.SLOW_POW => m.pow ramp (m.pow 2 coeff)
  | ofxLineShape.SLOW_COS => m.cos (ramp * m.HALF_PI) * -1 + 1
  | ofxLineShape.S_CURVE => m.cos (ramp * m.PI) * -(1 / 2) + 1 / 2

/-- The ramp position of a segment, `(elapsed - onset) / time`. -/
def ofxLineSegment.ramp (segment : ofxLineSegment K) : FloatDiv K :=
  fdiv (segment.elapsed - segment.onset) segment.time

/-- The loop `for (auto& event : segment->eventList) event->onTimeOut();`: the
effect of the callbacks on the engine, in list order. -/
def fireAll {S : Type} (onTimeOut : ofxControlBaseEvent K → S → S) :
    List (ofxControlBaseEvent K) → S → S
  | [], s => s
  | event :: events, s => fireAll onTimeOut events (onTimeOut event s)

/-- `ofxLine::update`, with the frame rate `fps = ofxControl::getFrameRate()`
(positive, see `ofxControl.setFrameRate`).  Returns the new state and the events
fired by this call, in firing order. -/
def ofxLine.update (onTimeOut : ofxControlBaseEvent K → ofxLine K → ofxLine K)
    (m : Cmath K) (fps : K) (L : ofxLine K) : ofxLine K × List (ofxControlBaseEvent K) :=
  match L.segmentList with
  | [] => (L, [])
  | segment :: rest =>
    if L.bRunning then
      let ramp := segment.ramp
      if ramp.gt 0 then
        if ramp.gt 1 then
          -- force target value
          let L1 := { L with value := segment.target }
          -- notify event listeners
          let L2 := fireAll onTimeOut segment.eventList L1
          -- pop segment
          let L3 := match L2.segmentList with
            | [] => L2
            | _ :: tl => { L2 with segmentList := tl }
          -- update the next one (if there is any)
          let L4 := match L3.segmentList with
            | [] => L3
            | next :: tl => { L3 with segmentList := { next with start := L3.value } :: tl }
          (L4, segment.eventList)
        else
          let mult := shapeMult m segment.shape segment.coeff ramp.val
          let diff := segment.target - segment.start
          ({ L with value := segment.start + diff * mult,
                    segmentList :=
                      { segment with elapsed := segment.elapsed + L.speed / fps } :: rest },
           [])
      else
        ({ L with segmentList :=
                    { segment with elapsed := segment.elapsed + L.speed / fps } :: rest },
         [])
    else (L, [])

/-- `ofxLine::out`. -/
def ofxLine.out (L : ofxLine K) : K := L.value

/-- `ofxLine::setValue`. -/
def ofxLine.setValue (L : ofxLine K) (newValue : K) : ofxLine K :=
  { L with segmentList := [], value := newValue }

/-- `ofxLine::setShape`. -/
def ofxLine.setShape (L : ofxLine K) (newShape : ofxLineShape) (newCoeff : K) : ofxLine K :=
  { L with shape := newShape, coeff := if newCoeff ≥ 0 then newCoeff else 0 }

/-- The event object built by the three overloads of `addOnSegmentEnd`: the
constructors are called without a delay, so `delay` and `elapsed` are 0. -/
def segmentEndEvent (kind : ofxControlEventKind) : ofxControlBaseEvent K :=
  { delay := 0, elapsed := 0, kind := kind }

/-- `ofxLine::addOnSegmentEnd`: the three overloads push the new event at the back
of the temporary event list. -/
def ofxLine.addOnSegmentEnd (L : ofxLine K) (kind : ofxControlEventKind) : ofxLine K :=
  { L with eventList := L.eventList ++ [segmentEndEvent kind] }

/-- `ofxLine::clearOnSegmentEnd`. -/
def ofxLine.clearOnSegmentEnd (L : ofxLine K) : ofxLine K := { L with eventList := [] }

/-- `ofxLine::addSegment`. -/
def ofxLine.addSegment (L : ofxLine K) (targetValue rampTime timeOnset : K) : ofxLine K :=
  let segment : ofxLineSegment K :=
    { time := if rampTime ≥ 0 then rampTime else 0,
      onset := if timeOnset ≥ 0 then timeOnset else 0,
      start := L.value,
      target := targetValue,
      shape := L.shape,
      coeff := L.coeff,
      elapsed := 0,
      eventList := L.eventList }
  { L with eventList := [], segmentList := L.segmentList ++ [segment] }

/-- `ofxLine::removeLastSegment`. -/
def ofxLine.removeLastSegment (L : ofxLine K) : ofxLine K :=
  if L.segmentList.isEmpty then L
  else
    match L.segmentList.dropLast with
    | [only] => { L with segmentList := [{ only with start := L.value }] }
    | remaining => { L with segmentList := remaining }

/-- `ofxLine::nextSegment`. -/
def ofxLine.nextSegment (L : ofxLine K) : ofxLine K :=
  match L.segmentList with
  | [] => L
  | _ :: tl =>
    match tl with
    | [] => { L with segmentList := [] }
    | next :: tl2 => { L with segmentList := { next with start := L.value } :: tl2 }

/-- `ofxLine::clear`. -/
def ofxLine.clear (L : ofxLine K) : ofxLine K :=
  { L with segmentList := [], eventList := [] }

/-- The table of the Shape Evaluator in the specification (section 4.4), written
with the same `<cmath>` parameters: `π/2` is `HALF_PI` and `π` is `PI`. -/
def evaluate (m : Cmath K) (r : K) (kind : ofxLineShape) (c : K) : K :=
  match kind with
  | ofxLineShape.STEP => 0
  | ofxLineShape.LIN => r
  | ofxLineShape.FAST_EXP => if c ≤ 0 then r else (m.exp (-(c * r)) - 1) / (m.exp (-c) - 1)
  | ofxLineShape.FAST_POW => m.pow r (1 / m.pow 2 c)
  | ofxLineShape.FAST_COS => m.sin (r * m.HALF_PI)
  | ofxLineShape.SLOW_EXP => if c ≤ 0 then r else (m.exp (c * r) - 1) / (m.exp c - 1)
  | ofxLineShape.SLOW_POW => m.pow r (m.pow 2 c)
  | ofxLineShape.SLOW_COS => 1 - m.cos (r * m.HALF_PI)
  | ofxLineShape.S_CURVE => 1 / 2 - 1 / 2 * m.cos (r * m.PI)

/-! ### Call sequences on one engine -/

/-- The public operations of `ofxLine`, as the host calls them. -/
inductive LineOp (K : Type) where
  | update : LineOp K
  | setValue (newValue : K) : LineOp K
  | setShape (newShape : ofxLineShape) (newCoeff : K) : LineOp K
  | addOnSegmentEnd (kind : ofxControlEventKind) : LineOp K
  | clearOnSegmentEnd : LineOp K
  | addSegment (targetValue rampTime timeOnset : K) : LineOp K
  | removeLastSegment : LineOp K
  | nextSegment : LineOp K
  | clear : LineOp K
  | setSpeed (newSpeed : K) : LineOp K
  | pause : LineOp K
  | resume : LineOp K

/-- One call: the new state and the events fired during the call.  Only
`update` contains a call of `onTimeOut`. -/
def ofxLine.step (onTimeOut : ofxControlBaseEvent K → ofxLine K → ofxLine K)
    (m : Cmath K) (fps : K) (L : ofxLine K) :
    LineOp K → ofxLine K × List (ofxControlBaseEvent K)
  | LineOp.update => L.update onTimeOut m fps
  | LineOp.setValue v => (L.setValue v, [])
  | LineOp.setShape s c => (L.setShape s c, [])
  | LineOp.addOnSegmentEnd kind => (L.addOnSegmentEnd kind, [])
  | LineOp.clearOnSegmentEnd => (L.clearOnSegmentEnd, [])
  | LineOp.addSegment t rt ons => (L.addSegment t rt ons, [])
  | LineOp.removeLastSegment => (L.removeLastSegment, [])
  | LineOp.nextSegment => (L.nextSegment, [])
  | LineOp.clear => (L.clear, [])
  | LineOp.setSpeed s => (L.setSpeed s, [])
  | LineOp.pause => (L.pause, [])
  | LineOp.resume => (L.resume, [])

/-- A sequence of calls: the final state and all events fired, in firing order. -/
def ofxLine.run (onTimeOut : ofxControlBaseEvent K → ofxLine K → ofxLine K)
    (m : Cmath K) (fps : K) : List (LineOp K) → ofxLine K →
    ofxLine K × List (ofxControlBaseEvent K)
  | [], L => (L, [])
  | op :: ops, L =>
    let r := L.step onTimeOut m fps op
    let r2 := ofxLine.run onTimeOut m fps ops r.1
    (r2.1, r.2 ++ r2.2)

/-- `n` successive calls of `update`: the final state and all events fired. -/
def ofxLine.updateN (onTimeOut : ofxControlBaseEvent K → ofxLine K → ofxLine K)
    (m : Cmath K) (fps : K) : Nat → ofxLine K → ofxLine K × List (ofxControlBaseEvent K)
  | 0, L => (L, [])
  | n + 1, L =>
    let r := L.update onTimeOut m fps
    let r2 := ofxLine.updateN onTimeOut m fps n r.1
    (r2.1, r.2 ++ r2.2)

/-- Callbacks whose targets lie outside the engine: firing leaves it untouched. -/
def externalCallback : ofxControlBaseEvent K → ofxLine K → ofxLine K := fun _ L => L

/-- The operations after which the output of an idle engine is still the value
given to `setValue`: all but `addSegment` and `setValue`. -/
def LineOp.keepsIdle : LineOp K → Prop
  | LineOp.addSegment _ _ _ => False
  | LineOp.setValue _ => False
  | _ => True

/-- A request for one segment: the actions attached with `addOnSegmentEnd`,
followed by the arguments of the `addSegment` call. -/
structure SegmentRequest (K : Type) where
  actions : List ofxControlEventKind
  targetValue : K
  rampTime : K
  timeOnset : K

/-- The calls `addOnSegmentEnd(a)` for each action of the request, in order, then
`addSegment(targetValue, rampTime, timeOnset)`. -/
def ofxLine.addRequest (L : ofxLine K) (q : SegmentRequest K) : ofxLine K :=
  (q.actions.foldl ofxLine.addOnSegmentEnd L).addSegment q.targetValue q.rampTime q.timeOnset

/-- A sequence of segment requests, issued in list order. -/
def ofxLine.addRequests (L : ofxLine K) (qs : List (SegmentRequest K)) : ofxLine K :=
  qs.foldl ofxLine.addRequest L

/-- The events each requested segment is expected to carry: the actions attached
since the previous `addSegment` (for the first one, after the events already
pending). -/
def attachedEvents (pending : List (ofxControlBaseEvent K)) :
    List (SegmentRequest K) → List (List (ofxControlBaseEvent K))
  | [] => []
  | q :: qs => (pending ++ q.actions.map segmentEndEvent) :: attachedEvents [] qs

/-- What identifies a queued segment for the host: its target and its events. -/
def ofxLineSegment.tag (segment : ofxLineSegment K) : K × List (ofxControlBaseEvent K) :=
  (segment.target, segment.eventList)

/-- The loop `for (auto& event : segment->eventList) event->onTimeOut();` with the
lifetime of the list it walks: `segment->eventList` is a member of the head
segment of the queue, so when a callback leaves the queue empty that list has been
destroyed with its segment, and the next step of the loop (advancing the iterator,
comparing it with `end()`) reads freed memory: `none`. -/
def fireAllOwned (onTimeOut : ofxControlBaseEvent K → ofxLine K → ofxLine K) :
    List (ofxControlBaseEvent K) → ofxLine K → Option (ofxLine K)
  | [], L => some L
  | event :: events, L =>
    let L2 := onTimeOut event L
    if L2.segmentList.isEmpty then none else fireAllOwned onTimeOut events L2

end Line

/-! ## Event comparison -/

/-- The same event with another payload (the value to write, or the call
argument); a call without argument has none. -/
def ofxControlEventKind.setPayload : ofxControlEventKind → Int → ofxControlEventKind
  | ofxControlEventKind.ofxControlVarEvent T var _, v =>
      ofxControlEventKind.ofxControlVarEvent T var v
  | ofxControlEventKind.ofxControlFuncEvent TArg TReturn TObj obj func _, v =>
      ofxControlEventKind.ofxControlFuncEvent TArg TReturn TObj obj func v
  | ofxControlEventKind.ofxControlFuncEventVoid TReturn TObj obj func, _ =>
      ofxControlEventKind.ofxControlFuncEventVoid TReturn TObj obj func

/-- The three `compare` overrides, `a.compare(&testObj)`: the `dynamic_cast` succeeds
when `testObj` is an instance of the same class template with the same template
arguments; then the pointers are compared. -/
def ofxControlEventKind.compare : ofxControlEventKind → ofxControlEventKind → Bool
  | ofxControlEventKind.ofxControlVarEvent T var _,
    ofxControlEventKind.ofxControlVarEvent T2 var2 _ =>
      decide (T = T2) && decide (var = var2)
  | ofxControlEventKind.ofxControlFuncEvent TArg TReturn TObj obj func _,
    ofxControlEventKind.ofxControlFuncEvent TArg2 TReturn2 TObj2 obj2 func2 _ =>
      decide (TArg = TArg2 ∧ TReturn = TReturn2 ∧ TObj = TObj2) &&
        (decide (obj = obj2) && decide (func = func2))
  | ofxControlEventKind.ofxControlFuncEventVoid TReturn TObj obj func,
    ofxControlEventKind.ofxControlFuncEventVoid TReturn2 TObj2 obj2 func2 =>
      decide (TReturn = TReturn2 ∧ TObj = TObj2) &&
        (decide (obj = obj2) && decide (func = func2))
  | _, _ => false

/-- `ofxControlBaseEvent::compare` (virtual): `a->compare(testObj)`. -/
def ofxControlBaseEvent.compare {K : Type} (a testObj : ofxControlBaseEvent K) : Bool :=
  a.kind.compare testObj.kind

/-! ## ofxClock -/

/-- `ofxClock` (with the members of `ofxBaseControl`). -/
structure ofxClock (K : Type) where
  speed : K
  bRunning : Bool
  clockList : List (ofxControlBaseEvent K)

section Clock

variable {K : Type} [LinearOrderedField K]

/-- `ofxClock::init`. -/
def ofxClock.init : ofxClock K := { speed := 1, bRunning := true, clockList := [] }

/-- The statement `(*clock)->elapsed += dt`. -/
def ofxControlBaseEvent.addElapsed (clock : ofxControlBaseEvent K) (dt : K) :
    ofxControlBaseEvent K :=
  { clock with elapsed := clock.elapsed + dt }

/-- The `while` loop of `ofxClock::update` over the clock list, with the time step
`dt = speed / fps`: the clocks left in the list and the clocks fired, in the order
of the walk.  The callbacks act outside the scheduler. -/
def ofxClock.walk (dt : K) :
    List (ofxControlBaseEvent K) → List (ofxControlBaseEvent K) × List (ofxControlBaseEvent K)
  | [] => ([], [])
  | clock :: rest =>
    -- increment elapsed time
    let aged := clock.addElapsed dt
    let r := ofxClock.walk dt rest
    if aged.elapsed > aged.delay then (r.1, aged :: r.2) else (aged :: r.1, r.2)

/-- `ofxClock::update` with the frame rate `fps`: the new state and the clocks
fired by this call, in firing order. -/
def ofxClock.update (fps : K) (C : ofxClock K) : ofxClock K × List (ofxControlBaseEvent K) :=
  if C.bRunning then
    let r := ofxClock.walk (C.speed / fps) C.clockList
    ({ C with clockList := r.1 }, r.2)
  else (C, [])

/-- `ofxClock::add`: the three overloads push a new event with the clamped delay
at the back of the clock list. -/
def ofxClock.add (C : ofxClock K) (delayTime : K) (kind : ofxControlEventKind) : ofxClock K :=
  { C with clockList := C.clockList ++
      [{ delay := if delayTime ≥ 0 then delayTime else 0, elapsed := 0, kind := kind }] }

/-- `ofxClock::searchAndRemove`. -/
def ofxClock.searchAndRemoveList (testobj : ofxControlBaseEvent K) :
    List (ofxControlBaseEvent K) → List (ofxControlBaseEvent K)
  | [] => []
  | clock :: rest =>
    if clock.compare testobj then ofxClock.searchAndRemoveList testobj rest
    else clock :: ofxClock.searchAndRemoveList testobj rest

/-- `ofxClock::searchAndRemove` on the scheduler. -/
def ofxClock.searchAndRemove (C : ofxClock K) (testobj : ofxControlBaseEvent K) : ofxClock K :=
  { C with clockList := ofxClock.searchAndRemoveList testobj C.clockList }

/-- The test object built by the three overloads of `cancel` (and of
`ofxBaseOsc::remove`) from a description: the given template arguments and
pointers, a default payload and delay 0. -/
def testObject (description : ofxControlEventKind) : ofxControlBaseEvent K :=
  { delay := 0, elapsed := 0, kind := description.setPayload 0 }

/-- `ofxClock::cancel`: the three overloads build the test object and call
`searchAndRemove`. -/
def ofxClock.cancel (C : ofxClock K) (description : ofxControlEventKind) : ofxClock K :=
  C.searchAndRemove (testObject description)

/-- `ofxClock::cancelFirst`. -/
def ofxClock.cancelFirst (C : ofxClock K) : ofxClock K :=
  { C with clockList := C.clockList.tail }

/-- `ofxClock::cancelLast`. -/
def ofxClock.cancelLast (C : ofxClock K) : ofxClock K :=
  { C with clockList := C.clockList.dropLast }

/-- `ofxClock::clear`. -/
def ofxClock.clear (C : ofxClock K) : ofxClock K := { C with clockList := [] }

/-- The state after `n` successive calls of `update`. -/
def ofxClock.afterUpdates (fps : K) : Nat → ofxClock K → ofxClock K
  | 0, C => C
  | n + 1, C => ofxClock.afterUpdates fps n (C.update fps).1

end Clock

/-! ## ofxBaseOsc -/

/-- `ofxBaseOsc` (with the members of `ofxBaseControl`).  The period counter is an
`int`; the exact model counts in `Int`, the binary32 model (`update32`) wraps it
with `incrementInt`. -/
structure ofxBaseOsc (K : Type) where
  speed : K
  bRunning : Bool
  freq : K
  wrapped : K
  phase : K
  offset : K
  counter : Int
  bReset : Bool
  eventList : List (ofxControlBaseEvent K)

section Osc

variable {K : Type} [LinearOrderedField K] [FloorRing K]

/-- Rounding towards zero. -/
def truncate (x : K) : Int := if 0 ≤ x then ⌊x⌋ else ⌈x⌉

/-- `fmod(x, y)` of `<cmath>`: `x - n * y` where `n` is `x / y` rounded towards
zero (the result of `fmod` is exact). -/
def fmod (x y : K) : K := x - (truncate (x / y) : K) * y

/-- `numeric_limits<float>::epsilon()`. -/
def FLT_EPSILON : K := 1 / 2 ^ 23

/-- `ofxBaseOsc::init`. -/
def ofxBaseOsc.init : ofxBaseOsc K :=
  { speed := 1, bRunning := true, freq := 1, wrapped := 0, phase := 0, offset := 0,
    counter := 0, bReset := true, eventList := [] }

/-- The wrapped phase computed at the start of `ofxBaseOsc::update`. -/
def ofxBaseOsc.wrap (O : ofxBaseOsc K) : K :=
  if O.offset ≠ 0 then
    let w := fmod (O.phase + O.offset) 1
    if w < 0 then w + 1 else w
  else O.phase

/-- The test `(freq > 0 && wrapped - old <= 0) || (freq < 0 && old - wrapped <= 0)`. -/
def periodBoundary (freq old wrapped : K) : Prop :=
  (freq > 0 ∧ wrapped - old ≤ 0) ∨ (freq < 0 ∧ old - wrapped ≤ 0)

instance periodBoundary.dec (freq old wrapped : K) : Decidable (periodBoundary freq old wrapped) := by
  unfold periodBoundary
  infer_instance

/-- `ofxBaseOsc::update` with the frame rate `fps`: the new state and the events
fired by this call, in firing order.  The callbacks act outside the oscillator. -/
def ofxBaseOsc.update (fps : K) (O : ofxBaseOsc K) :
    ofxBaseOsc K × List (ofxControlBaseEvent K) :=
  if O.bRunning then
    let old := O.wrapped
    let wrapped := O.wrap
    let fire : Bool := !O.bReset && decide (periodBoundary O.freq old wrapped)
    let counter := if fire then O.counter + 1 else O.counter
    let phase1 := O.phase + O.speed * O.freq / fps
    -- add a very little offset to compensate for precision errors
    let phase2 := fmod (phase1 + FLT_EPSILON) 1
    let phase3 := if phase2 < 0 then phase2 + 1 else phase2
    ({ O with wrapped := wrapped, counter := counter, bReset := false, phase := phase3 },
     if fire then O.eventList else [])
  else (O, [])

/-- `ofxBaseOsc::out`. -/
def ofxBaseOsc.out (O : ofxBaseOsc K) : K := O.wrapped

/-- `ofxBaseOsc::getCounter`. -/
def ofxBaseOsc.getCounter (O : ofxBaseOsc K) : Int := O.counter

/-- `ofxBaseOsc::add`: the three overloads push the new event at the back of the
event list. -/
def ofxBaseOsc.add (O : ofxBaseOsc K) (kind : ofxControlEventKind) : ofxBaseOsc K :=
  { O with eventList := O.eventList ++ [{ delay := 0, elapsed := 0, kind := kind }] }

/-- `ofxBaseOsc::setFrequency`. -/
def ofxBaseOsc.setFrequency (O : ofxBaseOsc K) (hz : K) : ofxBaseOsc K :=
  { O with freq := hz }

/-- `ofxBaseOsc::setPhase`: will not trigger events. -/
def ofxBaseOsc.setPhase (O : ofxBaseOsc K) (newPhase : K) : ofxBaseOsc K :=
  { O with phase := newPhase, bReset := true }

/-- `ofxBaseOsc::getPhase`: returns the wrapped phase. -/
def ofxBaseOsc.getPhase (O : ofxBaseOsc K) : K := O.wrapped

/-- `ofxBaseOsc::setPhaseOffset`. -/
def ofxBaseOsc.setPhaseOffset (O : ofxBaseOsc K) (newOffset : K) : ofxBaseOsc K :=
  { O with offset := newOffset }

/-- `ofxMetro::forceNext` (an `ofxMetro` has the members of `ofxBaseOsc`): will
reset phase and trigger events. -/
def ofxMetro.forceNext (O : ofxBaseOsc K) : ofxBaseOsc K :=
  { O with phase := 0, bReset := false }

/-- Operations of an oscillator, as the host calls them. -/
inductive OscOp (K : Type) where
  | update : OscOp K
  | setPhase (newPhase : K) : OscOp K
  | setPhaseOffset (newOffset : K) : OscOp K
  | setFrequency (hz : K) : OscOp K

/-- `n` successive calls of `update`: the final state and all events fired. -/
def ofxBaseOsc.updateN (fps : K) : Nat → ofxBaseOsc K →
    ofxBaseOsc K × List (ofxControlBaseEvent K)
  | 0, O => (O, [])
  | n + 1, O =>
    let r := O.update fps
    let r2 := ofxBaseOsc.updateN fps n r.1
    (r2.1, r.2 ++ r2.2)

/-- The argument of `setPhase`, if the call is one, lies in `[0, 1)`. -/
def OscOp.phaseInRange : OscOp K → Prop
  | OscOp.setPhase p => 0 ≤ p ∧ p < 1
  | _ => True

end Osc

/-! ## ofxTriOsc -/

/-- `ofxTriOsc`: an `ofxBaseOsc` with a vertex. -/
structure ofxTriOsc (K : Type) extends ofxBaseOsc K where
  vertex : K

section TriOsc

variable {K : Type} [LinearOrderedField K]

/-- `ofxTriOsc::out`. -/
def ofxTriOsc.out (T : ofxTriOsc K) : K :=
  if T.vertex = 0 then
    -- actually reversed sawtooth
    1 - T.wrapped
  else if T.vertex = 1 then
    -- actually sawtooth
    T.wrapped
  else
    let x := T.wrapped - T.vertex
    let x := if x < 0 then x / (-T.vertex) else x / (1 - T.vertex)
    x * -1 + 1

/-- `ofxTriOsc::setVertex`. -/
def ofxTriOsc.setVertex (T : ofxTriOsc K) (v : K) : ofxTriOsc K :=
  { T with vertex := max 0 (min 1 v) }

/-- `ofxTriOsc::getVertex`. -/
def ofxTriOsc.getVertex (T : ofxTriOsc K) : K := T.vertex

end TriOsc

/-! ## ofxMultiLine -/

/-- `_ofxLineSegment<vector<float>>`. -/
structure ofxMultiLineSegment (K : Type) where
  time : K
  onset : K
  start : List K
  target : List K
  shape : ofxLineShape
  coeff : K
  elapsed : K
  eventList : List (ofxControlBaseEvent K)

/-- `ofxMultiLine`: the members it uses (`valueVec`, `multiSegmentList`, and the
inherited speed, running flag, shape template and temporary event list). -/
structure ofxMultiLine (K : Type) where
  speed : K
  bRunning : Bool
  shape : ofxLineShape
  coeff : K
  eventList : List (ofxControlBaseEvent K)
  valueVec : List K
  multiSegmentList : List (ofxMultiLineSegment K)

section MultiLine

variable {K : Type} [LinearOrderedField K]

/-- `std::vector<float>::resize(n, 0)`. -/
def resize (v : List K) (n : Nat) : List K :=
  v.take n ++ List.replicate (n - v.length) 0

/-- `ofxMultiLine::init`. -/
def ofxMultiLine.init : ofxMultiLine K :=
  { speed := 1, bRunning := true, shape := ofxLineShape.LIN, coeff := 0, eventList := [],
    valueVec := [0], multiSegmentList := [] }

/-- The constructor `ofxMultiLine(int numLines)`. -/
def ofxMultiLine.construct (numLines : Int) : ofxMultiLine K :=
  let M : ofxMultiLine K := ofxMultiLine.init
  { M with valueVec := resize M.valueVec (max 1 numLines).toNat }

/-- The ramp position of a segment, `(elapsed - onset) / time`. -/
def ofxMultiLineSegment.ramp (segment : ofxMultiLineSegment K) : FloatDiv K :=
  fdiv (segment.elapsed - segment.onset) segment.time

/-- The loop `for (i = 0; i < valueVec.size(); ++i)` of `ofxMultiLine::update`,
walking `valueVec`, `segment->start` and `segment->target` by index: the new
values, or `none` when `start[i]` or `target[i]` does not exist. -/
def interpolate (mult : K) : List K → List K → List K → Option (List K)
  | [], _, _ => some []
  | _ :: values, s :: starts, t :: targets =>
    match interpolate mult values starts targets with
    | some rest => some ((s + (t - s) * mult) :: rest)
    | none => none
  | _ :: _, _, _ => none

/-- `ofxMultiLine::update` with the frame rate `fps`: the new state and the events
fired by this call, or `none` when the interpolation loop reads past the end of a
vector. -/
def ofxMultiLine.update (onTimeOut : ofxControlBaseEvent K → ofxMultiLine K → ofxMultiLine K)
    (m : Cmath K) (fps : K) (M : ofxMultiLine K) :
    Option (ofxMultiLine K × List (ofxControlBaseEvent K)) :=
  match M.multiSegmentList with
  | [] => some (M, [])
  | segment :: rest =>
    if M.bRunning then
      let ramp := segment.ramp
      if ramp.gt 0 then
        if ramp.gt 1 then
          -- force target value (the vector is moved out of the segment popped below)
          let M1 := { M with valueVec := segment.target }
          -- notify event listeners
          let M2 := fireAll onTimeOut segment.eventList M1
          -- pop segment
          let M3 := match M2.multiSegmentList with
            | [] => M2
            | _ :: tl => { M2 with multiSegmentList := tl }
          -- update the next one (if there is any)
          let M4 := match M3.multiSegmentList with
            | [] => M3
            | next :: tl =>
              { M3 with multiSegmentList := { next with start := M3.valueVec } :: tl }
          some (M4, segment.eventList)
        else
          let mult := shapeMult m segment.shape segment.coeff ramp.val
          match interpolate mult M.valueVec segment.start segment.target with
          | some values =>
            some ({ M with valueVec := values,
                           multiSegmentList :=
                             { segment with elapsed := segment.elapsed + M.speed / fps } :: rest },
                  [])
          | none => none
      else
        some ({ M with multiSegmentList :=
                         { segment with elapsed := segment.elapsed + M.speed / fps } :: rest },
              [])
    else some (M, [])

/-- `ofxMultiLine::setNumLines`. -/
def ofxMultiLine.setNumLines (M : ofxMultiLine K) (numLines : Int) : ofxMultiLine K :=
  let n := (max 1 numLines).toNat
  { M with
      valueVec := resize M.valueVec n,
      multiSegmentList := M.multiSegmentList.map fun segment =>
        { segment with start := resize segment.start n, target := resize segment.target n } }

/-- `ofxMultiLine::getNumLines`. -/
def ofxMultiLine.getNumLines (M : ofxMultiLine K) : Int := M.valueVec.length

/-- `ofxMultiLine::operator[]`: the element at the clamped index, or `none` when
that element does not exist. -/
def ofxMultiLine.index (M : ofxMultiLine K) (index : Int) : Option K :=
  let index := max 0 (min ((M.valueVec.length : Int) - 1) index)
  M.valueVec[index.toNat]?

/-- `ofxMultiLine::out`. -/
def ofxMultiLine.out (M : ofxMultiLine K) : List K := M.valueVec

/-- `ofxMultiLine::setValues(const vector<float>&)`. -/
def ofxMultiLine.setValues (M : ofxMultiLine K) (newValues : List K) : ofxMultiLine K :=
  { M with multiSegmentList := [], valueVec := newValues }

/-- `ofxMultiLine::setValues(float)`. -/
def ofxMultiLine.setValuesAll (M : ofxMultiLine K) (newValue : K) : ofxMultiLine K :=
  { M with multiSegmentList := [], valueVec := List.replicate M.valueVec.length newValue }

/-- `ofxLine::setShape`, inherited. -/
def ofxMultiLine.setShape (M : ofxMultiLine K) (newShape : ofxLineShape) (newCoeff : K) :
    ofxMultiLine K :=
  { M with shape := newShape, coeff := if newCoeff ≥ 0 then newCoeff else 0 }

/-- `ofxLine::addOnSegmentEnd`, inherited. -/
def ofxMultiLine.addOnSegmentEnd (M : ofxMultiLine K) (kind : ofxControlEventKind) :
    ofxMultiLine K :=
  { M with eventList := M.eventList ++ [segmentEndEvent kind] }

/-- `ofxMultiLine::addSegment`. -/
def ofxMultiLine.addSegment (M : ofxMultiLine K) (targetValues : List K)
    (rampTime timeOnset : K) : ofxMultiLine K :=
  let segment : ofxMultiLineSegment K :=
    { time := if rampTime ≥ 0 then rampTime else 0,
      onset := if timeOnset ≥ 0 then timeOnset else 0,
      start := M.valueVec,
      target := resize targetValues M.valueVec.length,
      shape := M.shape,
      coeff := M.coeff,
      elapsed := 0,
      eventList := M.eventList }
  { M with eventList := [], multiSegmentList := M.multiSegmentList ++ [segment] }

/-- `ofxMultiLine::removeLastSegment`. -/
def ofxMultiLine.removeLastSegment (M : ofxMultiLine K) : ofxMultiLine K :=
  if M.multiSegmentList.isEmpty then M
  else
    match M.multiSegmentList.dropLast with
    | [only] => { M with multiSegmentList := [{ only with start := M.valueVec }] }
    | remaining => { M with multiSegmentList := remaining }

/-- `ofxMultiLine::nextSegment`. -/
def ofxMultiLine.nextSegment (M : ofxMultiLine K) : ofxMultiLine K :=
  match M.multiSegmentList with
  | [] => M
  | _ :: tl =>
    match tl with
    | [] => { M with multiSegmentList := [] }
    | next :: tl2 => { M with multiSegmentList := { next with start := M.valueVec } :: tl2 }

/-- `ofxMultiLine::clear`. -/
def ofxMultiLine.clear (M : ofxMultiLine K) : ofxMultiLine K :=
  { M with multiSegmentList := [], eventList := [] }

/-- Callbacks whose targets lie outside the engine: firing leaves it untouched. -/
def externalMultiCallback : ofxControlBaseEvent K → ofxMultiLine K → ofxMultiLine K :=
  fun _ M => M

/-! ### Call sequences on a multi-value engine, and its components -/

/-- Operations of `ofxMultiLine`, as the host calls them. -/
inductive MultiOp (K : Type) where
  | update : MultiOp K
  | setValues (newValues : List K) : MultiOp K
  | setValuesAll (newValue : K) : MultiOp K
  | setShape (newShape : ofxLineShape) (newCoeff : K) : MultiOp K
  | addOnSegmentEnd (kind : ofxControlEventKind) : MultiOp K
  | addSegment (targetValues : List K) (rampTime timeOnset : K) : MultiOp K
  | removeLastSegment : MultiOp K
  | nextSegment : MultiOp K
  | clear : MultiOp K

/-- One call on the multi-value engine. -/
def ofxMultiLine.step (onTimeOut : ofxControlBaseEvent K → ofxMultiLine K → ofxMultiLine K)
    (m : Cmath K) (fps : K) (M : ofxMultiLine K) :
    MultiOp K → Option (ofxMultiLine K × List (ofxControlBaseEvent K))
  | MultiOp.update => M.update onTimeOut m fps
  | MultiOp.setValues v => some (M.setValues v, [])
  | MultiOp.setValuesAll v => some (M.setValuesAll v, [])
  | MultiOp.setShape sh c => some (M.setShape sh c, [])
  | MultiOp.addOnSegmentEnd kind => some (M.addOnSegmentEnd kind, [])
  | MultiOp.addSegment t rt ons => some (M.addSegment t rt ons, [])
  | MultiOp.removeLastSegment => some (M.removeLastSegment, [])
  | MultiOp.nextSegment => some (M.nextSegment, [])
  | MultiOp.clear => some (M.clear, [])

/-- A sequence of calls on the multi-value engine: the final state and all events
fired, or `none` when a call fails. -/
def ofxMultiLine.run (onTimeOut : ofxControlBaseEvent K → ofxMultiLine K → ofxMultiLine K)
    (m : Cmath K) (fps : K) : List (MultiOp K) → ofxMultiLine K →
    Option (ofxMultiLine K × List (ofxControlBaseEvent K))
  | [], M => some (M, [])
  | op :: ops, M =>
    match M.step onTimeOut m fps op with
    | none => none
    | some r =>
      match ofxMultiLine.run onTimeOut m fps ops r.1 with
      | none => none
      | some r2 => some (r2.1, r.2 ++ r2.2)

/-- The same call on a single-value engine, with the `i`-th components as target
or value. -/
def MultiOp.component (i : Nat) : MultiOp K → LineOp K
  | MultiOp.update => LineOp.update
  | MultiOp.setValues v => LineOp.setValue (v.getD i 0)
  | MultiOp.setValuesAll v => LineOp.setValue v
  | MultiOp.setShape sh c => LineOp.setShape sh c
  | MultiOp.addOnSegmentEnd kind => LineOp.addOnSegmentEnd kind
  | MultiOp.addSegment t rt ons => LineOp.addSegment (t.getD i 0) rt ons
  | MultiOp.removeLastSegment => LineOp.removeLastSegment
  | MultiOp.nextSegment => LineOp.nextSegment
  | MultiOp.clear => LineOp.clear

/-- The vectors passed by the call have `n` elements. -/
def MultiOp.fits (n : Nat) : MultiOp K → Prop
  | MultiOp.setValues v => v.length = n
  | MultiOp.addSegment t _ _ => t.length = n
  | _ => True

/-- The `i`-th component of a segment. -/
def ofxMultiLineSegment.component (i : Nat) (segment : ofxMultiLineSegment K) :
    ofxLineSegment K :=
  { time := segment.time, onset := segment.onset, start := segment.start.getD i 0,
    target := segment.target.getD i 0, shape := segment.shape, coeff := segment.coeff,
    elapsed := segment.elapsed, eventList := segment.eventList }

/-- The single-value engine seen in the `i`-th component of a multi-value engine. -/
def ofxMultiLine.component (i : Nat) (M : ofxMultiLine K) : ofxLine K :=
  { speed := M.speed, bRunning := M.bRunning, value := M.valueVec.getD i 0, shape := M.shape,
    coeff := M.coeff, eventList := M.eventList,
    segmentList := M.multiSegmentList.map (ofxMultiLineSegment.component i) }

/-- All vectors of the engine (the output, and the start and target of every
queued segment) have `n` elements. -/
def ofxMultiLine.hasLines (n : Nat) (M : ofxMultiLine K) : Prop :=
  M.valueVec.length = n ∧
  ∀ segment ∈ M.multiSegmentList, segment.start.length = n ∧ segment.target.length = n

/-- Calls on a multi-value engine, `setNumLines` included. -/
inductive MultiCall (K : Type) where
  | op (o : MultiOp K) : MultiCall K
  | setNumLines (numLines : Int) : MultiCall K

/-- One call on the multi-value engine. -/
def ofxMultiLine.call (onTimeOut : ofxControlBaseEvent K → ofxMultiLine K → ofxMultiLine K)
    (m : Cmath K) (fps : K) (M : ofxMultiLine K) :
    MultiCall K → Option (ofxMultiLine K × List (ofxControlBaseEvent K))
  | MultiCall.op o => M.step onTimeOut m fps o
  | MultiCall.setNumLines n => some (M.setNumLines n, [])

/-- A sequence of calls on the multi-value engine, or `none` when a call fails. -/
def ofxMultiLine.calls (onTimeOut : ofxControlBaseEvent K → ofxMultiLine K → ofxMultiLine K)
    (m : Cmath K) (fps : K) : List (MultiCall K) → ofxMultiLine K →
    Option (ofxMultiLine K × List (ofxControlBaseEvent K))
  | [], M => some (M, [])
  | c :: cs, M =>
    match M.call onTimeOut m fps c with
    | none => none
    | some r =>
      match ofxMultiLine.calls onTimeOut m fps cs r.1 with
      | none => none
      | some r2 => some (r2.1, r.2 ++ r2.2)

end MultiLine

/-! ## binary32 arithmetic

Where a claim depends on which `update` first sees a sum pass a threshold, the
`float` operations are modelled with their rounding: every `float` operation is
the exact operation on rationals followed by `fl32`, every `double` operation is
followed by `fl64`.  Overflow to infinity and NaN operands are not modelled (the
division of the ramp position by zero apart). -/

/-- Rounding to the nearest integer, ties to the even one. -/
def roundHalfEven (q : ℚ) : Int :=
  if q - ⌊q⌋ < 1 / 2 then ⌊q⌋
  else if 1 / 2 < q - ⌊q⌋ then ⌊q⌋ + 1
  else if ⌊q⌋ % 2 = 0 then ⌊q⌋ else ⌊q⌋ + 1

/-- The number of halvings that bring `n` below 2 (`fuel` bounds the recursion):
`⌊log₂ n⌋` for `1 ≤ n ≤ fuel`. -/
def log2Fuel : Nat → Nat → Nat
  | 0, _ => 0
  | fuel + 1, n => if n < 2 then 0 else log2Fuel fuel (n / 2) + 1

/-- The binary exponent of a non-zero rational: the `e` with `2^e ≤ |q| < 2^(e+1)`. -/
def ilog2 (q : ℚ) : Int :=
  let c : Int := (log2Fuel q.num.natAbs q.num.natAbs : Int) - (log2Fuel q.den q.den : Int)
  if (2 : ℚ) ^ c ≤ |q| then c else c - 1

/-- Rounding to the nearest value of a binary floating-point format with `p`
significant bits whose smallest positive (subnormal) value is `2^emin`, ties to
even. -/
def roundBinary (p : Nat) (emin : Int) (q : ℚ) : ℚ :=
  if q = 0 then 0
  else
    let e := max (ilog2 q - ((p : Int) - 1)) emin
    (roundHalfEven (q / 2 ^ e) : ℚ) * 2 ^ e

/-- Rounding to `float` (IEEE binary32). -/
def fl32 (q : ℚ) : ℚ := roundBinary 24 (-149) q

/-- Rounding to `double` (IEEE binary64). -/
def fl64 (q : ℚ) : ℚ := roundBinary 53 (-1074) q

/-- The rational is a `float` value. -/
def isFloat32 (q : ℚ) : Prop := fl32 q = q

instance isFloat32.dec (q : ℚ) : Decidable (isFloat32 q) := by
  unfold isFloat32
  infer_instance

instance ofxControlBaseEvent.decEq {K : Type} [DecidableEq K] :
    DecidableEq (ofxControlBaseEvent K) := fun a b =>
  decidable_of_iff (a.delay = b.delay ∧ a.elapsed = b.elapsed ∧ a.kind = b.kind)
    (by cases a; cases b; simp)

instance ofxLineSegment.decEq {K : Type} [DecidableEq K] :
    DecidableEq (ofxLineSegment K) := fun a b =>
  decidable_of_iff (a.time = b.time ∧ a.onset = b.onset ∧ a.start = b.start ∧
      a.target = b.target ∧ a.shape = b.shape ∧ a.coeff = b.coeff ∧ a.elapsed = b.elapsed ∧
      a.eventList = b.eventList)
    (by cases a; cases b; simp)

instance ofxLine.decEq {K : Type} [DecidableEq K] : DecidableEq (ofxLine K) := fun a b =>
  decidable_of_iff (a.speed = b.speed ∧ a.bRunning = b.bRunning ∧ a.value = b.value ∧
      a.shape = b.shape ∧ a.coeff = b.coeff ∧ a.eventList = b.eventList ∧
      a.segmentList = b.segmentList)
    (by cases a; cases b; simp)

/-! ### ofxLine in binary32 -/

/-- The `float` quotient `a / b`, with the IEEE results of a division by zero. -/
def fdiv32 (a b : ℚ) : FloatDiv ℚ :=
  if b = 0 then
    (if a = 0 then FloatDiv.nan else if 0 < a then FloatDiv.posInf else FloatDiv.negInf)
  else FloatDiv.finite (fl32 (a / b))

/-- The ramp position `(segment->elapsed - segment->onset) / segment->time`, in
`float`. -/
def ofxLineSegment.ramp32 (segment : ofxLineSegment ℚ) : FloatDiv ℚ :=
  fdiv32 (fl32 (segment.elapsed - segment.onset)) segment.time

/-- The shape switch of `ofxLine::update` with its roundings: `ramp * coeff` is a
`float` product, the other operations are `double` operations (the literals are
`double`, the functions of `<cmath>` take and return `double`, `expf` returns
`float`), and the result is stored in the `float` variable `mult`.  The parameters
in `m` stand for the library functions. -/
def shapeMult32 (m : Cmath ℚ) (shape : ofxLineShape) (coeff ramp : ℚ) : ℚ :=
  match shape with
  | ofxLineShape.STEP => 0
  | ofxLineShape.LIN => ramp
  | ofxLineShape.FAST_EXP =>
      if coeff ≤ 0 then ramp
      else fl32 (fl64 (fl64 (m.exp (fl32 (ramp * coeff) * -1) - 1) /
        fl64 (m.exp (coeff * -1) - 1)))
  | ofxLineShape.FAST_POW => fl32 (m.pow ramp (fl64 (1 / m.pow 2 coeff)))
  | ofxLineShape.FAST_COS => fl32 (m.sin (fl64 (ramp * m.HALF_PI)))
  | ofxLineShape.SLOW_EXP =>
      if coeff ≤ 0 then ramp
      else fl32 (fl64 (fl64 (m.exp (fl32 (ramp * coeff)) - 1) /
        fl64 (fl32 (m.exp coeff) - 1)))
  | ofxLineShape.SLOW_POW => fl32 (m.pow ramp (m.pow 2 coeff))
  | ofxLineShape.SLOW_COS => fl32 (fl64 (fl64 (m.cos (fl64 (ramp * m.HALF_PI)) * -1) + 1))
  | ofxLineShape.S_CURVE =>
      fl32 (fl64 (fl64 (m.cos (fl64 (ramp * m.PI)) * -(1 / 2)) + 1 / 2))

/-- `ofxLine::update` in binary32, with the frame rate `fps`: the new state and the
events fired by this call, in firing order. -/
def ofxLine.update32 (onTimeOut : ofxControlBaseEvent ℚ → ofxLine ℚ → ofxLine ℚ)
    (m : Cmath ℚ) (fps : ℚ) (L : ofxLine ℚ) : ofxLine ℚ × List (ofxControlBaseEvent ℚ) :=
  match L.segmentList with
  | [] => (L, [])
  | segment :: rest =>
    if L.bRunning then
      let ramp := segment.ramp32
      if ramp.gt 0 then
        if ramp.gt 1 then
          -- force target value
          let L1 := { L with value := segment.target }
          -- notify event listeners
          let L2 := fireAll onTimeOut segment.eventList L1
          -- pop segment
          let L3 := match L2.segmentList with
            | [] => L2
            | _ :: tl => { L2 with segmentList := tl }
          -- update the next one (if there is any)
          let L4 := match L3.segmentList with
            | [] => L3
            | next :: tl => { L3 with segmentList := { next with start := L3.value } :: tl }
          (L4, segment.eventList)
        else
          let mult := shapeMult32 m segment.shape segment.coeff ramp.val
          let diff := fl32 (segment.target - segment.start)
          ({ L with value := fl32 (segment.start + fl32 (diff * mult)),
                    segmentList :=
                      { segment with
                          elapsed := fl32 (segment.elapsed + fl32 (L.speed / fps)) } :: rest },
           [])
      else
        ({ L with segmentList :=
                    { segment with
                        elapsed := fl32 (segment.elapsed + fl32 (L.speed / fps)) } :: rest },
         [])
    else (L, [])

/-- `n` successive calls of `update` in binary32: the final state and all events
fired. -/
def ofxLine.updateN32 (onTimeOut : ofxControlBaseEvent ℚ → ofxLine ℚ → ofxLine ℚ)
    (m : Cmath ℚ) (fps : ℚ) : Nat → ofxLine ℚ → ofxLine ℚ × List (ofxControlBaseEvent ℚ)
  | 0, L => (L, [])
  | n + 1, L =>
    let r := L.update32 onTimeOut m fps
    let r2 := ofxLine.updateN32 onTimeOut m fps n r.1
    (r2.1, r.2 ++ r2.2)

/-! ### ofxClock in binary32 -/

/-- The statement `(*clock)->elapsed += dt` in `float`. -/
def ofxControlBaseEvent.addElapsed32 (clock : ofxControlBaseEvent ℚ) (dt : ℚ) :
    ofxControlBaseEvent ℚ :=
  { clock with elapsed := fl32 (clock.elapsed + dt) }

/-- The `while` loop of `ofxClock::update` in binary32, with the time step `dt`:
the clocks left in the list and the clocks fired, in the order of the walk. -/
def ofxClock.walk32 (dt : ℚ) :
    List (ofxControlBaseEvent ℚ) → List (ofxControlBaseEvent ℚ) × List (ofxControlBaseEvent ℚ)
  | [] => ([], [])
  | clock :: rest =>
    -- increment elapsed time
    let aged := clock.addElapsed32 dt
    let r := ofxClock.walk32 dt rest
    if aged.elapsed > aged.delay then (r.1, aged :: r.2) else (aged :: r.1, r.2)

/-- `ofxClock::update` in binary32: the time step is the `float` quotient
`(float) speed / ofxControl::getFrameRate()`. -/
def ofxClock.update32 (fps : ℚ) (C : ofxClock ℚ) :
    ofxClock ℚ × List (ofxControlBaseEvent ℚ) :=
  if C.bRunning then
    let r := ofxClock.walk32 (fl32 (C.speed / fps)) C.clockList
    ({ C with clockList := r.1 }, r.2)
  else (C, [])

/-- The state after `n` successive calls of `update` in binary32. -/
def ofxClock.afterUpdates32 (fps : ℚ) : Nat → ofxClock ℚ → ofxClock ℚ
  | 0, C => C
  | n + 1, C => ofxClock.afterUpdates32 fps n (C.update32 fps).1

/-! ### ofxBaseOsc in binary32, with the `int` period counter -/

/-- `INT_MAX` of a 32 bit `int`. -/
def INT_MAX : Int := 2147483647

/-- `++counter` on a 32 bit `int`: the two's complement result.  (The overflow at
`INT_MAX` is undefined behaviour in C++; the usual targets wrap to `INT_MIN`.) -/
def incrementInt (c : Int) : Int := (c + 1 + 2 ^ 31) % 2 ^ 32 - 2 ^ 31

/-- The wrapped phase computed at the start of `ofxBaseOsc::update`, in binary32:
`phase + offset` is a `float` sum, `fmod` is exact, and `wrapped += 1.0` is a
`double` sum stored in a `float`. -/
def ofxBaseOsc.wrap32 (O : ofxBaseOsc ℚ) : ℚ :=
  if O.offset ≠ 0 then
    let w := fmod (fl32 (O.phase + O.offset)) 1
    if w < 0 then fl32 (fl64 (w + 1)) else w
  else O.phase

/-- The test `(freq > 0 && wrapped - old <= 0) || (freq < 0 && old - wrapped <= 0)`
with its `float` differences. -/
def periodBoundary32 (freq old wrapped : ℚ) : Prop :=
  (freq > 0 ∧ fl32 (wrapped - old) ≤ 0) ∨ (freq < 0 ∧ fl32 (old - wrapped) ≤ 0)

instance periodBoundary32.dec (freq old wrapped : ℚ) :
    Decidable (periodBoundary32 freq old wrapped) := by
  unfold periodBoundary32
  infer_instance

/-- `ofxBaseOsc::update` in binary32 with the frame rate `fps`: the new state and
the events fired by this call, in firing order. -/
def ofxBaseOsc.update32 (fps : ℚ) (O : ofxBaseOsc ℚ) :
    ofxBaseOsc ℚ × List (ofxControlBaseEvent ℚ) :=
  if O.bRunning then
    let old := O.wrapped
    let wrapped := O.wrap32
    let fire : Bool := !O.bReset && decide (periodBoundary32 O.freq old wrapped)
    let counter := if fire then incrementInt O.counter else O.counter
    let phase1 := fl32 (O.phase + fl32 (fl32 (O.speed * O.freq) / fps))
    -- add a very little offset to compensate for precision errors
    let phase2 := fmod (fl32 (phase1 + FLT_EPSILON)) 1
    let phase3 := if phase2 < 0 then fl32 (fl64 (phase2 + 1)) else phase2
    ({ O with wrapped := wrapped, counter := counter, bReset := false, phase := phase3 },
     if fire then O.eventList else [])
  else (O, [])

/-- One call on the oscillator in binary32: the new state and the events fired. -/
def ofxBaseOsc.step32 (fps : ℚ) (O : ofxBaseOsc ℚ) :
    OscOp ℚ → ofxBaseOsc ℚ × List (ofxControlBaseEvent ℚ)
  | OscOp.update => O.update32 fps
  | OscOp.setPhase p => (O.setPhase p, [])
  | OscOp.setPhaseOffset o => (O.setPhaseOffset o, [])
  | OscOp.setFrequency hz => (O.setFrequency hz, [])

/-- A sequence of calls on the oscillator in binary32: the final state and all
events fired. -/
def ofxBaseOsc.run32 (fps : ℚ) : List (OscOp ℚ) → ofxBaseOsc ℚ →
    ofxBaseOsc ℚ × List (ofxControlBaseEvent ℚ)
  | [], O => (O, [])
  | op :: ops, O =>
    let r := O.step32 fps op
    let r2 := ofxBaseOsc.run32 fps ops r.1
    (r2.1, r.2 ++ r2.2)

/-- `n` successive calls of `update` in binary32: the final state and all events
fired. -/
def ofxBaseOsc.updateN32 (fps : ℚ) : Nat → ofxBaseOsc ℚ →
    ofxBaseOsc ℚ × List (ofxControlBaseEvent ℚ)
  | 0, O => (O, [])
  | n + 1, O =>
    let r := O.update32 fps
    let r2 := ofxBaseOsc.updateN32 fps n r.1
    (r2.1, r.2 ++ r2.2)

/-! ### Concrete data for evaluation -/

/-- A rational stand-in for `<cmath>`; the examples use the shapes `LIN` and
`STEP`, which call none of these functions. -/
def ratCmath : Cmath ℚ :=
  { exp := fun x => 1 + x, pow := fun x _ => x, sin := fun x => x, cos := fun x => 1 - x,
    PI := 3, HALF_PI := 3 / 2 }

/-- The parameters are the functions of `<cmath>` over the reals, with `PI` the
number π and `HALF_PI` its half. -/
def Cmath.isReal (m : Cmath ℝ) : Prop :=
  m.exp = Real.exp ∧ m.pow = (fun x y => x ^ y) ∧ m.sin = Real.sin ∧ m.cos = Real.cos ∧
  m.PI = Real.pi ∧ m.HALF_PI = Real.pi / 2

/-- A write of the value 7 to the variable at address 100 (of type tag 1). -/
def exEvent : ofxControlBaseEvent ℚ :=
  { delay := 0, elapsed := 0, kind := ofxControlEventKind.ofxControlVarEvent 1 100 7 }

/-- A call of the member function 5 (no argument) on the object at address 200. -/
def exEvent2 : ofxControlBaseEvent ℚ :=
  { delay := 0, elapsed := 0, kind := ofxControlEventKind.ofxControlFuncEventVoid 0 2 200 5 }

/-- A linear segment towards `target`. -/
def exSegment (target time onset elapsed : ℚ) (events : List (ofxControlBaseEvent ℚ)) :
    ofxLineSegment ℚ :=
  { time := time, onset := onset, start := 0, target := target, shape := ofxLineShape.LIN,
    coeff := 0, elapsed := elapsed, eventList := events }

/-- A running engine at speed 1 with the given queue and pending events. -/
def exLine (queue : List (ofxLineSegment ℚ)) (pending : List (ofxControlBaseEvent ℚ)) :
    ofxLine ℚ :=
  { speed := 1, bRunning := true, value := 0, shape := ofxLineShape.LIN, coeff := 0,
    eventList := pending, segmentList := queue }

/-- A running scheduler at speed 1 with a clock of delay 0 and a clock of delay 1. -/
def exClock : ofxClock ℚ :=
  { speed := 1, bRunning := true,
    clockList := [exEvent, { delay := 1, elapsed := 0, kind := exEvent2.kind }] }

/-- A running oscillator of frequency 1 with one event, at wrapped phase 29/30 and
phase 0: the next update crosses the period boundary. -/
def exOsc : ofxBaseOsc ℚ :=
  { speed := 1, bRunning := true, freq := 1, wrapped := 29 / 30, phase := 0, offset := 0,
    counter := 0, bReset := false, eventList := [exEvent] }

/-- A call of the member function 1 (`clear`, no argument) on the object at
address 900, the engine itself. -/
def exClearEvent : ofxControlBaseEvent ℚ :=
  { delay := 0, elapsed := 0, kind := ofxControlEventKind.ofxControlFuncEventVoid 0 9 900 1 }

/-- The effect on the engine of the callbacks of the example: `exClearEvent`
calls `clear` on the engine, every other event acts outside it. -/
def exCallback (event : ofxControlBaseEvent ℚ) (L : ofxLine ℚ) : ofxLine ℚ :=
  if event.kind = exClearEvent.kind then L.clear else L

/-- The engine made by `addSegment(10, 2000000)` on a fresh engine, with the elapsed
time `el` of its segment and the output `v` (what `update` changes while the
segment is queued). -/
def exLongAt (el v : ℚ) : ofxLine ℚ :=
  { speed := 1, bRunning := true, value := v, shape := ofxLineShape.LIN,
    coeff := 0, eventList := [],
    segmentList := [{ time := 2000000, onset := 0, start := 0, target := 10,
                      shape := ofxLineShape.LIN, coeff := 0, elapsed := el,
                      eventList := [] }] }

/-- The engine made by `addSegment(10, 2000000)` on a fresh engine when the elapsed
time of the segment is `1048576 = 2^20`, with the value interpolated at that
elapsed time. -/
def exStalled : ofxLine ℚ :=
  { speed := 1, bRunning := true, value := 2748779 / 524288, shape := ofxLineShape.LIN,
    coeff := 0, eventList := [],
    segmentList := [{ time := 2000000, onset := 0, start := 0, target := 10,
                      shape := ofxLineShape.LIN, coeff := 0, elapsed := 1048576,
                      eventList := [] }] }

/-- The fresh oscillator of frequency 1 with one event after 30 updates at 30
frames per second, in binary32: the phase has wrapped to `33 / 2^23`, the wrapped
phase is still `2027255 / 2^21` (about 0.96667), so the next update crosses the
period boundary. -/
def exOsc32 : ofxBaseOsc ℚ :=
  { speed := 1, bRunning := true, freq := 1, wrapped := 2027255 / 2097152,
    phase := 33 / 8388608, offset := 0, counter := 0, bReset := false,
    eventList := [exEvent] }

/-! ## Theorems -/

lemma fireAll_of_untouched {K S : Type} (onTimeOut : ofxControlBaseEvent K → S → S)
    (events : List (ofxControlBaseEvent K)) (s : S)
    (h : ∀ e ∈ events, ∀ t, onTimeOut e t = t) : fireAll onTimeOut events s = s := by
  induction events generalizing s with
  | nil => rfl
  | cons e es ih =>
    have he : onTimeOut e s = s := h e (List.mem_cons_self e es) s
    have hes : ∀ x ∈ es, ∀ t, onTimeOut x t = t :=
      fun x hx t => h x (List.mem_cons_of_mem e hx) t
    simp only [fireAll, he]
    exact ih s hes

lemma map_eventList_of_map_tag {K : Type} (xs ys : List (ofxLineSegment K))
    (h : xs.map ofxLineSegment.tag = ys.map ofxLineSegment.tag) :
    xs.map ofxLineSegment.eventList = ys.map ofxLineSegment.eventList := by
  have hx : ∀ zs : List (ofxLineSegment K),
      zs.map ofxLineSegment.eventList = (zs.map ofxLineSegment.tag).map Prod.snd := by
    intro zs
    rw [List.map_map]
    rfl
  rw [hx xs, hx ys, h]

section LineLemmas

variable {K : Type} [LinearOrderedField K]

/-- The stored frame rate is positive whatever the host passes to `setFrameRate`,
so the time step `speed / fps` of an `update` is a real division. -/
lemma setFrameRate_pos (fps : K) : 0 < ofxControl.setFrameRate fps := by
  unfold ofxControl.setFrameRate OFXCONTROL_DEFAULT_RATE
  split
  · assumption
  · norm_num

lemma attachedEvents_length (pending : List (ofxControlBaseEvent K))
    (qs : List (SegmentRequest K)) : (attachedEvents pending qs).length = qs.length := by
  induction qs generalizing pending with
  | nil => rfl
  | cons q qs ih => simp [attachedEvents, ih]

lemma FloatDiv.gt_zero_of_gt_one (x : FloatDiv K) (h : x.gt 1) : x.gt 0 := by
  cases x with
  | nan => exact h
  | negInf => exact h
  | posInf => exact h
  | finite q =>
    have h1 : (1 : K) < q := h
    exact (lt_trans zero_lt_one h1 : (0 : K) < q)

/-- The completion branch of `update` for callbacks that leave the engine alone. -/
lemma update_of_complete (onTimeOut : ofxControlBaseEvent K → ofxLine K → ofxLine K)
    (m : Cmath K) (fps : K) (L : ofxLine K) (segment : ofxLineSegment K)
    (rest : List (ofxLineSegment K)) (hq : L.segmentList = segment :: rest)
    (hrun : L.bRunning = true) (hramp : segment.ramp.gt 1)
    (hcb : ∀ e ∈ segment.eventList, ∀ s, onTimeOut e s = s) :
    L.update onTimeOut m fps =
      ({ L with
          value := segment.target,
          segmentList :=
            match rest with
            | [] => []
            | next :: tl => { next with start := segment.target } :: tl },
       segment.eventList) := by
  have h0 : segment.ramp.gt 0 := FloatDiv.gt_zero_of_gt_one _ hramp
  obtain ⟨speed, run, value, shape, coeff, events, queue⟩ := L
  simp only at hq hrun
  subst hq hrun
  simp only [ofxLine.update, h0, hramp, if_true]
  rw [fireAll_of_untouched onTimeOut segment.eventList _ hcb]
  cases rest <;> rfl

/-- The waiting branch of `update`. -/
lemma update_of_waiting (onTimeOut : ofxControlBaseEvent K → ofxLine K → ofxLine K)
    (m : Cmath K) (fps : K) (L : ofxLine K) (segment : ofxLineSegment K)
    (rest : List (ofxLineSegment K)) (hq : L.segmentList = segment :: rest)
    (hrun : L.bRunning = true) (hramp : ¬ segment.ramp.gt 0) :
    L.update onTimeOut m fps =
      ({ L with segmentList :=
          { segment with elapsed := segment.elapsed + L.speed / fps } :: rest }, []) := by
  obtain ⟨speed, run, value, shape, coeff, events, queue⟩ := L
  simp only at hq hrun
  subst hq hrun
  simp only [ofxLine.update, hramp, if_true, if_false]

/-- The interpolation branch of `update`. -/
lemma update_of_ramping (onTimeOut : ofxControlBaseEvent K → ofxLine K → ofxLine K)
    (m : Cmath K) (fps : K) (L : ofxLine K) (segment : ofxLineSegment K)
    (rest : List (ofxLineSegment K)) (hq : L.segmentList = segment :: rest)
    (hrun : L.bRunning = true) (h0 : segment.ramp.gt 0) (h1 : ¬ segment.ramp.gt 1) :
    L.update onTimeOut m fps =
      ({ L with
          value := segment.start + (segment.target - segment.start) *
            shapeMult m segment.shape segment.coeff segment.ramp.val,
          segmentList :=
            { segment with elapsed := segment.elapsed + L.speed / fps } :: rest }, []) := by
  obtain ⟨speed, run, value, shape, coeff, events, queue⟩ := L
  simp only at hq hrun
  subst hq hrun
  simp only [ofxLine.update, h0, h1, if_true, if_false]

lemma update_of_empty (onTimeOut : ofxControlBaseEvent K → ofxLine K → ofxLine K)
    (m : Cmath K) (fps : K) (L : ofxLine K) (hq : L.segmentList = []) :
    L.update onTimeOut m fps = (L, []) := by
  obtain ⟨speed, run, value, shape, coeff, events, queue⟩ := L
  simp only at hq
  subst hq
  rfl

lemma update_of_paused (onTimeOut : ofxControlBaseEvent K → ofxLine K → ofxLine K)
    (m : Cmath K) (fps : K) (L : ofxLine K) (hrun : L.bRunning = false) :
    L.update onTimeOut m fps = (L, []) := by
  obtain ⟨speed, run, value, shape, coeff, events, queue⟩ := L
  simp only at hrun
  subst hrun
  cases queue with
  | nil => rfl
  | cons segment rest => simp [ofxLine.update]

/-- The shape switch computes the table of the specification. -/
lemma shapeMult_eq_evaluate (m : Cmath K) (shape : ofxLineShape) (coeff ramp : K) :
    shapeMult m shape coeff ramp = evaluate m ramp shape coeff := by
  cases shape <;> simp only [shapeMult, evaluate]
  · have e1 : ramp * coeff * -1 = -(coeff * ramp) := by ring
    have e2 : coeff * -1 = -coeff := by ring
    rw [e1, e2]
  · rw [mul_comm ramp coeff]
  · ring
  · ring

lemma updateN_of_empty (onTimeOut : ofxControlBaseEvent K → ofxLine K → ofxLine K)
    (m : Cmath K) (fps : K) (n : Nat) (L : ofxLine K) (hq : L.segmentList = []) :
    ofxLine.updateN onTimeOut m fps n L = (L, []) := by
  induction n with
  | zero => rfl
  | succ n ih =>
    simp only [ofxLine.updateN, update_of_empty onTimeOut m fps L hq, ih, List.append_nil]

/-- On an idle engine every call other than `addSegment` and `setValue` keeps the
queue empty and the output in place, and fires nothing. -/
lemma step_idle (onTimeOut : ofxControlBaseEvent K → ofxLine K → ofxLine K)
    (m : Cmath K) (fps : K) (op : LineOp K) (L : ofxLine K) (hq : L.segmentList = [])
    (hop : op.keepsIdle) :
    (L.step onTimeOut m fps op).1.segmentList = [] ∧
    (L.step onTimeOut m fps op).1.value = L.value ∧
    (L.step onTimeOut m fps op).2 = [] := by
  obtain ⟨speed, run, value, shape, coeff, events, queue⟩ := L
  simp only at hq
  subst hq
  cases op <;> first
    | exact absurd hop (fun h => h)
    | exact ⟨rfl, rfl, rfl⟩

lemma run_idle (onTimeOut : ofxControlBaseEvent K → ofxLine K → ofxLine K)
    (m : Cmath K) (fps : K) (ops : List (LineOp K)) (L : ofxLine K)
    (hq : L.segmentList = []) (hops : ∀ op ∈ ops, op.keepsIdle) :
    (ofxLine.run onTimeOut m fps ops L).1.out = L.value ∧
    (ofxLine.run onTimeOut m fps ops L).1.segmentList = [] ∧
    (ofxLine.run onTimeOut m fps ops L).2 = [] := by
  induction ops generalizing L with
  | nil => exact ⟨rfl, hq, rfl⟩
  | cons op ops ih =>
    obtain ⟨h1, h2, h3⟩ :=
      step_idle onTimeOut m fps op L hq (hops op (List.mem_cons_self op ops))
    obtain ⟨i1, i2, i3⟩ :=
      ih (L.step onTimeOut m fps op).1 h1 (fun x hx => hops x (List.mem_cons_of_mem op hx))
    simp only [ofxLine.run]
    refine ⟨?_, i2, ?_⟩
    · rw [i1, h2]
    · rw [h3, i3]; rfl

/-- With callbacks outside the engine, an `update` either changes nothing in the
queue but the head's elapsed time and fires nothing, or completes the head. -/
lemma update_external_cases (m : Cmath K) (fps : K) (L : ofxLine K) :
    ((L.update externalCallback m fps).2 = [] ∧
      (L.update externalCallback m fps).1.eventList = L.eventList ∧
      (L.update externalCallback m fps).1.segmentList.map ofxLineSegment.tag =
        L.segmentList.map ofxLineSegment.tag) ∨
    (∃ segment rest, L.segmentList = segment :: rest ∧
      (L.update externalCallback m fps).2 = segment.eventList ∧
      (L.update externalCallback m fps).1.eventList = L.eventList ∧
      (L.update externalCallback m fps).1.segmentList.map ofxLineSegment.tag =
        rest.map ofxLineSegment.tag) := by
  cases hq : L.segmentList with
  | nil =>
    left
    rw [update_of_empty externalCallback m fps L hq]
    exact ⟨rfl, rfl, by rw [hq]⟩
  | cons segment rest =>
    cases hrun : L.bRunning with
    | false =>
      left
      rw [update_of_paused externalCallback m fps L hrun]
      exact ⟨rfl, rfl, by rw [hq]⟩
    | true =>
      by_cases h0 : segment.ramp.gt 0
      · by_cases h1 : segment.ramp.gt 1
        · right
          refine ⟨segment, rest, rfl, ?_⟩
          rw [update_of_complete externalCallback m fps L segment rest hq hrun h1
            (fun _ _ _ => rfl)]
          refine ⟨rfl, rfl, ?_⟩
          cases rest <;> rfl
        · left
          rw [update_of_ramping externalCallback m fps L segment rest hq hrun h0 h1]
          exact ⟨rfl, rfl, rfl⟩
      · left
        rw [update_of_waiting externalCallback m fps L segment rest hq hrun h0]
        exact ⟨rfl, rfl, rfl⟩

/-- After any number of updates the fired events are those of a prefix of the
queue, segment by segment, and the rest of the queue is still waiting in order. -/
lemma updateN_fifo (m : Cmath K) (fps : K) (n : Nat) (L : ofxLine K) :
    ∃ k, k ≤ L.segmentList.length ∧
      (ofxLine.updateN externalCallback m fps n L).2 =
        ((L.segmentList.map ofxLineSegment.eventList).take k).flatten ∧
      (ofxLine.updateN externalCallback m fps n L).1.segmentList.map ofxLineSegment.tag =
        (L.segmentList.map ofxLineSegment.tag).drop k := by
  induction n generalizing L with
  | zero => exact ⟨0, Nat.zero_le _, rfl, rfl⟩
  | succ n ih =>
    obtain ⟨k, hk, hlog, hrest⟩ := ih (L.update externalCallback m fps).1
    rcases update_external_cases m fps L with ⟨h2, _, htag⟩ | ⟨segment, rest, hq, h2, _, htag⟩
    · refine ⟨k, ?_, ?_, ?_⟩
      · have hlen := congrArg List.length htag
        simp only [List.length_map] at hlen
        rw [← hlen]; exact hk
      · simp only [ofxLine.updateN]
        rw [h2, hlog, map_eventList_of_map_tag _ _ htag]
        rfl
      · simp only [ofxLine.updateN]
        rw [hrest, htag]
    · refine ⟨k + 1, ?_, ?_, ?_⟩
      · have hlen := congrArg List.length htag
        simp only [List.length_map] at hlen
        rw [hq, List.length_cons]
        omega
      · simp only [ofxLine.updateN]
        rw [h2, hlog, map_eventList_of_map_tag _ _ htag, hq]
        simp
      · simp only [ofxLine.updateN]
        rw [hrest, htag, hq]
        rfl

lemma foldl_addOnSegmentEnd (actions : List ofxControlEventKind) (L : ofxLine K) :
    actions.foldl ofxLine.addOnSegmentEnd L =
      { L with eventList := L.eventList ++ actions.map segmentEndEvent } := by
  induction actions generalizing L with
  | nil => simp
  | cons a actions ih =>
    rw [List.foldl_cons, ih]
    simp [ofxLine.addOnSegmentEnd, segmentEndEvent]

/-- A sequence of requests appends its segments at the tail, in order, each with
the events attached for it. -/
lemma addRequests_queue (qs : List (SegmentRequest K)) (L : ofxLine K) :
    (L.addRequests qs).segmentList.map ofxLineSegment.tag =
      L.segmentList.map ofxLineSegment.tag ++
        (qs.map SegmentRequest.targetValue).zip (attachedEvents L.eventList qs) ∧
    (qs ≠ [] → (L.addRequests qs).eventList = []) := by
  induction qs generalizing L with
  | nil => simp [ofxLine.addRequests, attachedEvents]
  | cons q qs ih =>
    obtain ⟨h1, h2⟩ := ih (L.addRequest q)
    have hadd : L.addRequest q =
        { L with
            eventList := [],
            segmentList := L.segmentList ++
              [{ time := if q.rampTime ≥ 0 then q.rampTime else 0,
                 onset := if q.timeOnset ≥ 0 then q.timeOnset else 0,
                 start := L.value, target := q.targetValue, shape := L.shape,
                 coeff := L.coeff, elapsed := 0,
                 eventList := L.eventList ++ q.actions.map segmentEndEvent }] } := by
      simp only [ofxLine.addRequest, foldl_addOnSegmentEnd, ofxLine.addSegment]
    constructor
    · have : (L.addRequests (q :: qs)) = (L.addRequest q).addRequests qs := rfl
      rw [this, h1, hadd]
      simp [attachedEvents, ofxLineSegment.tag]
    · intro _
      have : (L.addRequests (q :: qs)) = (L.addRequest q).addRequests qs := rfl
      rw [this]
      cases qs with
      | nil => rw [hadd]; rfl
      | cons q2 qs2 => exact h2 (List.cons_ne_nil q2 qs2)

lemma ramp_gt_one_iff (segment : ofxLineSegment K) (ht : 0 < segment.time) :
    segment.ramp.gt 1 ↔ segment.time + segment.onset < segment.elapsed := by
  have hne : segment.time ≠ 0 := ne_of_gt ht
  simp only [ofxLineSegment.ramp, fdiv, hne, if_false, FloatDiv.gt]
  rw [lt_div_iff₀ ht]
  constructor <;> intro h <;> linarith

/-- A single queued segment that is not yet complete stays queued, one time step
older; the engine keeps running at the same speed. -/
lemma update_single_pending (onTimeOut : ofxControlBaseEvent K → ofxLine K → ofxLine K)
    (m : Cmath K) (fps : K) (L : ofxLine K) (segment : ofxLineSegment K)
    (hq : L.segmentList = [segment]) (hrun : L.bRunning = true)
    (h1 : ¬ segment.ramp.gt 1) :
    (L.update onTimeOut m fps).1.segmentList =
      [{ segment with elapsed := segment.elapsed + L.speed / fps }] ∧
    (L.update onTimeOut m fps).1.bRunning = true ∧
    (L.update onTimeOut m fps).1.speed = L.speed := by
  by_cases h0 : segment.ramp.gt 0
  · rw [update_of_ramping onTimeOut m fps L segment [] hq hrun h0 h1]
    exact ⟨rfl, hrun, rfl⟩
  · rw [update_of_waiting onTimeOut m fps L segment [] hq hrun h0]
    exact ⟨rfl, hrun, rfl⟩

/-- A single queued segment whose remaining time is below `k` time steps is
completed after `k + 1` updates, and the engine then rests at its target. -/
lemma updateN_completes_within (onTimeOut : ofxControlBaseEvent K → ofxLine K → ofxLine K)
    (m : Cmath K) (fps : K) (k : Nat) :
    ∀ (L : ofxLine K) (segment : ofxLineSegment K), L.segmentList = [segment] →
      L.bRunning = true → 0 < segment.time →
      (∀ e ∈ segment.eventList, ∀ s, onTimeOut e s = s) →
      segment.time + segment.onset - segment.elapsed < k * (L.speed / fps) →
      ∀ n, k + 1 ≤ n →
        (ofxLine.updateN onTimeOut m fps n L).1.segmentList = [] ∧
        (ofxLine.updateN onTimeOut m fps n L).1.value = segment.target := by
  have hdone : ∀ (L : ofxLine K) (segment : ofxLineSegment K), L.segmentList = [segment] →
      L.bRunning = true → (∀ e ∈ segment.eventList, ∀ s, onTimeOut e s = s) →
      segment.ramp.gt 1 → ∀ n, 1 ≤ n →
        (ofxLine.updateN onTimeOut m fps n L).1.segmentList = [] ∧
        (ofxLine.updateN onTimeOut m fps n L).1.value = segment.target := by
    intro L segment hq hrun hcb hg n hn
    obtain ⟨n', rfl⟩ : ∃ n', n = n' + 1 := ⟨n - 1, by omega⟩
    simp only [ofxLine.updateN]
    rw [update_of_complete onTimeOut m fps L segment [] hq hrun hg hcb]
    rw [updateN_of_empty onTimeOut m fps n' _ rfl]
    exact ⟨rfl, rfl⟩
  induction k with
  | zero =>
    intro L segment hq hrun ht hcb hlt n hn
    have hg : segment.ramp.gt 1 := by
      rw [ramp_gt_one_iff segment ht]
      simp only [Nat.cast_zero, zero_mul] at hlt
      linarith
    exact hdone L segment hq hrun hcb hg n (by omega)
  | succ k ih =>
    intro L segment hq hrun ht hcb hlt n hn
    by_cases hg : segment.ramp.gt 1
    · exact hdone L segment hq hrun hcb hg n (by omega)
    · obtain ⟨n', rfl⟩ : ∃ n', n = n' + 1 := ⟨n - 1, by omega⟩
      obtain ⟨h1, h2, h3⟩ := update_single_pending onTimeOut m fps L segment hq hrun hg
      have hlt2 : segment.time + segment.onset - (segment.elapsed + L.speed / fps) <
          k * ((L.update onTimeOut m fps).1.speed / fps) := by
        rw [h3]
        push_cast at hlt
        linarith
      have := ih (L.update onTimeOut m fps).1
        { segment with elapsed := segment.elapsed + L.speed / fps } h1 h2 ht hcb hlt2 n'
        (by omega)
      simp only [ofxLine.updateN]
      exact this

/-- The events carried by an engine (pending or attached to a queued segment) all
satisfy `P`. -/
lemma step_events_inv (m : Cmath K) (fps : K) (P : ofxControlBaseEvent K → Prop)
    (op : LineOp K) (L : ofxLine K) (hpend : ∀ e ∈ L.eventList, P e)
    (hatt : ∀ s ∈ L.segmentList, ∀ e ∈ s.eventList, P e)
    (hop : ∀ kind, op = LineOp.addOnSegmentEnd kind → P (segmentEndEvent kind)) :
    (∀ e ∈ (L.step externalCallback m fps op).1.eventList, P e) ∧
    (∀ s ∈ (L.step externalCallback m fps op).1.segmentList, ∀ e ∈ s.eventList, P e) ∧
    (∀ e ∈ (L.step externalCallback m fps op).2, P e) := by
  have hnil : ∀ e ∈ ([] : List (ofxControlBaseEvent K)), P e := fun e he => by simp at he
  have hnilq : ∀ s ∈ ([] : List (ofxLineSegment K)), ∀ e ∈ s.eventList, P e :=
    fun s hs => by simp at hs
  cases op with
  | update =>
    have htagged : ∀ (xs ys : List (ofxLineSegment K)),
        xs.map ofxLineSegment.tag = ys.map ofxLineSegment.tag →
        (∀ s ∈ ys, ∀ e ∈ s.eventList, P e) → ∀ s ∈ xs, ∀ e ∈ s.eventList, P e := by
      intro xs ys hxy hys s hs e he
      have hmem : s.tag ∈ ys.map ofxLineSegment.tag := by
        rw [← hxy]; exact List.mem_map_of_mem _ hs
      obtain ⟨s2, hs2, htag⟩ := List.mem_map.mp hmem
      have hev : s2.eventList = s.eventList := congrArg Prod.snd htag
      exact hys s2 hs2 e (by rw [hev]; exact he)
    simp only [ofxLine.step]
    rcases update_external_cases m fps L with ⟨h2, hev, htag⟩ | ⟨segment, rest, hq, h2, hev, htag⟩
    · refine ⟨?_, htagged _ _ htag hatt, ?_⟩
      · rw [hev]; exact hpend
      · rw [h2]; exact hnil
    · refine ⟨?_, htagged _ _ htag ?_, ?_⟩
      · rw [hev]; exact hpend
      · intro s hs
        exact hatt s (by rw [hq]; exact List.mem_cons_of_mem _ hs)
      · rw [h2]
        exact hatt segment (by rw [hq]; exact List.mem_cons_self _ _)
  | setValue v => exact ⟨hpend, hnilq, hnil⟩
  | setShape sh c => exact ⟨hpend, hatt, hnil⟩
  | addOnSegmentEnd kind =>
    refine ⟨?_, hatt, hnil⟩
    intro e he
    simp only [ofxLine.step, ofxLine.addOnSegmentEnd, List.mem_append,
      List.mem_singleton] at he
    rcases he with he | he
    · exact hpend e he
    · rw [he]; exact hop kind rfl
  | clearOnSegmentEnd => exact ⟨hnil, hatt, hnil⟩
  | addSegment t rt ons =>
    refine ⟨hnil, ?_, hnil⟩
    intro s hs
    simp only [ofxLine.step, ofxLine.addSegment, List.mem_append, List.mem_singleton] at hs
    rcases hs with hs | hs
    · exact hatt s hs
    · rw [hs]; exact hpend
  | removeLastSegment =>
    refine ⟨?_, ?_, hnil⟩
    · simp only [ofxLine.step, ofxLine.removeLastSegment]
      split
      · exact hpend
      · split <;> exact hpend
    · have hdrop : ∀ s ∈ L.segmentList.dropLast, ∀ e ∈ s.eventList, P e :=
        fun s hs => hatt s (List.dropLast_subset _ hs)
      simp only [ofxLine.step, ofxLine.removeLastSegment]
      split
      · exact hatt
      · split
        · rename_i only heq
          intro s hs
          simp only [List.mem_singleton] at hs
          rw [hs]
          exact hdrop only (by rw [heq]; exact List.mem_singleton_self _)
        · exact hdrop
  | nextSegment =>
    obtain ⟨speed, run, value, shape, coeff, events, queue⟩ := L
    cases queue with
    | nil => exact ⟨hpend, hatt, hnil⟩
    | cons segment rest =>
      cases rest with
      | nil => exact ⟨hpend, hnilq, hnil⟩
      | cons next tl =>
        refine ⟨hpend, ?_, hnil⟩
        intro s hs
        simp only [ofxLine.step, ofxLine.nextSegment, List.mem_cons] at hs
        rcases hs with hs | hs
        · rw [hs]
          exact hatt next (by simp)
        · exact hatt s (by simp [hs])
  | clear => exact ⟨hnil, hnilq, hnil⟩
  | setSpeed sp => exact ⟨hpend, hatt, hnil⟩
  | pause => exact ⟨hpend, hatt, hnil⟩
  | resume => exact ⟨hpend, hatt, hnil⟩

/-- Every event fired during a call sequence was carried by the engine at its
start or created by an `addOnSegmentEnd` of the sequence. -/
lemma run_events_inv (m : Cmath K) (fps : K) (P : ofxControlBaseEvent K → Prop)
    (ops : List (LineOp K)) (L : ofxLine K) (hpend : ∀ e ∈ L.eventList, P e)
    (hatt : ∀ s ∈ L.segmentList, ∀ e ∈ s.eventList, P e)
    (hops : ∀ kind, LineOp.addOnSegmentEnd kind ∈ ops → P (segmentEndEvent kind)) :
    ∀ e ∈ (ofxLine.run externalCallback m fps ops L).2, P e := by
  induction ops generalizing L with
  | nil => intro e he; simp [ofxLine.run] at he
  | cons op ops ih =>
    obtain ⟨h1, h2, h3⟩ := step_events_inv m fps P op L hpend hatt
      (fun kind hk => hops kind (by rw [hk]; exact List.mem_cons_self _ _))
    have hrest := ih (L.step externalCallback m fps op).1 h1 h2
      (fun kind hk => hops kind (List.mem_cons_of_mem _ hk))
    intro e he
    simp only [ofxLine.run, List.mem_append] at he
    rcases he with he | he
    · exact h3 e he
    · exact hrest e he

end LineLemmas


section LineClaims

variable {K : Type} [LinearOrderedField K]

/-- C1. Natural completion: when the engine is running and the head segment has
ramp position `(elapsed - onset) / time > 1`, one `update` sets `out()` to the
head's target, fires the head's events once each in list order, pops exactly the
head, and gives the next segment (if any) the new output as start value; nothing
else changes.  The fired callbacks are taken not to call back into the engine. -/
theorem C1_update_natural_completion
    (onTimeOut : ofxControlBaseEvent K → ofxLine K → ofxLine K) (m : Cmath K) (fps : K)
    (L : ofxLine K) (segment : ofxLineSegment K) (rest : List (ofxLineSegment K))
    (hq : L.segmentList = segment :: rest) (hrun : L.bRunning = true)
    (hramp : segment.ramp.gt 1)
    (hcb : ∀ e ∈ segment.eventList, ∀ s, onTimeOut e s = s) :
    (L.update onTimeOut m fps).1.out = segment.target ∧
    (L.update onTimeOut m fps).2 = segment.eventList ∧
    (L.update onTimeOut m fps).1 =
      { L with
          value := segment.target,
          segmentList :=
            match rest with
            | [] => []
            | next :: tl => { next with start := segment.target } :: tl } := by
  rw [update_of_complete onTimeOut m fps L segment rest hq hrun hramp hcb]
  exact ⟨rfl, rfl, rfl⟩

/-- Witness of C1: a completed head with two events, followed by a second segment. -/
theorem C1_update_natural_completion_witness :
    ((exLine [exSegment 10 1 0 2 [exEvent, exEvent2], exSegment 20 1 0 0 []] []).update
        externalCallback ratCmath 30).1.out = 10 ∧
    ((exLine [exSegment 10 1 0 2 [exEvent, exEvent2], exSegment 20 1 0 0 []] []).update
        externalCallback ratCmath 30).2 = [exEvent, exEvent2] ∧
    ((exLine [exSegment 10 1 0 2 [exEvent, exEvent2], exSegment 20 1 0 0 []] []).update
        externalCallback ratCmath 30).1 =
      { exLine [] [] with
          value := 10,
          segmentList := [{ exSegment 20 1 0 0 [] with start := 10 }] } :=
  C1_update_natural_completion externalCallback ratCmath 30
    (exLine [exSegment 10 1 0 2 [exEvent, exEvent2], exSegment 20 1 0 0 []] [])
    (exSegment 10 1 0 2 [exEvent, exEvent2]) [exSegment 20 1 0 0 []] rfl rfl
    (by norm_num [ofxLineSegment.ramp, exSegment, fdiv, FloatDiv.gt])
    (fun _ _ _ => rfl)

/-- C2. Interpolation step: when the engine is running and the head segment has
ramp position `r = (elapsed - onset) / time` with `0 < r ≤ 1`, one `update` sets
`out()` to `start + (target - start) * mult`, where `mult` is the multiplier of the
specification's shape table (`r` for LIN, `0` for STEP, `r` for FAST_EXP and SLOW_EXP
with coefficient 0); the queue keeps its segments (the head's elapsed time grows by
`speed / fps`) and no event fires. -/
theorem C2_update_interpolation
    (onTimeOut : ofxControlBaseEvent K → ofxLine K → ofxLine K) (m : Cmath K) (fps : K)
    (L : ofxLine K) (segment : ofxLineSegment K) (rest : List (ofxLineSegment K)) (r : K)
    (hq : L.segmentList = segment :: rest) (hrun : L.bRunning = true)
    (hr : segment.ramp = FloatDiv.finite r) (h0 : 0 < r) (h1 : r ≤ 1) :
    L.update onTimeOut m fps =
      ({ L with
          value := segment.start + (segment.target - segment.start) *
            evaluate m r segment.shape segment.coeff,
          segmentList :=
            { segment with elapsed := segment.elapsed + L.speed / fps } :: rest }, []) ∧
    (segment.shape = ofxLineShape.LIN → evaluate m r segment.shape segment.coeff = r) ∧
    (segment.shape = ofxLineShape.STEP → evaluate m r segment.shape segment.coeff = 0) ∧
    (segment.shape = ofxLineShape.FAST_EXP ∨ segment.shape = ofxLineShape.SLOW_EXP →
      segment.coeff = 0 → evaluate m r segment.shape segment.coeff = r) := by
  have hg0 : segment.ramp.gt 0 := by rw [hr]; exact h0
  have hg1 : ¬ segment.ramp.gt 1 := by
    rw [hr]; exact fun hg => absurd (hg : (1 : K) < r) (not_lt.mpr h1)
  refine ⟨?_, ?_, ?_, ?_⟩
  · rw [update_of_ramping onTimeOut m fps L segment rest hq hrun hg0 hg1,
      shapeMult_eq_evaluate, hr]
    rfl
  · intro hs; rw [hs]; rfl
  · intro hs; rw [hs]; rfl
  · intro hs hc
    rcases hs with hs | hs <;> rw [hs, hc] <;> simp [evaluate]

/-- Witness of C2: a linear segment from 0 to 10 over 1 s, half way. -/
theorem C2_update_interpolation_witness :
    (exLine [exSegment 10 1 0 (1 / 2) [exEvent]] []).update externalCallback ratCmath 30 =
      ({ exLine [exSegment 10 1 0 (1 / 2) [exEvent]] [] with
          value := (exSegment 10 1 0 (1 / 2) [exEvent]).start +
            ((exSegment 10 1 0 (1 / 2) [exEvent]).target -
              (exSegment 10 1 0 (1 / 2) [exEvent]).start) *
            evaluate ratCmath (1 / 2) (exSegment 10 1 0 (1 / 2) [exEvent]).shape
              (exSegment 10 1 0 (1 / 2) [exEvent]).coeff,
          segmentList :=
            [{ exSegment 10 1 0 (1 / 2) [exEvent] with
                elapsed := (exSegment 10 1 0 (1 / 2) [exEvent]).elapsed +
                  (exLine [exSegment 10 1 0 (1 / 2) [exEvent]] []).speed / 30 }] }, []) ∧
    evaluate ratCmath (1 / 2) ofxLineShape.LIN 0 = 1 / 2 :=
  have h := C2_update_interpolation externalCallback ratCmath 30
    (exLine [exSegment 10 1 0 (1 / 2) [exEvent]] [])
    (exSegment 10 1 0 (1 / 2) [exEvent]) [] (1 / 2) rfl rfl
    (by norm_num [ofxLineSegment.ramp, exSegment, fdiv])
    (by norm_num) (by norm_num)
  ⟨h.1, h.2.1 rfl⟩

/-- C3. FIFO completion order: issue any sequence of segment requests (each one
its `addOnSegmentEnd` calls followed by `addSegment`) on any engine, then call
`update` `n` times.  The events fired so far are exactly those of the first `k`
segments of the queue, in queue order (segments already queued first, then the
requested ones in request order) and inside a segment in attachment order, and
the segments not yet completed are the remaining ones, still in that order.  The
callbacks are taken not to call back into the engine. -/
theorem C3_fifo_completion_order (m : Cmath K) (fps : K) (L0 : ofxLine K)
    (qs : List (SegmentRequest K)) (n : Nat) :
    ∃ k, k ≤ L0.segmentList.length + qs.length ∧
      (ofxLine.updateN externalCallback m fps n (L0.addRequests qs)).2 =
        ((L0.segmentList.map ofxLineSegment.eventList ++
            attachedEvents L0.eventList qs).take k).flatten ∧
      (ofxLine.updateN externalCallback m fps n (L0.addRequests qs)).1.segmentList.map
          ofxLineSegment.tag =
        (L0.segmentList.map ofxLineSegment.tag ++
            (qs.map SegmentRequest.targetValue).zip (attachedEvents L0.eventList qs)).drop k := by
  obtain ⟨k, hk, hlog, hrest⟩ := updateN_fifo m fps n (L0.addRequests qs)
  have htag := (addRequests_queue qs L0).1
  have hlen : (L0.addRequests qs).segmentList.length = L0.segmentList.length + qs.length := by
    have h := congrArg List.length htag
    simpa [attachedEvents_length] using h
  have hev : (L0.addRequests qs).segmentList.map ofxLineSegment.eventList =
      L0.segmentList.map ofxLineSegment.eventList ++ attachedEvents L0.eventList qs := by
    have h := congrArg (List.map Prod.snd) htag
    rw [List.map_map, List.map_append, List.map_map] at h
    have hz : List.map Prod.snd
        ((qs.map SegmentRequest.targetValue).zip (attachedEvents L0.eventList qs)) =
        attachedEvents L0.eventList qs := by
      apply List.map_snd_zip
      simp [attachedEvents_length]
    rw [hz] at h
    exact h
  refine ⟨k, ?_, ?_, ?_⟩
  · rw [← hlen]; exact hk
  · rw [hlog, hev]
  · rw [hrest, htag]

/-- C5 (as stated, refuted on an example). The head (elapsed 2 s of a 1 s ramp)
completes in this call; the next segment becomes the head, and its elapsed time
is still 0 after the call, not `speed / fps = 1 / 30`. -/
theorem C5_new_head_elapsed_counterexample :
    (((exLine [exSegment 10 1 0 2 [], exSegment 20 1 0 0 []] []).update
        externalCallback ratCmath 30).1.segmentList.map ofxLineSegment.elapsed) = [0] ∧
    (exLine [exSegment 10 1 0 2 [], exSegment 20 1 0 0 []] []).speed / 30 ≠ 0 := by
  constructor
  · rw [update_of_complete externalCallback ratCmath 30 _ (exSegment 10 1 0 2 [])
      [exSegment 20 1 0 0 []] rfl rfl
      (by norm_num [ofxLineSegment.ramp, exSegment, fdiv, FloatDiv.gt]) (fun _ _ _ => rfl)]
    rfl
  · norm_num [exLine]

/-- C5 (amended). In the `update` call in which the head completes and is popped,
the elapsed time of the remaining segments is not touched: the new head keeps the
elapsed time it had before the call (0 for a segment just added) and only gets
the new output as start value.  The fired callbacks are taken not to call back
into the engine. -/
theorem C5_new_head_elapsed_unchanged
    (onTimeOut : ofxControlBaseEvent K → ofxLine K → ofxLine K) (m : Cmath K) (fps : K)
    (L : ofxLine K) (segment next : ofxLineSegment K) (tl : List (ofxLineSegment K))
    (hq : L.segmentList = segment :: next :: tl) (hrun : L.bRunning = true)
    (hramp : segment.ramp.gt 1)
    (hcb : ∀ e ∈ segment.eventList, ∀ s, onTimeOut e s = s) :
    (L.update onTimeOut m fps).1.segmentList =
      { next with start := segment.target } :: tl ∧
    (L.update onTimeOut m fps).1.segmentList.head?.map ofxLineSegment.elapsed =
      some next.elapsed := by
  rw [update_of_complete onTimeOut m fps L segment (next :: tl) hq hrun hramp hcb]
  exact ⟨rfl, rfl⟩

/-- Witness of C5 (amended): the second segment keeps elapsed time 0. -/
theorem C5_new_head_elapsed_unchanged_witness :
    ((exLine [exSegment 10 1 0 2 [exEvent], exSegment 20 1 0 0 []] []).update
        externalCallback ratCmath 30).1.segmentList =
      [{ exSegment 20 1 0 0 [] with start := (exSegment 10 1 0 2 [exEvent]).target }] ∧
    ((exLine [exSegment 10 1 0 2 [exEvent], exSegment 20 1 0 0 []] []).update
        externalCallback ratCmath 30).1.segmentList.head?.map ofxLineSegment.elapsed =
      some (exSegment 20 1 0 0 []).elapsed :=
  C5_new_head_elapsed_unchanged externalCallback ratCmath 30
    (exLine [exSegment 10 1 0 2 [exEvent], exSegment 20 1 0 0 []] [])
    (exSegment 10 1 0 2 [exEvent]) (exSegment 20 1 0 0 []) [] rfl rfl
    (by norm_num [ofxLineSegment.ramp, exSegment, fdiv, FloatDiv.gt])
    (fun _ _ _ => rfl)

/-- C7. `addSegment` appends exactly one segment at the tail, with
`time = max rampTime 0`, `onset = max timeOnset 0`, the given target, elapsed time
0, the engine's shape template, and the pending events in their order; the pending
list is empty afterwards and everything else (the queued segments, the output) is
unchanged.  The template is the one stored by `setShape`, whose coefficient is
`max newCoeff 0`. -/
theorem C7_addSegment_postcondition (L : ofxLine K) (targetValue rampTime timeOnset : K)
    (newShape : ofxLineShape) (newCoeff : K) :
    L.addSegment targetValue rampTime timeOnset =
      { L with
          eventList := [],
          segmentList := L.segmentList ++
            [{ time := max rampTime 0, onset := max timeOnset 0, start := L.value,
               target := targetValue, shape := L.shape, coeff := L.coeff, elapsed := 0,
               eventList := L.eventList }] } ∧
    (L.addSegment targetValue rampTime timeOnset).out = L.out ∧
    (L.setShape newShape newCoeff).shape = newShape ∧
    (L.setShape newShape newCoeff).coeff = max newCoeff 0 ∧
    ((L.setShape newShape newCoeff).addSegment targetValue rampTime timeOnset).segmentList =
      L.segmentList ++
        [{ time := max rampTime 0, onset := max timeOnset 0, start := L.value,
           target := targetValue, shape := newShape, coeff := max newCoeff 0, elapsed := 0,
           eventList := L.eventList }] := by
  have hmax : ∀ x : K, (if x ≥ 0 then x else 0) = max x 0 := by
    intro x
    by_cases hx : x ≥ 0
    · rw [if_pos hx, max_eq_left hx]
    · rw [if_neg hx, max_eq_right (le_of_lt (not_le.mp hx))]
  refine ⟨?_, rfl, rfl, ?_, ?_⟩
  · simp only [ofxLine.addSegment, hmax]
  · simp only [ofxLine.setShape, hmax]
  · simp only [ofxLine.addSegment, ofxLine.setShape, hmax]

/-- C8 (as stated, refuted on an example). The event `exEvent` is pending (added
with `addOnSegmentEnd`, not yet attached) before `setValue 5`; it survives the
call, is attached to the segment added next and fires when that segment completes
(frame rate 1, ramp time 1/2: the second `update` sees ramp position 2). -/
theorem C8_setValue_keeps_pending_counterexample :
    (exLine [] [exEvent]).eventList = [exEvent] ∧
    (ofxLine.run externalCallback ratCmath 1
        [LineOp.addSegment 1 (1 / 2) 0, LineOp.update, LineOp.update]
        ((exLine [] [exEvent]).setValue 5)).2 = [exEvent] := by
  refine ⟨rfl, ?_⟩
  norm_num [ofxLine.run, ofxLine.step, ofxLine.update, ofxLine.addSegment, ofxLine.setValue,
    exLine, ofxLineSegment.ramp, fdiv, FloatDiv.gt, fireAll, externalCallback]

/-- C8 (amended). After `clear()` every event the engine carried before the call,
attached to a queued segment or still pending, is discarded: whatever calls follow,
each event fired later was created by an `addOnSegmentEnd` after the `clear()`.
After `setValue(v)` the events attached to queued segments are discarded in the
same way, but the pending list is kept: an event fired later is one of the events
pending before the call or one created afterwards.  The callbacks are taken not
to call back into the engine. -/
theorem C8_clear_and_setValue_discard (m : Cmath K) (fps : K) (L : ofxLine K) (v : K)
    (ops : List (LineOp K)) :
    (∀ e ∈ (ofxLine.run externalCallback m fps ops L.clear).2,
      ∃ kind, LineOp.addOnSegmentEnd kind ∈ ops ∧ e = segmentEndEvent kind) ∧
    (L.setValue v).segmentList = [] ∧
    (L.setValue v).eventList = L.eventList ∧
    (∀ e ∈ (ofxLine.run externalCallback m fps ops (L.setValue v)).2,
      e ∈ L.eventList ∨
      ∃ kind, LineOp.addOnSegmentEnd kind ∈ ops ∧ e = segmentEndEvent kind) := by
  refine ⟨?_, rfl, rfl, ?_⟩
  · exact run_events_inv m fps _ ops L.clear (fun e he => by simp [ofxLine.clear] at he)
      (fun s hs => by simp [ofxLine.clear] at hs) (fun kind hk => ⟨kind, hk, rfl⟩)
  · exact run_events_inv m fps _ ops (L.setValue v) (fun e he => Or.inl he)
      (fun s hs => by simp [ofxLine.setValue] at hs) (fun kind hk => Or.inr ⟨kind, hk, rfl⟩)

/-- C9. `setValue v` empties the queue and sets the output to `v`, leaving speed,
running flag, shape template and pending list as they were, and fires nothing;
after it, through any sequence of calls other than `addSegment` and `setValue`
(in particular any number of `update` calls), `out()` stays `v`, the queue stays
empty and nothing fires. -/
theorem C9_setValue_postcondition
    (onTimeOut : ofxControlBaseEvent K → ofxLine K → ofxLine K) (m : Cmath K) (fps : K)
    (L : ofxLine K) (v : K) :
    L.setValue v = { L with segmentList := [], value := v } ∧
    (L.setValue v).out = v ∧
    (L.step onTimeOut m fps (LineOp.setValue v)).2 = [] ∧
    (∀ n, ofxLine.updateN onTimeOut m fps n (L.setValue v) = (L.setValue v, [])) ∧
    (∀ ops : List (LineOp K), (∀ op ∈ ops, op.keepsIdle) →
      (ofxLine.run onTimeOut m fps ops (L.setValue v)).1.out = v ∧
      (ofxLine.run onTimeOut m fps ops (L.setValue v)).1.segmentList = [] ∧
      (ofxLine.run onTimeOut m fps ops (L.setValue v)).2 = []) := by
  refine ⟨rfl, rfl, rfl, ?_, ?_⟩
  · intro n
    exact updateN_of_empty onTimeOut m fps n _ rfl
  · intro ops hops
    exact run_idle onTimeOut m fps ops (L.setValue v) rfl hops

/-- Witness of C9: updates and a skip after `setValue 4` on an engine with a queue. -/
theorem C9_setValue_postcondition_witness :
    (ofxLine.run externalCallback ratCmath 30
        [LineOp.update, LineOp.update, LineOp.nextSegment, LineOp.update]
        ((exLine [exSegment 10 1 0 2 [exEvent]] []).setValue 4)).1.out = 4 ∧
    (ofxLine.run externalCallback ratCmath 30
        [LineOp.update, LineOp.update, LineOp.nextSegment, LineOp.update]
        ((exLine [exSegment 10 1 0 2 [exEvent]] []).setValue 4)).1.segmentList = [] ∧
    (ofxLine.run externalCallback ratCmath 30
        [LineOp.update, LineOp.update, LineOp.nextSegment, LineOp.update]
        ((exLine [exSegment 10 1 0 2 [exEvent]] []).setValue 4)).2 = [] :=
  (C9_setValue_postcondition externalCallback ratCmath 30
    (exLine [exSegment 10 1 0 2 [exEvent]] []) 4).2.2.2.2
    [LineOp.update, LineOp.update, LineOp.nextSegment, LineOp.update]
    (by simp [LineOp.keepsIdle])

/-- C10. `nextSegment` on a non-empty queue removes exactly the head, fires
nothing, leaves `out()` as it is (not the skipped target) and gives the new head,
if any, the current output as start value; on an empty queue it changes nothing. -/
theorem C10_nextSegment_silent_skip
    (onTimeOut : ofxControlBaseEvent K → ofxLine K → ofxLine K) (m : Cmath K) (fps : K)
    (L : ofxLine K) :
    (∀ (segment : ofxLineSegment K) (rest : List (ofxLineSegment K)),
      L.segmentList = segment :: rest →
      L.nextSegment =
        { L with segmentList :=
            match rest with
            | [] => []
            | next :: tl => { next with start := L.out } :: tl }) ∧
    (L.segmentList = [] → L.nextSegment = L) ∧
    L.nextSegment.out = L.out ∧
    (L.step onTimeOut m fps LineOp.nextSegment).2 = [] := by
  obtain ⟨speed, run, value, shape, coeff, events, queue⟩ := L
  refine ⟨?_, ?_, ?_, rfl⟩
  · intro segment rest hq
    simp only at hq
    subst hq
    cases rest <;> rfl
  · intro hq
    simp only at hq
    subst hq
    rfl
  · cases queue with
    | nil => rfl
    | cons segment rest => cases rest <;> rfl

/-- Witness of C10: skipping the head of a queue of two, and of an empty queue. -/
theorem C10_nextSegment_silent_skip_witness :
    (exLine [exSegment 10 1 0 2 [exEvent], exSegment 20 1 0 0 []] []).nextSegment =
      { exLine [exSegment 10 1 0 2 [exEvent], exSegment 20 1 0 0 []] [] with
          segmentList :=
            [{ exSegment 20 1 0 0 [] with
                start := (exLine [exSegment 10 1 0 2 [exEvent],
                  exSegment 20 1 0 0 []] []).out }] } ∧
    (exLine [] [exEvent]).nextSegment = exLine [] [exEvent] :=
  ⟨(C10_nextSegment_silent_skip externalCallback ratCmath 30
      (exLine [exSegment 10 1 0 2 [exEvent], exSegment 20 1 0 0 []] [])).1
      (exSegment 10 1 0 2 [exEvent]) [exSegment 20 1 0 0 []] rfl,
   (C10_nextSegment_silent_skip externalCallback ratCmath 30
      (exLine [] [exEvent])).2.1 rfl⟩

/-- C11. `removeLastSegment` on a non-empty queue removes exactly the segment added
last, fires nothing and leaves `out()` as it is; if exactly one segment remains,
its start value is set to the current output, and if two or more (or none) remain,
the remaining segments are not modified; on an empty queue it changes nothing. -/
theorem C11_removeLastSegment_postcondition
    (onTimeOut : ofxControlBaseEvent K → ofxLine K → ofxLine K) (m : Cmath K) (fps : K)
    (L : ofxLine K) :
    (∀ (front : List (ofxLineSegment K)) (last : ofxLineSegment K),
      L.segmentList = front ++ [last] →
      L.removeLastSegment =
        { L with segmentList :=
            match front with
            | [only] => [{ only with start := L.out }]
            | remaining => remaining } ∧
      (2 ≤ front.length → L.removeLastSegment.segmentList = front)) ∧
    (L.segmentList = [] → L.removeLastSegment = L) ∧
    L.removeLastSegment.out = L.out ∧
    (L.step onTimeOut m fps LineOp.removeLastSegment).2 = [] := by
  obtain ⟨speed, run, value, shape, coeff, events, queue⟩ := L
  refine ⟨?_, ?_, ?_, rfl⟩
  · intro front last hq
    simp only at hq
    subst hq
    have hmain : ofxLine.removeLastSegment
        { speed := speed, bRunning := run, value := value, shape := shape, coeff := coeff,
          eventList := events, segmentList := front ++ [last] } =
        { speed := speed, bRunning := run, value := value, shape := shape, coeff := coeff,
          eventList := events,
          segmentList :=
            match front with
            | [only] => [{ only with start := value }]
            | remaining => remaining } := by
      have hne : (front ++ [last]).isEmpty = false := by
        cases front <;> rfl
      simp only [ofxLine.removeLastSegment, hne, List.dropLast_concat]
      cases front with
      | nil => rfl
      | cons a tl => cases tl <;> rfl
    refine ⟨hmain, ?_⟩
    intro hlen
    rw [hmain]
    match front, hlen with
    | a :: b :: rest, _ => rfl
  · intro hq
    simp only at hq
    subst hq
    rfl
  · simp only [ofxLine.removeLastSegment, ofxLine.out]
    split
    · rfl
    · split <;> rfl

/-- Witness of C11: queues of three, of two and of no segments. -/
theorem C11_removeLastSegment_postcondition_witness :
    ((exLine [exSegment 10 1 0 2 [exEvent], exSegment 20 1 0 0 [], exSegment 30 1 0 0 []]
        []).removeLastSegment =
      { exLine [exSegment 10 1 0 2 [exEvent], exSegment 20 1 0 0 [], exSegment 30 1 0 0 []]
          [] with
          segmentList := [exSegment 10 1 0 2 [exEvent], exSegment 20 1 0 0 []] } ∧
     (2 ≤ [exSegment 10 1 0 2 [exEvent], exSegment 20 1 0 0 []].length →
      (exLine [exSegment 10 1 0 2 [exEvent], exSegment 20 1 0 0 [], exSegment 30 1 0 0 []]
        []).removeLastSegment.segmentList =
        [exSegment 10 1 0 2 [exEvent], exSegment 20 1 0 0 []])) ∧
    (exLine [exSegment 10 1 0 2 [exEvent], exSegment 20 1 0 0 []] []).removeLastSegment.segmentList =
      [{ exSegment 10 1 0 2 [exEvent] with
          start := (exLine [exSegment 10 1 0 2 [exEvent], exSegment 20 1 0 0 []] []).out }] ∧
    (exLine [] [exEvent]).removeLastSegment = exLine [] [exEvent] :=
  ⟨(C11_removeLastSegment_postcondition externalCallback ratCmath 30
      (exLine [exSegment 10 1 0 2 [exEvent], exSegment 20 1 0 0 [], exSegment 30 1 0 0 []]
        [])).1 [exSegment 10 1 0 2 [exEvent], exSegment 20 1 0 0 []] (exSegment 30 1 0 0 [])
      rfl,
   congrArg ofxLine.segmentList
    ((C11_removeLastSegment_postcondition externalCallback ratCmath 30
      (exLine [exSegment 10 1 0 2 [exEvent], exSegment 20 1 0 0 []] [])).1
      [exSegment 10 1 0 2 [exEvent]] (exSegment 20 1 0 0 []) rfl).1,
   (C11_removeLastSegment_postcondition externalCallback ratCmath 30
      (exLine [] [exEvent])).2.1 rfl⟩

end LineClaims

lemma removeLastSegment_concat {K : Type} (L : ofxLine K) (front : List (ofxLineSegment K))
    (last : ofxLineSegment K) (hq : L.segmentList = front ++ [last]) :
    L.removeLastSegment =
      { L with segmentList :=
          match front with
          | [only] => [{ only with start := L.value }]
          | remaining => remaining } := by
  obtain ⟨speed, run, value, shape, coeff, events, queue⟩ := L
  simp only at hq
  subst hq
  have hne : (front ++ [last]).isEmpty = false := by
    cases front <;> rfl
  simp only [ofxLine.removeLastSegment, hne, List.dropLast_concat]
  cases front with
  | nil => rfl
  | cons a tl => cases tl <;> rfl

lemma multi_removeLastSegment_concat {K : Type} (M : ofxMultiLine K)
    (front : List (ofxMultiLineSegment K)) (last : ofxMultiLineSegment K)
    (hq : M.multiSegmentList = front ++ [last]) :
    M.removeLastSegment =
      { M with multiSegmentList :=
          match front with
          | [only] => [{ only with start := M.valueVec }]
          | remaining => remaining } := by
  obtain ⟨speed, run, shape, coeff, events, values, queue⟩ := M
  simp only at hq
  subst hq
  have hne : (front ++ [last]).isEmpty = false := by
    cases front <;> rfl
  simp only [ofxMultiLine.removeLastSegment, hne, List.dropLast_concat]
  cases front with
  | nil => rfl
  | cons a tl => cases tl <;> rfl

section MultiLemmas

variable {K : Type} [LinearOrderedField K]

lemma resize_length (v : List K) (n : Nat) : (resize v n).length = n := by
  simp only [resize, List.length_append, List.length_take, List.length_replicate]
  omega

lemma resize_getElem?_of_lt (v : List K) (n j : Nat) (hj : j < v.length) (hn : j < n) :
    (resize v n)[j]? = v[j]? := by
  have h : j < (v.take n).length := by
    rw [List.length_take]; omega
  rw [resize, List.getElem?_append_left h, List.getElem?_take_of_lt hn]

lemma resize_getElem?_of_ge (v : List K) (n j : Nat) (hj : v.length ≤ j) (hn : j < n) :
    (resize v n)[j]? = some 0 := by
  have h : (v.take n).length ≤ j := by
    rw [List.length_take]; omega
  rw [resize, List.getElem?_append_right h, List.length_take]
  rw [List.getElem?_replicate]
  have : j - min n v.length < n - v.length := by omega
  simp [this]

lemma resize_of_length_eq (v : List K) (n : Nat) (h : v.length = n) : resize v n = v := by
  simp [resize, ← h]

/-- The completion branch of `ofxMultiLine::update` for callbacks that leave the
engine alone. -/
lemma multi_update_of_complete
    (onTimeOut : ofxControlBaseEvent K → ofxMultiLine K → ofxMultiLine K)
    (m : Cmath K) (fps : K) (M : ofxMultiLine K) (segment : ofxMultiLineSegment K)
    (rest : List (ofxMultiLineSegment K)) (hq : M.multiSegmentList = segment :: rest)
    (hrun : M.bRunning = true) (hramp : segment.ramp.gt 1)
    (hcb : ∀ e ∈ segment.eventList, ∀ s, onTimeOut e s = s) :
    M.update onTimeOut m fps =
      some ({ M with
          valueVec := segment.target,
          multiSegmentList :=
            match rest with
            | [] => []
            | next :: tl => { next with start := segment.target } :: tl },
       segment.eventList) := by
  have h0 : segment.ramp.gt 0 := FloatDiv.gt_zero_of_gt_one _ hramp
  obtain ⟨speed, run, shape, coeff, events, values, queue⟩ := M
  simp only at hq hrun
  subst hq hrun
  simp only [ofxMultiLine.update, h0, hramp, if_true]
  rw [fireAll_of_untouched onTimeOut segment.eventList _ hcb]
  cases rest <;> rfl

/-- The waiting branch of `ofxMultiLine::update`. -/
lemma multi_update_of_waiting
    (onTimeOut : ofxControlBaseEvent K → ofxMultiLine K → ofxMultiLine K)
    (m : Cmath K) (fps : K) (M : ofxMultiLine K) (segment : ofxMultiLineSegment K)
    (rest : List (ofxMultiLineSegment K)) (hq : M.multiSegmentList = segment :: rest)
    (hrun : M.bRunning = true) (hramp : ¬ segment.ramp.gt 0) :
    M.update onTimeOut m fps =
      some ({ M with multiSegmentList :=
          { segment with elapsed := segment.elapsed + M.speed / fps } :: rest }, []) := by
  obtain ⟨speed, run, shape, coeff, events, values, queue⟩ := M
  simp only at hq hrun
  subst hq hrun
  simp only [ofxMultiLine.update, hramp, if_true, if_false]

/-- The interpolation branch of `ofxMultiLine::update`. -/
lemma multi_update_of_ramping
    (onTimeOut : ofxControlBaseEvent K → ofxMultiLine K → ofxMultiLine K)
    (m : Cmath K) (fps : K) (M : ofxMultiLine K) (segment : ofxMultiLineSegment K)
    (rest : List (ofxMultiLineSegment K)) (values : List K)
    (hq : M.multiSegmentList = segment :: rest)
    (hrun : M.bRunning = true) (h0 : segment.ramp.gt 0) (h1 : ¬ segment.ramp.gt 1)
    (hv : interpolate (shapeMult m segment.shape segment.coeff segment.ramp.val)
      M.valueVec segment.start segment.target = some values) :
    M.update onTimeOut m fps =
      some ({ M with
          valueVec := values,
          multiSegmentList :=
            { segment with elapsed := segment.elapsed + M.speed / fps } :: rest }, []) := by
  obtain ⟨speed, run, shape, coeff, events, vals, queue⟩ := M
  simp only at hq hrun hv
  subst hq hrun
  simp only [ofxMultiLine.update, h0, h1, if_true, if_false, hv]

lemma multi_update_of_empty
    (onTimeOut : ofxControlBaseEvent K → ofxMultiLine K → ofxMultiLine K)
    (m : Cmath K) (fps : K) (M : ofxMultiLine K) (hq : M.multiSegmentList = []) :
    M.update onTimeOut m fps = some (M, []) := by
  obtain ⟨speed, run, shape, coeff, events, values, queue⟩ := M
  simp only at hq
  subst hq
  rfl

lemma multi_update_of_paused
    (onTimeOut : ofxControlBaseEvent K → ofxMultiLine K → ofxMultiLine K)
    (m : Cmath K) (fps : K) (M : ofxMultiLine K) (hrun : M.bRunning = false) :
    M.update onTimeOut m fps = some (M, []) := by
  obtain ⟨speed, run, shape, coeff, events, values, queue⟩ := M
  simp only at hrun
  subst hrun
  cases queue with
  | nil => rfl
  | cons segment rest => simp [ofxMultiLine.update]

/-- When the start and target vectors have the length of the output, the
interpolation loop succeeds and computes every component independently. -/
lemma interpolate_of_length (mult : K) (values starts targets : List K)
    (hs : starts.length = values.length) (ht : targets.length = values.length) :
    ∃ out, interpolate mult values starts targets = some out ∧
      out.length = values.length ∧
      ∀ i, i < values.length →
        out.getD i 0 = starts.getD i 0 + (targets.getD i 0 - starts.getD i 0) * mult := by
  induction values generalizing starts targets with
  | nil => exact ⟨[], rfl, rfl, fun i hi => absurd hi (Nat.not_lt_zero i)⟩
  | cons v values ih =>
    match starts, targets, hs, ht with
    | s :: starts, t :: targets, hs, ht =>
      obtain ⟨out, h1, h2, h3⟩ := ih starts targets (by simpa using hs) (by simpa using ht)
      refine ⟨(s + (t - s) * mult) :: out, ?_, ?_, ?_⟩
      · simp only [interpolate, h1]
      · simp [h2]
      · intro i hi
        cases i with
        | zero => simp
        | succ j =>
          have hj : j < values.length := by simpa using hi
          simpa using h3 j hj

lemma segment_component_ramp (i : Nat) (segment : ofxMultiLineSegment K) :
    (segment.component i).ramp = segment.ramp := rfl

/-- One `update` of the multi-value engine is, in each component, one `update` of
the single-value engine. -/
lemma multi_update_component (m : Cmath K) (fps : K) (n i : Nat) (hi : i < n)
    (M : ofxMultiLine K) (hM : M.hasLines n) :
    ∃ M2, M.update externalMultiCallback m fps =
        some (M2, ((M.component i).update externalCallback m fps).2) ∧
      M2.hasLines n ∧
      M2.component i = ((M.component i).update externalCallback m fps).1 := by
  cases hq : M.multiSegmentList with
  | nil =>
    have hq2 : (M.component i).segmentList = [] := by
      simp [ofxMultiLine.component, hq]
    rw [multi_update_of_empty externalMultiCallback m fps M hq, update_of_empty externalCallback m fps _ hq2]
    exact ⟨M, rfl, hM, rfl⟩
  | cons segment rest =>
    have hq2 : (M.component i).segmentList =
        segment.component i :: rest.map (ofxMultiLineSegment.component i) := by
      simp [ofxMultiLine.component, hq]
    have hseg : segment.start.length = n ∧ segment.target.length = n :=
      hM.2 segment (by rw [hq]; exact List.mem_cons_self _ _)
    have hrest : ∀ s ∈ rest, s.start.length = n ∧ s.target.length = n :=
      fun s hs => hM.2 s (by rw [hq]; exact List.mem_cons_of_mem _ hs)
    cases hrun : M.bRunning with
    | false =>
      rw [multi_update_of_paused externalMultiCallback m fps M hrun,
        update_of_paused externalCallback m fps (M.component i) hrun]
      exact ⟨M, rfl, hM, rfl⟩
    | true =>
      have hrun2 : (M.component i).bRunning = true := hrun
      by_cases h0 : segment.ramp.gt 0
      · by_cases h1 : segment.ramp.gt 1
        · rw [multi_update_of_complete externalMultiCallback m fps M segment rest hq hrun h1 (fun _ _ _ => rfl),
            update_of_complete externalCallback m fps (M.component i) (segment.component i) _ hq2 hrun2 h1
              (fun _ _ _ => rfl)]
          refine ⟨_, rfl, ⟨hseg.2, ?_⟩, ?_⟩
          · intro s hs
            cases rest with
            | nil => simp at hs
            | cons next tl =>
              simp only [List.mem_cons] at hs
              rcases hs with hs | hs
              · rw [hs]
                exact ⟨hseg.2, (hrest next (List.mem_cons_self _ _)).2⟩
              · exact hrest s (List.mem_cons_of_mem _ hs)
          · cases rest <;> rfl
        · obtain ⟨out, ho1, ho2, ho3⟩ := interpolate_of_length
            (shapeMult m segment.shape segment.coeff segment.ramp.val)
            M.valueVec segment.start segment.target (by rw [hseg.1, hM.1])
            (by rw [hseg.2, hM.1])
          rw [multi_update_of_ramping externalMultiCallback m fps M segment rest out hq hrun h0 h1 ho1,
            update_of_ramping externalCallback m fps (M.component i) (segment.component i) _ hq2 hrun2 h0 h1]
          refine ⟨_, rfl, ⟨by rw [ho2, hM.1], ?_⟩, ?_⟩
          · intro s hs
            simp only [List.mem_cons] at hs
            rcases hs with hs | hs
            · rw [hs]; exact hseg
            · exact hrest s hs
          · have hval := ho3 i (by rw [hM.1]; exact hi)
            simp only [ofxMultiLine.component, List.map_cons, hval]
            rfl
      · rw [multi_update_of_waiting externalMultiCallback m fps M segment rest hq hrun h0,
          update_of_waiting externalCallback m fps (M.component i) (segment.component i) _ hq2 hrun2 h0]
        refine ⟨_, rfl, ⟨hM.1, ?_⟩, rfl⟩
        intro s hs
        simp only [List.mem_cons] at hs
        rcases hs with hs | hs
        · rw [hs]; exact hseg
        · exact hrest s hs

lemma getD_replicate_of_lt (x : K) (n i : Nat) (hi : i < n) :
    (List.replicate n x).getD i 0 = x := by
  simp [List.getD, List.getElem?_replicate, hi]

/-- One call on the multi-value engine is, in each component, the same call on
the single-value engine, and keeps the number of lines. -/
lemma multi_step_component (m : Cmath K) (fps : K) (n i : Nat) (hi : i < n)
    (M : ofxMultiLine K) (hM : M.hasLines n) (op : MultiOp K) (hop : op.fits n) :
    ∃ M2, M.step externalMultiCallback m fps op =
        some (M2, ((M.component i).step externalCallback m fps (op.component i)).2) ∧
      M2.hasLines n ∧
      M2.component i = ((M.component i).step externalCallback m fps (op.component i)).1 := by
  cases op with
  | update => exact multi_update_component m fps n i hi M hM
  | setValues v =>
    exact ⟨_, rfl, ⟨hop, fun s hs => by simp [ofxMultiLine.setValues] at hs⟩, rfl⟩
  | setValuesAll x =>
    refine ⟨_, rfl, ⟨?_, fun s hs => by simp [ofxMultiLine.setValuesAll] at hs⟩, ?_⟩
    · simp [ofxMultiLine.setValuesAll, hM.1]
    · have hx : (List.replicate M.valueVec.length x).getD i 0 = x :=
        getD_replicate_of_lt x _ i (by rw [hM.1]; exact hi)
      simp only [ofxMultiLine.component, ofxMultiLine.setValuesAll, hx, List.map_nil]
      rfl
  | setShape sh c => exact ⟨_, rfl, hM, rfl⟩
  | addOnSegmentEnd kind => exact ⟨_, rfl, hM, rfl⟩
  | addSegment t rt ons =>
    have ht : resize t M.valueVec.length = t :=
      resize_of_length_eq t _ (by rw [hM.1]; exact hop)
    refine ⟨_, rfl, ⟨hM.1, ?_⟩, ?_⟩
    · intro s hs
      simp only [ofxMultiLine.addSegment, List.mem_append, List.mem_singleton] at hs
      rcases hs with hs | hs
      · exact hM.2 s hs
      · rw [hs]
        exact ⟨hM.1, by rw [ht]; exact hop⟩
    · simp only [ofxMultiLine.component, ofxMultiLine.addSegment, ht, List.map_append,
        List.map_cons, List.map_nil]
      rfl
  | removeLastSegment =>
    rcases List.eq_nil_or_concat M.multiSegmentList with hq | ⟨front, last, hq⟩
    · have hM2 : M.removeLastSegment = M := by
        simp [ofxMultiLine.removeLastSegment, hq]
      have hL2 : (M.component i).removeLastSegment = M.component i := by
        simp [ofxLine.removeLastSegment, ofxMultiLine.component, hq]
      refine ⟨M.removeLastSegment, rfl, ?_, ?_⟩
      · rw [hM2]; exact hM
      · rw [hM2]; exact hL2.symm
    · rw [List.concat_eq_append] at hq
      have hq2 : (M.component i).segmentList =
          front.map (ofxMultiLineSegment.component i) ++ [last.component i] := by
        simp [ofxMultiLine.component, hq]
      have hfront : ∀ s ∈ front, s.start.length = n ∧ s.target.length = n :=
        fun s hs => hM.2 s (by rw [hq]; simp [hs])
      refine ⟨M.removeLastSegment, rfl, ?_, ?_⟩
      · rw [multi_removeLastSegment_concat M front last hq]
        refine ⟨hM.1, ?_⟩
        match front, hfront with
        | [], _ => intro s hs; simp at hs
        | [only], hfront =>
          intro s hs
          simp only [List.mem_singleton] at hs
          rw [hs]
          exact ⟨hM.1, (hfront only (List.mem_singleton_self _)).2⟩
        | a :: b :: tl, hfront => exact hfront
      · show (M.removeLastSegment).component i = (M.component i).removeLastSegment
        rw [multi_removeLastSegment_concat M front last hq,
          removeLastSegment_concat (M.component i) _ _ hq2]
        match front with
        | [] => rfl
        | [only] => rfl
        | a :: b :: tl => rfl
  | nextSegment =>
    obtain ⟨speed, run, shape, coeff, events, values, queue⟩ := M
    cases queue with
    | nil => exact ⟨_, rfl, hM, rfl⟩
    | cons segment rest =>
      cases rest with
      | nil => exact ⟨_, rfl, ⟨hM.1, fun s hs => absurd hs (List.not_mem_nil s)⟩, rfl⟩
      | cons next tl =>
        refine ⟨_, rfl, ⟨hM.1, ?_⟩, rfl⟩
        intro s hs
        have hs2 : s ∈ ({ next with start := values } : ofxMultiLineSegment K) :: tl := hs
        rcases List.mem_cons.mp hs2 with hs | hs
        · rw [hs]
          exact ⟨hM.1, (hM.2 next (by simp)).2⟩
        · exact hM.2 s (by simp [hs])
  | clear => exact ⟨_, rfl, ⟨hM.1, fun s hs => by simp [ofxMultiLine.clear] at hs⟩, rfl⟩

/-- A call sequence on the multi-value engine is, in each component, the same call
sequence on the single-value engine. -/
lemma multi_run_component (m : Cmath K) (fps : K) (n i : Nat) (hi : i < n)
    (ops : List (MultiOp K)) (M : ofxMultiLine K) (hM : M.hasLines n)
    (hops : ∀ op ∈ ops, op.fits n) :
    ∃ M2, M.run externalMultiCallback m fps ops =
        some (M2, (ofxLine.run externalCallback m fps (ops.map (MultiOp.component i))
          (M.component i)).2) ∧
      M2.hasLines n ∧
      M2.component i =
        (ofxLine.run externalCallback m fps (ops.map (MultiOp.component i))
          (M.component i)).1 := by
  induction ops generalizing M with
  | nil => exact ⟨M, rfl, hM, rfl⟩
  | cons op ops ih =>
    obtain ⟨M1, h1, hM1, hc1⟩ :=
      multi_step_component m fps n i hi M hM op (hops op (List.mem_cons_self _ _))
    obtain ⟨M2, h2, hM2, hc2⟩ := ih M1 hM1 (fun x hx => hops x (List.mem_cons_of_mem _ hx))
    refine ⟨M2, ?_, hM2, ?_⟩
    · simp only [ofxMultiLine.run, h1, h2, List.map_cons, ofxLine.run, hc1]
    · simp only [List.map_cons, ofxLine.run]
      rw [hc2, hc1]

end MultiLemmas

/-- With at least one line the indexed read finds the element at the clamped
index. -/
lemma index_of_nonempty {K : Type} (M : ofxMultiLine K) (index : Int) (h : M.valueVec ≠ []) :
    ∃ x, M.index index = some x ∧
      M.valueVec[(min (max index 0) ((M.valueVec.length : Int) - 1)).toNat]? = some x := by
  have hlen : 0 < M.valueVec.length := List.length_pos.mpr h
  have hclamp : max 0 (min ((M.valueVec.length : Int) - 1) index) =
      min (max index 0) ((M.valueVec.length : Int) - 1) := by
    rcases le_total index 0 with h0 | h0 <;>
      rcases le_total index ((M.valueVec.length : Int) - 1) with h1 | h1 <;>
      simp [h0, h1] <;> omega
  have hlt : (min (max index 0) ((M.valueVec.length : Int) - 1)).toNat < M.valueVec.length := by
    have h1 : min (max index 0) ((M.valueVec.length : Int) - 1) ≤ (M.valueVec.length : Int) - 1 :=
      min_le_right _ _
    omega
  refine ⟨M.valueVec[(min (max index 0) ((M.valueVec.length : Int) - 1)).toNat], ?_, ?_⟩
  · simp only [ofxMultiLine.index, hclamp]
    exact List.getElem?_eq_getElem hlt
  · exact List.getElem?_eq_getElem hlt

section MultiClaims

variable {K : Type} [LinearOrderedField K]

/-- C13 (as stated, refuted on an example). A fresh engine after `setNumLines(3)`
and `addSegment([1,2,3], 0, 0)`: the first `update` sees the ramp position
`0 / 0`, which is not `> 0`; after exactly one `update` the output is still
`[0,0,0]` and the segment is still queued. -/
theorem C13_zero_length_first_update_counterexample :
    ((((ofxMultiLine.init : ofxMultiLine ℚ).setNumLines 3).addSegment [1, 2, 3] 0 0).update
        externalMultiCallback ratCmath 30).map
      (fun r => (r.1.out, r.1.multiSegmentList.length)) = some ([0, 0, 0], 1) := by
  rw [multi_update_of_waiting externalMultiCallback ratCmath 30 _
    { time := 0, onset := 0, start := [0, 0, 0], target := [1, 2, 3],
      shape := ofxLineShape.LIN, coeff := 0, elapsed := 0, eventList := [] } []
    (by simp [ofxMultiLine.addSegment, ofxMultiLine.setNumLines, ofxMultiLine.init, resize])
    rfl
    (by simp [ofxMultiLineSegment.ramp, fdiv, FloatDiv.gt])]
  simp [ofxMultiLine.addSegment, ofxMultiLine.setNumLines, ofxMultiLine.init, resize,
    ofxMultiLine.out]

/-- C13 (amended). A running engine with an empty queue and positive speed and
frame rate, after `setNumLines(3)` and `addSegment([a,b,c], 0, 0)`: the first
`update` only starts the segment's clock (the output is unchanged, the segment
stays queued, nothing fires); the second `update` completes it: the output is
exactly `[a,b,c]`, the queue is empty and the events attached to the segment have
fired.  The callbacks are taken not to call back into the engine. -/
theorem C13_zero_length_segment_two_updates (m : Cmath K) (fps : K) (M : ofxMultiLine K)
    (a b c : K) (hq : M.multiSegmentList = []) (hrun : M.bRunning = true)
    (hspeed : 0 < M.speed) (hfps : 0 < fps) :
    ∃ M1 M2 : ofxMultiLine K,
      ((M.setNumLines 3).addSegment [a, b, c] 0 0).update externalMultiCallback m fps =
        some (M1, []) ∧
      M1.out = ((M.setNumLines 3).addSegment [a, b, c] 0 0).out ∧
      M1.multiSegmentList.length = 1 ∧
      M1.update externalMultiCallback m fps = some (M2, M.eventList) ∧
      M2.out = [a, b, c] ∧
      M2.multiSegmentList = [] := by
  have hd : 0 < M.speed / fps := div_pos hspeed hfps
  obtain ⟨speed, run, shape, coeff, events, values, queue⟩ := M
  simp only at hq hrun hd
  subst hq hrun
  have htarget : resize [a, b, c] (resize values 3).length = [a, b, c] := by
    rw [resize_length]; rfl
  have hA : ofxMultiLine.addSegment (ofxMultiLine.setNumLines
      { speed := speed, bRunning := true, shape := shape, coeff := coeff, eventList := events,
        valueVec := values, multiSegmentList := [] } 3) [a, b, c] 0 0 =
      { speed := speed, bRunning := true, shape := shape, coeff := coeff, eventList := [],
        valueVec := resize values 3,
        multiSegmentList :=
          [{ time := 0, onset := 0, start := resize values 3, target := [a, b, c],
             shape := shape, coeff := coeff, elapsed := 0, eventList := events }] } := by
    have h3 : (max 1 (3 : Int)).toNat = 3 := rfl
    simp only [ofxMultiLine.addSegment, ofxMultiLine.setNumLines, h3, htarget, List.map_nil,
      List.nil_append, ge_iff_le, le_refl, if_true]
  rw [hA]
  refine ⟨{ speed := speed, bRunning := true, shape := shape, coeff := coeff, eventList := [],
            valueVec := resize values 3,
            multiSegmentList :=
              [{ time := 0, onset := 0, start := resize values 3, target := [a, b, c],
                 shape := shape, coeff := coeff, elapsed := 0 + speed / fps,
                 eventList := events }] },
          { speed := speed, bRunning := true, shape := shape, coeff := coeff, eventList := [],
            valueVec := [a, b, c], multiSegmentList := [] }, ?_, rfl, rfl, ?_, rfl, rfl⟩
  · exact multi_update_of_waiting externalMultiCallback m fps
      { speed := speed, bRunning := true, shape := shape, coeff := coeff, eventList := [],
        valueVec := resize values 3,
        multiSegmentList :=
          [{ time := 0, onset := 0, start := resize values 3, target := [a, b, c],
             shape := shape, coeff := coeff, elapsed := 0, eventList := events }] }
      { time := 0, onset := 0, start := resize values 3, target := [a, b, c],
        shape := shape, coeff := coeff, elapsed := 0, eventList := events } [] rfl rfl
      (by simp [ofxMultiLineSegment.ramp, fdiv, FloatDiv.gt])
  · exact multi_update_of_complete externalMultiCallback m fps
      { speed := speed, bRunning := true, shape := shape, coeff := coeff, eventList := [],
        valueVec := resize values 3,
        multiSegmentList :=
          [{ time := 0, onset := 0, start := resize values 3, target := [a, b, c],
             shape := shape, coeff := coeff, elapsed := 0 + speed / fps,
             eventList := events }] }
      { time := 0, onset := 0, start := resize values 3, target := [a, b, c],
        shape := shape, coeff := coeff, elapsed := 0 + speed / fps, eventList := events }
      [] rfl rfl
      (by simp [ofxMultiLineSegment.ramp, fdiv, FloatDiv.gt, ne_of_gt hd, hd])
      (fun _ _ _ => rfl)

/-- Witness of C13 (amended): the scenario of the claim on a fresh engine. -/
theorem C13_zero_length_segment_two_updates_witness :
    ∃ M1 M2 : ofxMultiLine ℚ,
      (((ofxMultiLine.init : ofxMultiLine ℚ).setNumLines 3).addSegment [1, 2, 3] 0 0).update
          externalMultiCallback ratCmath 30 = some (M1, []) ∧
      M1.out =
        (((ofxMultiLine.init : ofxMultiLine ℚ).setNumLines 3).addSegment [1, 2, 3] 0 0).out ∧
      M1.multiSegmentList.length = 1 ∧
      M1.update externalMultiCallback ratCmath 30 =
        some (M2, (ofxMultiLine.init : ofxMultiLine ℚ).eventList) ∧
      M2.out = [1, 2, 3] ∧
      M2.multiSegmentList = [] :=
  C13_zero_length_segment_two_updates ratCmath 30 ofxMultiLine.init 1 2 3 rfl rfl
    (by norm_num [ofxMultiLine.init]) (by norm_num)

/-- C14. The multi-value engine is the single-value state machine applied in each
component: on an engine with `n` lines (the output and the start and target of
every queued segment have `n` elements) and for every index `i < n`, any sequence
of calls (`update`, `setValues`, `addSegment` with vectors of `n` elements,
`removeLastSegment`, `nextSegment`, `clear`, and the inherited `setShape` and
`addOnSegmentEnd`) succeeds and leaves an engine whose `i`-th component (output,
queue, speed, shape template, events) is the single-value engine obtained from
the `i`-th component of the start by the same calls with the `i`-th components
as targets and values; the same events fire, and the queues have the same length.
The callbacks are taken not to call back into the engines. -/
theorem C14_multi_is_componentwise_single (m : Cmath K) (fps : K) (n i : Nat) (hi : i < n)
    (M : ofxMultiLine K) (hM : M.hasLines n) (ops : List (MultiOp K))
    (hops : ∀ op ∈ ops, op.fits n) :
    ∃ M2, M.run externalMultiCallback m fps ops =
        some (M2, (ofxLine.run externalCallback m fps (ops.map (MultiOp.component i))
          (M.component i)).2) ∧
      M2.out.getD i 0 =
        (ofxLine.run externalCallback m fps (ops.map (MultiOp.component i))
          (M.component i)).1.out ∧
      M2.multiSegmentList.length =
        (ofxLine.run externalCallback m fps (ops.map (MultiOp.component i))
          (M.component i)).1.segmentList.length ∧
      M2.component i =
        (ofxLine.run externalCallback m fps (ops.map (MultiOp.component i))
          (M.component i)).1 ∧
      M2.hasLines n := by
  obtain ⟨M2, h1, h2, h3⟩ := multi_run_component m fps n i hi ops M hM hops
  refine ⟨M2, h1, ?_, ?_, h3, h2⟩
  · rw [← h3]; rfl
  · rw [← h3]
    simp [ofxMultiLine.component]

/-- Witness of C14: the second of three lines through a ramp, a skip and a reset. -/
theorem C14_multi_is_componentwise_single_witness :
    ∃ M2, (ofxMultiLine.construct 3 : ofxMultiLine ℚ).run externalMultiCallback ratCmath 30
        [MultiOp.addSegment [1, 2, 3] 1 0, MultiOp.update, MultiOp.update,
          MultiOp.addSegment [4, 5, 6] 0 0, MultiOp.nextSegment, MultiOp.setValues [7, 8, 9]] =
        some (M2, (ofxLine.run externalCallback ratCmath 30
          ([MultiOp.addSegment [1, 2, 3] 1 0, MultiOp.update, MultiOp.update,
            MultiOp.addSegment [4, 5, 6] 0 0, MultiOp.nextSegment,
            MultiOp.setValues [7, 8, 9]].map (MultiOp.component 1))
          ((ofxMultiLine.construct 3 : ofxMultiLine ℚ).component 1)).2) ∧
      M2.out.getD 1 0 =
        (ofxLine.run externalCallback ratCmath 30
          ([MultiOp.addSegment [1, 2, 3] 1 0, MultiOp.update, MultiOp.update,
            MultiOp.addSegment [4, 5, 6] 0 0, MultiOp.nextSegment,
            MultiOp.setValues [7, 8, 9]].map (MultiOp.component 1))
          ((ofxMultiLine.construct 3 : ofxMultiLine ℚ).component 1)).1.out ∧
      M2.multiSegmentList.length =
        (ofxLine.run externalCallback ratCmath 30
          ([MultiOp.addSegment [1, 2, 3] 1 0, MultiOp.update, MultiOp.update,
            MultiOp.addSegment [4, 5, 6] 0 0, MultiOp.nextSegment,
            MultiOp.setValues [7, 8, 9]].map (MultiOp.component 1))
          ((ofxMultiLine.construct 3 : ofxMultiLine ℚ).component 1)).1.segmentList.length ∧
      M2.component 1 =
        (ofxLine.run externalCallback ratCmath 30
          ([MultiOp.addSegment [1, 2, 3] 1 0, MultiOp.update, MultiOp.update,
            MultiOp.addSegment [4, 5, 6] 0 0, MultiOp.nextSegment,
            MultiOp.setValues [7, 8, 9]].map (MultiOp.component 1))
          ((ofxMultiLine.construct 3 : ofxMultiLine ℚ).component 1)).1 ∧
      M2.hasLines 3 :=
  C14_multi_is_componentwise_single ratCmath 30 3 1 (by decide) (ofxMultiLine.construct 3)
    ⟨by simp [ofxMultiLine.construct, ofxMultiLine.init, resize],
     fun s hs => by simp [ofxMultiLine.construct, ofxMultiLine.init] at hs⟩
    [MultiOp.addSegment [1, 2, 3] 1 0, MultiOp.update, MultiOp.update,
      MultiOp.addSegment [4, 5, 6] 0 0, MultiOp.nextSegment, MultiOp.setValues [7, 8, 9]]
    (by simp [MultiOp.fits])

/-- C15. `setNumLines(n)` with `m = max 1 n`: the line count becomes `m`; the
output and the start and target vector of every queued segment are resized to `m`
elements, keeping the elements they had below `m` and filling the new ones with 0;
the number and order of the queued segments, their times, shapes and events, and
the other members of the engine are unchanged. -/
theorem C15_setNumLines_postcondition (M : ofxMultiLine K) (numLines : Int) :
    (M.setNumLines numLines).getNumLines = max 1 numLines ∧
    M.setNumLines numLines =
      { M with
          valueVec := resize M.valueVec (max 1 numLines).toNat,
          multiSegmentList := M.multiSegmentList.map fun segment =>
            { segment with
                start := resize segment.start (max 1 numLines).toNat,
                target := resize segment.target (max 1 numLines).toNat } } ∧
    (∀ v : List K,
      (resize v (max 1 numLines).toNat).length = (max 1 numLines).toNat ∧
      (∀ j, j < v.length → j < (max 1 numLines).toNat →
        (resize v (max 1 numLines).toNat)[j]? = v[j]?) ∧
      (∀ j, v.length ≤ j → j < (max 1 numLines).toNat →
        (resize v (max 1 numLines).toNat)[j]? = some 0)) := by
  refine ⟨?_, rfl, ?_⟩
  · simp only [ofxMultiLine.getNumLines, ofxMultiLine.setNumLines, resize_length]
    have h : (0 : Int) ≤ max 1 numLines := le_trans zero_le_one (le_max_left 1 numLines)
    exact Int.toNat_of_nonneg h
  · intro v
    exact ⟨resize_length v _, fun j hj hn => resize_getElem?_of_lt v _ j hj hn,
      fun j hj hn => resize_getElem?_of_ge v _ j hj hn⟩

/-- C16 (the code at the failing input). After `setValues` with an empty vector
the engine has no line, and the indexed read finds no element at the clamped
index 0, whatever the index. -/
theorem C16_index_after_empty_setValues :
    ((ofxMultiLine.construct 3 : ofxMultiLine ℚ).setValues []).getNumLines = 0 ∧
    ((ofxMultiLine.construct 3 : ofxMultiLine ℚ).setValues []).index 0 = none ∧
    ∀ index : Int, ((ofxMultiLine.construct 3 : ofxMultiLine ℚ).setValues []).index index = none := by
  refine ⟨rfl, rfl, ?_⟩
  intro index
  simp [ofxMultiLine.index, ofxMultiLine.setValues]

end MultiClaims

section EventClaims

variable {K : Type}

/-- C17. Matching depends on identity only: `a.compare(b)` is true exactly when
both are variable writes to the same (typed) location, or both are calls with one
argument, or both calls without argument, of the same member function on the same
object; it does not depend on the payloads, the delays or the elapsed times of the
two events, a variable write never matches a call, and `compare` is reflexive and
symmetric. -/
theorem C17_compare_identity_only (a b : ofxControlBaseEvent K) :
    (a.compare b = true ↔
      (∃ T var val val2,
        a.kind = ofxControlEventKind.ofxControlVarEvent T var val ∧
        b.kind = ofxControlEventKind.ofxControlVarEvent T var val2) ∨
      (∃ TArg TReturn TObj obj func arg arg2,
        a.kind = ofxControlEventKind.ofxControlFuncEvent TArg TReturn TObj obj func arg ∧
        b.kind = ofxControlEventKind.ofxControlFuncEvent TArg TReturn TObj obj func arg2) ∨
      (∃ TReturn TObj obj func,
        a.kind = ofxControlEventKind.ofxControlFuncEventVoid TReturn TObj obj func ∧
        b.kind = ofxControlEventKind.ofxControlFuncEventVoid TReturn TObj obj func)) ∧
    (∀ (delay elapsed delay2 elapsed2 : K) (payload payload2 : Int),
      ofxControlBaseEvent.compare
        { delay := delay, elapsed := elapsed, kind := a.kind.setPayload payload }
        { delay := delay2, elapsed := elapsed2, kind := b.kind.setPayload payload2 } =
      a.compare b) ∧
    (∀ T var val, a.kind = ofxControlEventKind.ofxControlVarEvent T var val →
      (∀ TArg TReturn TObj obj func arg,
        b.kind = ofxControlEventKind.ofxControlFuncEvent TArg TReturn TObj obj func arg →
        a.compare b = false ∧ b.compare a = false) ∧
      (∀ TReturn TObj obj func,
        b.kind = ofxControlEventKind.ofxControlFuncEventVoid TReturn TObj obj func →
        a.compare b = false ∧ b.compare a = false)) ∧
    a.compare a = true ∧
    a.compare b = b.compare a := by
  obtain ⟨da, ea, ka⟩ := a
  obtain ⟨db, eb, kb⟩ := b
  refine ⟨?_, ?_, ?_, ?_, ?_⟩
  · cases ka <;> cases kb <;>
      simp [ofxControlBaseEvent.compare, ofxControlEventKind.compare] <;> aesop
  · intro delay elapsed delay2 elapsed2 payload payload2
    cases ka <;> cases kb <;> rfl
  · intro T var val ha
    simp only at ha
    subst ha
    constructor
    · intro TArg TReturn TObj obj func arg hb
      simp only at hb
      subst hb
      exact ⟨rfl, rfl⟩
    · intro TReturn TObj obj func hb
      simp only at hb
      subst hb
      exact ⟨rfl, rfl⟩
  · cases ka <;> simp [ofxControlBaseEvent.compare, ofxControlEventKind.compare]
  · cases ka <;> cases kb <;>
      simp [ofxControlBaseEvent.compare, ofxControlEventKind.compare, eq_comm]

end EventClaims

lemma searchAndRemoveList_eq_filter {K : Type} (testobj : ofxControlBaseEvent K)
    (clocks : List (ofxControlBaseEvent K)) :
    ofxClock.searchAndRemoveList testobj clocks =
      clocks.filter (fun e => !e.compare testobj) := by
  induction clocks with
  | nil => rfl
  | cons clock rest ih =>
    simp only [ofxClock.searchAndRemoveList, ih, List.filter_cons]
    cases clock.compare testobj <;> simp

section ClockLemmas

variable {K : Type} [LinearOrderedField K]

/-- The walk of `update` ages every clock, fires the clocks that are due and keeps
the others, both in list order. -/
lemma walk_eq_filter (dt : K) (clocks : List (ofxControlBaseEvent K)) :
    ofxClock.walk dt clocks =
      ((clocks.map fun e => e.addElapsed dt).filter (fun e => decide (¬ e.elapsed > e.delay)),
       (clocks.map fun e => e.addElapsed dt).filter (fun e => decide (e.elapsed > e.delay))) := by
  induction clocks with
  | nil => rfl
  | cons clock rest ih =>
    simp only [ofxClock.walk, ih, List.map_cons]
    by_cases h : (clock.addElapsed dt).elapsed > (clock.addElapsed dt).delay
    · simp [h, List.filter_cons]
    · have h2 := not_lt.mp h
      simp [h, h2, List.filter_cons]

/-- Removing the clocks that match a test object commutes with the walk of
`update`: matching does not look at the elapsed time. -/
lemma walk_searchAndRemoveList (dt : K) (testobj : ofxControlBaseEvent K)
    (clocks : List (ofxControlBaseEvent K)) :
    ofxClock.walk dt (ofxClock.searchAndRemoveList testobj clocks) =
      (ofxClock.searchAndRemoveList testobj (ofxClock.walk dt clocks).1,
       (ofxClock.walk dt clocks).2.filter (fun e => !e.compare testobj)) := by
  induction clocks with
  | nil => rfl
  | cons clock rest ih =>
    have hc : (clock.addElapsed dt).compare testobj = clock.compare testobj := rfl
    by_cases hm : clock.compare testobj = true
    · by_cases h : (clock.addElapsed dt).elapsed > (clock.addElapsed dt).delay
      · simp [ofxClock.walk, ofxClock.searchAndRemoveList, hm, h, ih, hc, List.filter_cons]
      · simp [ofxClock.walk, ofxClock.searchAndRemoveList, hm, h, ih, hc]
    · have hm2 : clock.compare testobj = false := by simpa using hm
      by_cases h : (clock.addElapsed dt).elapsed > (clock.addElapsed dt).delay
      · simp [ofxClock.walk, ofxClock.searchAndRemoveList, hm2, h, ih, hc, List.filter_cons]
      · simp [ofxClock.walk, ofxClock.searchAndRemoveList, hm2, h, ih, hc]

lemma update_cancel (fps : K) (C : ofxClock K) (description : ofxControlEventKind) :
    ((C.cancel description).update fps).1 = (C.update fps).1.cancel description ∧
    ((C.cancel description).update fps).2 =
      (C.update fps).2.filter (fun e => !e.compare (testObject description)) := by
  obtain ⟨speed, run, clocks⟩ := C
  cases run with
  | false => exact ⟨rfl, rfl⟩
  | true =>
    constructor <;>
      simp [ofxClock.update, ofxClock.cancel, ofxClock.searchAndRemove,
        walk_searchAndRemoveList]

lemma afterUpdates_cancel (fps : K) (n : Nat) (C : ofxClock K)
    (description : ofxControlEventKind) :
    (C.cancel description).afterUpdates fps n = (C.afterUpdates fps n).cancel description := by
  induction n generalizing C with
  | zero => rfl
  | succ n ih =>
    simp only [ofxClock.afterUpdates]
    rw [(update_cancel fps C description).1, ih]

end ClockLemmas

section ClockClaims

variable {K : Type} [LinearOrderedField K]

/-- C19. Cancellation by description: `cancel` removes every entry that matches
the description, wherever it is, keeps the others in order with their delay and
elapsed time, and fires nothing.  Afterwards the scheduler evolves as it would
have without the cancel, less the matching entries: after any number of updates
the state is the uncancelled state with the matching entries removed, and each
later update fires the entries it would have fired, less the matching ones. -/
theorem C19_cancel_by_description (fps : K) (C : ofxClock K)
    (description : ofxControlEventKind) :
    (C.cancel description).clockList =
      C.clockList.filter (fun e => !e.compare (testObject description)) ∧
    (C.cancel description).speed = C.speed ∧
    (C.cancel description).bRunning = C.bRunning ∧
    (∀ n, (C.cancel description).afterUpdates fps n =
        (C.afterUpdates fps n).cancel description ∧
      (((C.cancel description).afterUpdates fps n).update fps).2 =
        ((C.afterUpdates fps n).update fps).2.filter
          (fun e => !e.compare (testObject description))) := by
  refine ⟨?_, rfl, rfl, ?_⟩
  · simp only [ofxClock.cancel, ofxClock.searchAndRemove, searchAndRemoveList_eq_filter]
  · intro n
    refine ⟨afterUpdates_cancel fps n C description, ?_⟩
    rw [afterUpdates_cancel fps n C description]
    exact (update_cancel fps _ description).2

end ClockClaims

section OscLemmas

variable {K : Type} [LinearOrderedField K] [FloorRing K]

/-- `fmod(x, 1)` followed by `if (w < 0) w += 1` is the fractional part of `x`. -/
lemma wrapUnit_eq_fract (x : K) :
    (if fmod x 1 < 0 then fmod x 1 + 1 else fmod x 1) = Int.fract x := by
  symm
  rw [Int.fract_eq_iff]
  have hf : fmod x 1 = x - (truncate x : K) := by
    simp [fmod]
  rw [hf]
  by_cases hx : 0 ≤ x
  · have ht : truncate x = ⌊x⌋ := by simp [truncate, hx]
    rw [ht, Int.self_sub_floor]
    have h0 := Int.fract_nonneg x
    have h1 := Int.fract_lt_one x
    rw [if_neg (not_lt.mpr h0)]
    refine ⟨h0, h1, ⌊x⌋, ?_⟩
    rw [← Int.self_sub_floor]; ring
  · have ht : truncate x = ⌈x⌉ := by simp [truncate, hx]
    rw [ht]
    have h1 := Int.le_ceil x
    have h2 := Int.ceil_lt_add_one x
    by_cases hw : x - (⌈x⌉ : K) < 0
    · rw [if_pos hw]
      refine ⟨by linarith, by linarith, ⌈x⌉ - 1, ?_⟩
      push_cast; ring
    · rw [if_neg hw]
      refine ⟨not_lt.mp hw, by linarith, ⌈x⌉, ?_⟩
      ring

lemma wrap_eq (O : ofxBaseOsc K) :
    O.wrap = if O.offset ≠ 0 then Int.fract (O.phase + O.offset) else O.phase := by
  simp only [ofxBaseOsc.wrap, wrapUnit_eq_fract]

/-- `update` of a running oscillator, with the two `fmod` normalisations written as
fractional parts. -/
lemma osc_update_running (fps : K) (O : ofxBaseOsc K) (hrun : O.bRunning = true) :
    O.update fps =
      ({ O with
          wrapped := O.wrap,
          counter :=
            if (!O.bReset && decide (periodBoundary O.freq O.wrapped O.wrap)) = true
            then O.counter + 1 else O.counter,
          bReset := false,
          phase := Int.fract (O.phase + O.speed * O.freq / fps + FLT_EPSILON) },
       if (!O.bReset && decide (periodBoundary O.freq O.wrapped O.wrap)) = true
       then O.eventList else []) := by
  simp only [ofxBaseOsc.update, hrun, if_true, wrapUnit_eq_fract]

lemma osc_update_paused (fps : K) (O : ofxBaseOsc K) (hrun : O.bRunning = false) :
    O.update fps = (O, []) := by
  simp [ofxBaseOsc.update, hrun]

end OscLemmas

section OscSteadyLemmas

variable {K : Type} [LinearOrderedField K] [FloorRing K]

lemma osc_updateN_succ_last (fps : K) (n : Nat) (O : ofxBaseOsc K) :
    ofxBaseOsc.updateN fps (n + 1) O =
      (((ofxBaseOsc.updateN fps n O).1.update fps).1,
       (ofxBaseOsc.updateN fps n O).2 ++ ((ofxBaseOsc.updateN fps n O).1.update fps).2) := by
  induction n generalizing O with
  | zero => simp [ofxBaseOsc.updateN]
  | succ n ih =>
    have h : ofxBaseOsc.updateN fps (n + 1 + 1) O =
        ((ofxBaseOsc.updateN fps (n + 1) (O.update fps).1).1,
         (O.update fps).2 ++ (ofxBaseOsc.updateN fps (n + 1) (O.update fps).1).2) := rfl
    rw [h, ih]
    simp [ofxBaseOsc.updateN, List.append_assoc]

/-- Advancing by a step `0 < d ≤ 1` wraps the fractional part exactly when the
integer part grows, and then it grows by one. -/
lemma floor_step (T d : K) (hd0 : 0 < d) (hd1 : d ≤ 1) :
    (Int.fract T - Int.fract (T - d) ≤ 0 ∧ ⌊T⌋ = ⌊T - d⌋ + 1) ∨
    (¬ Int.fract T - Int.fract (T - d) ≤ 0 ∧ ⌊T⌋ = ⌊T - d⌋) := by
  have h1 : ⌊T - d⌋ ≤ ⌊T⌋ := Int.floor_mono (by linarith)
  have h2 : ⌊T⌋ ≤ ⌊T - d⌋ + 1 := by
    have : ⌊T⌋ ≤ ⌊T - d + 1⌋ := Int.floor_mono (by linarith)
    rwa [Int.floor_add_one] at this
  have hfr : Int.fract T - Int.fract (T - d) = d - ((⌊T⌋ - ⌊T - d⌋ : Int) : K) := by
    rw [(Int.self_sub_floor T).symm, (Int.self_sub_floor (T - d)).symm]
    push_cast
    ring
  rcases (by omega : ⌊T⌋ = ⌊T - d⌋ + 1 ∨ ⌊T⌋ = ⌊T - d⌋) with h | h
  · left
    refine ⟨?_, h⟩
    rw [hfr, h]
    push_cast
    linarith
  · right
    refine ⟨?_, h⟩
    rw [hfr, h]
    push_cast
    simp only [sub_self, sub_zero, not_le]
    exact hd0

lemma flatten_replicate_succ {α : Type} (n : Nat) (l : List α) :
    (List.replicate (n + 1) l).flatten = (List.replicate n l).flatten ++ l := by
  rw [List.replicate_succ', List.flatten_append]
  simp

/-- A fresh oscillator at speed 1 without phase offset and with a steady positive
frequency that advances the phase by `d = freq / fps + ε ≤ 1` per update: after
`j + 1` updates the wrapped phase is the fractional part of `j * d`, the phase that
of `(j + 1) * d`, and the events have fired once for each of the `⌊j * d⌋` periods
counted. -/
lemma osc_steady (fps : K) (O : ofxBaseOsc K) (hrun : O.bRunning = true)
    (hspeed : O.speed = 1) (hoff : O.offset = 0) (hphase : O.phase = 0)
    (hwr : O.wrapped = 0) (hreset : O.bReset = true) (hfreq : 0 < O.freq) (hfps : 0 < fps)
    (hd : O.freq / fps + FLT_EPSILON ≤ 1) (j : Nat) :
    ofxBaseOsc.updateN fps (j + 1) O =
      ({ O with
          wrapped := Int.fract ((j : K) * (O.freq / fps + FLT_EPSILON)),
          phase := Int.fract (((j : K) + 1) * (O.freq / fps + FLT_EPSILON)),
          counter := O.counter + ⌊(j : K) * (O.freq / fps + FLT_EPSILON)⌋,
          bReset := false },
       (List.replicate ⌊(j : K) * (O.freq / fps + FLT_EPSILON)⌋.toNat O.eventList).flatten) := by
  have heps : (0 : K) < FLT_EPSILON := by
    unfold FLT_EPSILON; positivity
  have hd0 : 0 < O.freq / fps + FLT_EPSILON := by
    have := div_pos hfreq hfps
    linarith
  obtain ⟨speed, run, freq, wrapped, phase, offset, counter, reset, events⟩ := O
  simp only at hrun hspeed hoff hphase hwr hreset hfreq hd hd0
  subst hrun hspeed hoff hphase hwr hreset
  simp only
  induction j with
  | zero =>
    have h := osc_update_running fps
      ({ speed := 1, bRunning := true, freq := freq, wrapped := 0, phase := 0, offset := 0,
         counter := counter, bReset := true, eventList := events } : ofxBaseOsc K) rfl
    simp only [ofxBaseOsc.updateN, h, List.append_nil]
    simp [wrap_eq]
  | succ j ih =>
    rw [osc_updateN_succ_last, ih]
    have hfloor0 : 0 ≤ ⌊(j : K) * (freq / fps + FLT_EPSILON)⌋ :=
      Int.floor_nonneg.mpr (mul_nonneg (Nat.cast_nonneg j) (le_of_lt hd0))
    have hsub : ((j : K) + 1) * (freq / fps + FLT_EPSILON) - (freq / fps + FLT_EPSILON) =
        (j : K) * (freq / fps + FLT_EPSILON) := by ring
    have hstep := floor_step (((j : K) + 1) * (freq / fps + FLT_EPSILON))
      (freq / fps + FLT_EPSILON) hd0 hd
    rw [hsub] at hstep
    have hphase2 : Int.fract (Int.fract (((j : K) + 1) * (freq / fps + FLT_EPSILON)) +
        1 * freq / fps + FLT_EPSILON) =
        Int.fract (((j : K) + 1 + 1) * (freq / fps + FLT_EPSILON)) := by
      rw [(Int.self_sub_floor (((j : K) + 1) * (freq / fps + FLT_EPSILON))).symm]
      have : ((j : K) + 1) * (freq / fps + FLT_EPSILON) -
          (⌊((j : K) + 1) * (freq / fps + FLT_EPSILON)⌋ : K) + 1 * freq / fps + FLT_EPSILON =
          ((j : K) + 1 + 1) * (freq / fps + FLT_EPSILON) -
          (⌊((j : K) + 1) * (freq / fps + FLT_EPSILON)⌋ : K) := by ring
      rw [this, Int.fract_sub_int]
    rw [osc_update_running fps _ rfl]
    simp only [wrap_eq, ne_eq, not_true_eq_false, if_false, Bool.not_false, Bool.true_and,
      decide_eq_true_eq, hphase2, Nat.cast_add, Nat.cast_one]
    rcases hstep with ⟨hle, hfl⟩ | ⟨hle, hfl⟩
    · have hb : periodBoundary freq (Int.fract ((j : K) * (freq / fps + FLT_EPSILON)))
          (Int.fract (((j : K) + 1) * (freq / fps + FLT_EPSILON))) := Or.inl ⟨hfreq, hle⟩
      have hnat : ⌊((j : K) + 1) * (freq / fps + FLT_EPSILON)⌋.toNat =
          ⌊(j : K) * (freq / fps + FLT_EPSILON)⌋.toNat + 1 := by
        rw [hfl]; omega
      simp only [hb, if_true]
      rw [hnat, flatten_replicate_succ, hfl, ← add_assoc counter]
    · have hb : ¬ periodBoundary freq (Int.fract ((j : K) * (freq / fps + FLT_EPSILON)))
          (Int.fract (((j : K) + 1) * (freq / fps + FLT_EPSILON))) := by
        rintro (⟨_, h⟩ | ⟨h, _⟩)
        · exact hle h
        · exact absurd h (not_lt.mpr (le_of_lt hfreq))
      simp only [hb, if_false, hfl, List.append_nil]

end OscSteadyLemmas

section OscClaims2

variable {K : Type} [LinearOrderedField K] [FloorRing K]

/-- C22 (as stated, refuted on an example). On a paused oscillator the `update`
after `setPhase` does nothing, so the just-reset flag is still set after it. -/
theorem C22_setPhase_paused_counterexample :
    (ofxBaseOsc.update 30 (ofxBaseOsc.setPhase { exOsc with bRunning := false } (1 / 2))).1.bReset =
      true := by
  rw [osc_update_paused 30 _ rfl]
  rfl

/-- C22 (amended). For every oscillator state, frequency and `p`, the `update`
that follows `setPhase(p)` fires nothing and leaves the period counter unchanged,
whatever the old and new wrapped phase.  If the oscillator is running, the
just-reset flag is clear after that `update` (the suppression lasts one update);
if it is paused, that `update` changes nothing and the flag stays set. -/
theorem C22_setPhase_suppresses_next_event (fps : K) (O : ofxBaseOsc K) (p : K) :
    ((O.setPhase p).update fps).2 = [] ∧
    ((O.setPhase p).update fps).1.counter = O.counter ∧
    (O.bRunning = true → ((O.setPhase p).update fps).1.bReset = false) ∧
    (O.bRunning = false → (O.setPhase p).update fps = (O.setPhase p, [])) := by
  cases hrun : O.bRunning with
  | false =>
    have h : (O.setPhase p).bRunning = false := hrun
    rw [osc_update_paused fps _ h]
    exact ⟨rfl, rfl, fun h2 => absurd h2 (by simp), fun _ => rfl⟩
  | true =>
    have h : (O.setPhase p).bRunning = true := hrun
    rw [osc_update_running fps _ h]
    refine ⟨?_, ?_, fun _ => rfl, fun h2 => absurd h2 (by simp)⟩
    · simp [ofxBaseOsc.setPhase]
    · simp [ofxBaseOsc.setPhase]

/-- Witness of C22 (amended): a running oscillator about to cross the boundary,
and the same oscillator paused. -/
theorem C22_setPhase_suppresses_next_event_witness :
    ((exOsc.setPhase (1 / 2)).update 30).1.bReset = false ∧
    ofxBaseOsc.update 30 (ofxBaseOsc.setPhase { exOsc with bRunning := false } (1 / 2)) =
      (ofxBaseOsc.setPhase { exOsc with bRunning := false } (1 / 2), []) :=
  ⟨(C22_setPhase_suppresses_next_event 30 exOsc (1 / 2)).2.2.1 rfl,
   (C22_setPhase_suppresses_next_event 30 { exOsc with bRunning := false } (1 / 2)).2.2.2 rfl⟩

/-- C23 (the code at the failing input). A fresh metronome with one event and
frequency -1 at 30 frames per second: the second `update` sees the wrapped phase
go from 0 to `29/30 + ε` and counts the first period.  Then `forceNext()` resets
the phase to 0, but the following `update` sees the wrapped phase go from
`29/30 + ε` to 0, for which the test of a negative frequency
(`old - wrapped <= 0`) fails: nothing fires and the counter stays 1. -/
theorem C23_forceNext_negative_frequency :
    (ofxBaseOsc.updateN 30 2
      (((ofxBaseOsc.init : ofxBaseOsc ℚ).add exEvent.kind).setFrequency (-1))).1.counter = 1 ∧
    (ofxMetro.forceNext (ofxBaseOsc.updateN 30 2
      (((ofxBaseOsc.init : ofxBaseOsc ℚ).add exEvent.kind).setFrequency (-1))).1).phase = 0 ∧
    ((ofxMetro.forceNext (ofxBaseOsc.updateN 30 2
      (((ofxBaseOsc.init : ofxBaseOsc ℚ).add exEvent.kind).setFrequency (-1))).1).update 30).2 =
      [] ∧
    ((ofxMetro.forceNext (ofxBaseOsc.updateN 30 2
      (((ofxBaseOsc.init : ofxBaseOsc ℚ).add exEvent.kind).setFrequency (-1))).1).update
        30).1.counter = 1 := by
  have hf : Int.fract ((-1 : ℚ) / 30 + 1 / 2 ^ 23) = 29 / 30 + 1 / 2 ^ 23 := by
    rw [Int.fract_eq_iff]
    exact ⟨by norm_num, by norm_num, ⟨-1, by norm_num⟩⟩
  have h1 : ofxBaseOsc.update 30
      (((ofxBaseOsc.init : ofxBaseOsc ℚ).add exEvent.kind).setFrequency (-1)) =
      ({ speed := 1, bRunning := true, freq := -1, wrapped := 0,
         phase := 29 / 30 + 1 / 2 ^ 23, offset := 0, counter := 0, bReset := false,
         eventList := [exEvent] }, []) := by
    rw [osc_update_running 30 _ rfl]
    simp only [ofxBaseOsc.init, ofxBaseOsc.add, ofxBaseOsc.setFrequency, wrap_eq,
      FLT_EPSILON, zero_add, one_mul, Bool.not_true, Bool.false_and, if_false]
    simp only [hf]
    simp [exEvent]
  have hw2 : ofxBaseOsc.wrap
      ({ speed := 1, bRunning := true, freq := -1, wrapped := 0,
         phase := 29 / 30 + 1 / 2 ^ 23, offset := 0, counter := 0, bReset := false,
         eventList := [exEvent] } : ofxBaseOsc ℚ) = 29 / 30 + 1 / 2 ^ 23 := by
    simp [wrap_eq]
  have h2 : ofxBaseOsc.update 30
      ({ speed := 1, bRunning := true, freq := -1, wrapped := 0,
         phase := 29 / 30 + 1 / 2 ^ 23, offset := 0, counter := 0, bReset := false,
         eventList := [exEvent] } : ofxBaseOsc ℚ) =
      ({ speed := 1, bRunning := true, freq := -1, wrapped := 29 / 30 + 1 / 2 ^ 23,
         phase := Int.fract (29 / 30 + 1 / 2 ^ 23 + 1 * (-1) / 30 + FLT_EPSILON),
         offset := 0, counter := 1, bReset := false,
         eventList := [exEvent] }, [exEvent]) := by
    rw [osc_update_running 30 _ rfl, hw2]
    have hb : periodBoundary (-1 : ℚ) 0 (29 / 30 + 1 / 2 ^ 23) := by
      right; constructor <;> norm_num
    simp only [hb, decide_True, Bool.not_false, Bool.and_self, if_true, zero_add]
  have hN : ofxBaseOsc.updateN 30 2
      (((ofxBaseOsc.init : ofxBaseOsc ℚ).add exEvent.kind).setFrequency (-1)) =
      ({ speed := 1, bRunning := true, freq := -1, wrapped := 29 / 30 + 1 / 2 ^ 23,
         phase := Int.fract (29 / 30 + 1 / 2 ^ 23 + 1 * (-1) / 30 + FLT_EPSILON),
         offset := 0, counter := 1, bReset := false,
         eventList := [exEvent] }, [exEvent]) := by
    simp only [ofxBaseOsc.updateN, h1, h2, List.nil_append, List.append_nil]
  rw [hN]
  have hb : ¬ periodBoundary (-1 : ℚ) (29 / 30 + 1 / 2 ^ 23) 0 := by
    unfold periodBoundary
    norm_num
  have hw3 : ofxBaseOsc.wrap (ofxMetro.forceNext
      ({ speed := 1, bRunning := true, freq := -1, wrapped := 29 / 30 + 1 / 2 ^ 23,
         phase := Int.fract (29 / 30 + 1 / 2 ^ 23 + 1 * (-1) / 30 + FLT_EPSILON),
         offset := 0, counter := 1, bReset := false,
         eventList := [exEvent] } : ofxBaseOsc ℚ)) = 0 := by
    simp [wrap_eq, ofxMetro.forceNext]
  refine ⟨rfl, rfl, ?_, ?_⟩
  · rw [osc_update_running 30 _ rfl, hw3]
    simp only [ofxMetro.forceNext, hb, decide_False, Bool.and_false, Bool.false_eq_true,
      if_false]
  · rw [osc_update_running 30 _ rfl, hw3]
    simp only [ofxMetro.forceNext, hb, decide_False, Bool.and_false, Bool.false_eq_true,
      if_false]

/-- C24 (as stated, refuted on the scenario). A fresh oscillator with frequency 1,
speed 1, phase 0, no offset and one attached event at 30 frames per second: after
exactly 30 calls of `update` the period counter is still 0 and nothing has fired. -/
theorem C24_thirty_updates_counterexample :
    (ofxBaseOsc.updateN 30 30 ((ofxBaseOsc.init : ofxBaseOsc ℚ).add exEvent.kind)).1.counter = 0 ∧
    (ofxBaseOsc.updateN 30 30 ((ofxBaseOsc.init : ofxBaseOsc ℚ).add exEvent.kind)).2 = [] := by
  have h := osc_steady (30 : ℚ) ((ofxBaseOsc.init : ofxBaseOsc ℚ).add exEvent.kind)
    rfl rfl rfl rfl rfl rfl (by norm_num [ofxBaseOsc.init, ofxBaseOsc.add]) (by norm_num)
    (by norm_num [ofxBaseOsc.init, ofxBaseOsc.add, FLT_EPSILON]) 29
  have hfl : ⌊((29 : ℕ) : ℚ) *
      (((ofxBaseOsc.init : ofxBaseOsc ℚ).add exEvent.kind).freq / 30 + FLT_EPSILON)⌋ = 0 := by
    rw [Int.floor_eq_iff]
    norm_num [ofxBaseOsc.init, ofxBaseOsc.add, FLT_EPSILON]
  rw [h, hfl]
  exact ⟨rfl, rfl⟩

/-- C24 (amended). For a fresh running oscillator with frequency 1, speed 1, phase
0, no phase offset and one attached action, at 30 frames per second: after exactly
30 calls of `update` the period counter is 0 and nothing has fired (the phase has
wrapped, but the boundary test compares the wrapped phase the call starts from);
after exactly 31 calls the period counter is 1 and the action has fired exactly
once. -/
theorem C24_thirty_one_updates (kind : ofxControlEventKind) :
    (ofxBaseOsc.updateN 30 30 ((ofxBaseOsc.init : ofxBaseOsc K).add kind)).1.counter = 0 ∧
    (ofxBaseOsc.updateN 30 30 ((ofxBaseOsc.init : ofxBaseOsc K).add kind)).2 = [] ∧
    (ofxBaseOsc.updateN 30 30 ((ofxBaseOsc.init : ofxBaseOsc K).add kind)).1.phase <
      (ofxBaseOsc.updateN 30 30 ((ofxBaseOsc.init : ofxBaseOsc K).add kind)).1.wrapped ∧
    (ofxBaseOsc.updateN 30 31 ((ofxBaseOsc.init : ofxBaseOsc K).add kind)).1.counter = 1 ∧
    (ofxBaseOsc.updateN 30 31 ((ofxBaseOsc.init : ofxBaseOsc K).add kind)).2 =
      [{ delay := 0, elapsed := 0, kind := kind }] := by
  have hfreq : (0 : K) < ((ofxBaseOsc.init : ofxBaseOsc K).add kind).freq := by
    norm_num [ofxBaseOsc.init, ofxBaseOsc.add]
  have hd : ((ofxBaseOsc.init : ofxBaseOsc K).add kind).freq / 30 + FLT_EPSILON ≤ 1 := by
    norm_num [ofxBaseOsc.init, ofxBaseOsc.add, FLT_EPSILON]
  have h30 := osc_steady (30 : K) ((ofxBaseOsc.init : ofxBaseOsc K).add kind)
    rfl rfl rfl rfl rfl rfl hfreq (by norm_num) hd 29
  have h31 := osc_steady (30 : K) ((ofxBaseOsc.init : ofxBaseOsc K).add kind)
    rfl rfl rfl rfl rfl rfl hfreq (by norm_num) hd 30
  have hfl29 : ⌊((29 : ℕ) : K) *
      (((ofxBaseOsc.init : ofxBaseOsc K).add kind).freq / 30 + FLT_EPSILON)⌋ = 0 := by
    rw [Int.floor_eq_iff]
    norm_num [ofxBaseOsc.init, ofxBaseOsc.add, FLT_EPSILON]
  have hfl30 : ⌊((30 : ℕ) : K) *
      (((ofxBaseOsc.init : ofxBaseOsc K).add kind).freq / 30 + FLT_EPSILON)⌋ = 1 := by
    rw [Int.floor_eq_iff]
    norm_num [ofxBaseOsc.init, ofxBaseOsc.add, FLT_EPSILON]
  have hw : Int.fract (((29 : ℕ) : K) *
      (((ofxBaseOsc.init : ofxBaseOsc K).add kind).freq / 30 + FLT_EPSILON)) =
      29 / 30 + 29 / 2 ^ 23 := by
    rw [Int.fract_eq_iff]
    refine ⟨by norm_num, by norm_num, ⟨0, ?_⟩⟩
    norm_num [ofxBaseOsc.init, ofxBaseOsc.add, FLT_EPSILON]
  have hp : Int.fract ((((29 : ℕ) : K) + 1) *
      (((ofxBaseOsc.init : ofxBaseOsc K).add kind).freq / 30 + FLT_EPSILON)) =
      30 / 2 ^ 23 := by
    rw [Int.fract_eq_iff]
    refine ⟨by norm_num, by norm_num, ⟨1, ?_⟩⟩
    norm_num [ofxBaseOsc.init, ofxBaseOsc.add, FLT_EPSILON]
  rw [h30, h31, hfl29, hfl30, hw, hp]
  refine ⟨rfl, rfl, ?_, rfl, ?_⟩
  · norm_num
  · simp [ofxBaseOsc.init, ofxBaseOsc.add]

end OscClaims2

section ShapeLemmas

lemma tendsto_zero_of_continuous (f : ℝ → ℝ) (hf : Continuous f) (h0 : f 0 = 0) :
    Filter.Tendsto f (nhdsWithin 0 (Set.Ioi 0)) (nhds 0) := by
  have h : Filter.Tendsto f (nhds 0) (nhds (f 0)) := hf.tendsto 0
  rw [h0] at h
  exact tendsto_nhdsWithin_of_tendsto_nhds h

/-- The multiplier at ramp position 1, over the reals: 0 for `STEP`, 1 for every
other shape. -/
lemma shapeMult_real_one (m : Cmath ℝ) (hm : m.isReal) (shape : ofxLineShape) (c : ℝ) :
    shapeMult m shape c 1 = if shape = ofxLineShape.STEP then 0 else 1 := by
  obtain ⟨exp, pow, sin, cos, PI, HALF⟩ := m
  obtain ⟨h1, h2, h3, h4, h5, h6⟩ := hm
  simp only at h1 h2 h3 h4 h5 h6
  subst h1 h2 h3 h4 h5 h6
  cases shape
  · simp [shapeMult]
  · simp [shapeMult]
  · simp only [shapeMult, one_mul, reduceCtorEq, if_false]
    split
    · rfl
    · rename_i h
      have hlt : Real.exp (c * -1) < 1 := by
        rw [Real.exp_lt_one_iff]
        linarith [lt_of_not_le h]
      exact div_self (by linarith)
  · simp [shapeMult]
  · simp [shapeMult]
  · simp only [shapeMult, one_mul, reduceCtorEq, if_false]
    split
    · rfl
    · rename_i h
      have hlt : 1 < Real.exp c := by
        rw [Real.one_lt_exp_iff]
        exact lt_of_not_le h
      exact div_self (by linarith)
  · simp [shapeMult]
  · simp [shapeMult]
  · simp only [shapeMult, one_mul, Real.cos_pi, reduceCtorEq, if_false]
    norm_num

/-- The multiplier tends to 0 as the ramp position tends to 0 from above, over the
reals, for every shape. -/
lemma shapeMult_real_tendsto (m : Cmath ℝ) (hm : m.isReal) (shape : ofxLineShape) (c : ℝ) :
    Filter.Tendsto (fun ramp => shapeMult m shape c ramp) (nhdsWithin 0 (Set.Ioi 0))
      (nhds 0) := by
  obtain ⟨exp, pow, sin, cos, PI, HALF⟩ := m
  obtain ⟨h1, h2, h3, h4, h5, h6⟩ := hm
  simp only at h1 h2 h3 h4 h5 h6
  subst h1 h2 h3 h4 h5 h6
  apply tendsto_zero_of_continuous
  · cases shape
    · simp only [shapeMult]; exact continuous_const
    · simp only [shapeMult]; exact continuous_id
    · simp only [shapeMult]
      split
      · exact continuous_id
      · fun_prop
    · simp only [shapeMult]
      exact Real.continuous_rpow_const (by positivity)
    · simp only [shapeMult]; fun_prop
    · simp only [shapeMult]
      split
      · exact continuous_id
      · fun_prop
    · simp only [shapeMult]
      exact Real.continuous_rpow_const (by positivity)
    · simp only [shapeMult]; fun_prop
    · simp only [shapeMult]; fun_prop
  · cases shape
    · simp [shapeMult]
    · simp [shapeMult]
    · simp only [shapeMult]
      split
      · rfl
      · simp
    · simp only [shapeMult]
      exact Real.zero_rpow (by positivity)
    · simp [shapeMult]
    · simp only [shapeMult]
      split
      · rfl
      · simp
    · simp only [shapeMult]
      exact Real.zero_rpow (by positivity)
    · simp [shapeMult]
    · simp [shapeMult]

end ShapeLemmas

section ShapeClaims

/-- C26 (as stated, refuted on an example). For the shape `STEP` the multiplier at
ramp position 1 is 0, not 1, and the `update` of a running engine whose `STEP`
segment from 0 to 10 is at ramp position exactly 1 gives the start value 0, not the
target. -/
theorem C26_step_endpoint_counterexample :
    shapeMult ratCmath ofxLineShape.STEP 0 1 = 0 ∧
    (ofxLineSegment.ramp
      { exSegment 10 1 0 1 [] with shape := ofxLineShape.STEP }) = FloatDiv.finite 1 ∧
    ((exLine [{ exSegment 10 1 0 1 [] with shape := ofxLineShape.STEP }] []).update
      externalCallback ratCmath 30).1.out = 0 := by
  refine ⟨rfl, ?_, ?_⟩
  · norm_num [ofxLineSegment.ramp, fdiv, exSegment]
  · rw [update_of_ramping externalCallback ratCmath 30 _
      { exSegment 10 1 0 1 [] with shape := ofxLineShape.STEP } [] rfl rfl
      (by norm_num [ofxLineSegment.ramp, fdiv, exSegment, FloatDiv.gt])
      (by norm_num [ofxLineSegment.ramp, fdiv, exSegment, FloatDiv.gt])]
    norm_num [ofxLine.out, shapeMult, exSegment]

/-- C26 (amended). Over the reals, for every shape and every coefficient: the
multiplier at ramp position 1 is 1 for every shape except `STEP`, for which it is
0 at every ramp position; the multiplier tends to 0 as the ramp position tends to 0
from above, for every shape.  Hence the `update` of a running engine whose head
segment (ramp time positive) is at ramp position exactly 1 sets the output to the
segment's target for every shape except `STEP`, and to its start value for
`STEP`. -/
theorem C26_shape_endpoints (m : Cmath ℝ) (hm : m.isReal)
    (onTimeOut : ofxControlBaseEvent ℝ → ofxLine ℝ → ofxLine ℝ) (fps : ℝ) (L : ofxLine ℝ)
    (segment : ofxLineSegment ℝ) (rest : List (ofxLineSegment ℝ))
    (hq : L.segmentList = segment :: rest) (hrun : L.bRunning = true)
    (ht : 0 < segment.time)
    (hramp : segment.elapsed - segment.onset = segment.time) :
    shapeMult m segment.shape segment.coeff 1 =
      (if segment.shape = ofxLineShape.STEP then 0 else 1) ∧
    (∀ ramp : ℝ, shapeMult m ofxLineShape.STEP segment.coeff ramp = 0) ∧
    Filter.Tendsto (fun ramp => shapeMult m segment.shape segment.coeff ramp)
      (nhdsWithin 0 (Set.Ioi 0)) (nhds 0) ∧
    segment.ramp = FloatDiv.finite 1 ∧
    (L.update onTimeOut m fps).1.out =
      (if segment.shape = ofxLineShape.STEP then segment.start else segment.target) := by
  have hone := shapeMult_real_one m hm segment.shape segment.coeff
  have hr : segment.ramp = FloatDiv.finite 1 := by
    simp only [ofxLineSegment.ramp, fdiv, ne_of_gt ht, if_false, hramp]
    rw [div_self (ne_of_gt ht)]
  refine ⟨hone, fun _ => rfl, shapeMult_real_tendsto m hm segment.shape segment.coeff,
    hr, ?_⟩
  rw [update_of_ramping onTimeOut m fps L segment rest hq hrun
    (by rw [hr]; exact zero_lt_one) (by rw [hr]; exact lt_irrefl (1 : ℝ))]
  simp only [ofxLine.out, hr, FloatDiv.val, hone]
  split <;> ring

/-- Witness of C26 (amended): an S-curve segment from 2 to 10 at ramp position 1. -/
theorem C26_shape_endpoints_witness :
    Cmath.isReal ⟨Real.exp, fun x y => x ^ y, Real.sin, Real.cos, Real.pi, Real.pi / 2⟩ ∧
    (ofxLine.update (fun _ L => L)
      ⟨Real.exp, fun x y => x ^ y, Real.sin, Real.cos, Real.pi, Real.pi / 2⟩ 30
      ⟨1, true, 2, ofxLineShape.LIN, 0, [],
        [⟨1, 0, 2, 10, ofxLineShape.S_CURVE, 0, 1, []⟩]⟩).1.out = 10 := by
  have h := C26_shape_endpoints
    ⟨Real.exp, fun x y => x ^ y, Real.sin, Real.cos, Real.pi, Real.pi / 2⟩
    ⟨rfl, rfl, rfl, rfl, rfl, rfl⟩ (fun _ L => L) 30
    ⟨1, true, 2, ofxLineShape.LIN, 0, [], [⟨1, 0, 2, 10, ofxLineShape.S_CURVE, 0, 1, []⟩]⟩
    ⟨1, 0, 2, 10, ofxLineShape.S_CURVE, 0, 1, []⟩ [] rfl rfl zero_lt_one
    (sub_zero 1)
  exact ⟨⟨rfl, rfl, rfl, rfl, rfl, rfl⟩, by simpa using h.2.2.2.2⟩

end ShapeClaims

section TriLemmas

variable {K : Type} [LinearOrderedField K]

/-- The output of the triangle oscillator for a vertex in `[0, 1]`, by cases. -/
lemma triOsc_out_cases (T : ofxTriOsc K) (hv0 : 0 ≤ T.vertex) (hv1 : T.vertex ≤ 1) :
    (T.vertex = 0 ∧ T.out = 1 - T.wrapped) ∨
    (T.vertex = 1 ∧ T.out = T.wrapped) ∨
    (0 < T.vertex ∧ T.vertex < 1 ∧ T.wrapped < T.vertex ∧ T.out = T.wrapped / T.vertex ∧
      T.out < 1) ∨
    (0 < T.vertex ∧ T.vertex < 1 ∧ T.vertex < T.wrapped ∧
      T.out = (1 - T.wrapped) / (1 - T.vertex) ∧ T.out < 1) ∨
    (0 < T.vertex ∧ T.vertex < 1 ∧ T.vertex = T.wrapped ∧ T.out = T.wrapped / T.vertex ∧
      T.out = (1 - T.wrapped) / (1 - T.vertex) ∧ T.out = 1) := by
  by_cases h0 : T.vertex = 0
  · left
    exact ⟨h0, by simp [ofxTriOsc.out, h0]⟩
  by_cases h1 : T.vertex = 1
  · right; left
    exact ⟨h1, by simp [ofxTriOsc.out, h1]⟩
  have hpos : 0 < T.vertex := lt_of_le_of_ne hv0 (Ne.symm h0)
  have hlt : T.vertex < 1 := lt_of_le_of_ne hv1 h1
  have hne : T.vertex ≠ 0 := h0
  have hne1 : 1 - T.vertex ≠ 0 := by
    intro h; apply h1; linarith
  have hpos1 : 0 < 1 - T.vertex := by linarith
  right; right
  rcases lt_trichotomy T.wrapped T.vertex with h | h | h
  · left
    have hx : T.wrapped - T.vertex < 0 := by linarith
    have hout : T.out = T.wrapped / T.vertex := by
      simp only [ofxTriOsc.out, h0, h1, if_false, hx, if_true]
      rw [div_neg]
      field_simp
    refine ⟨hpos, hlt, h, hout, ?_⟩
    rw [hout, div_lt_one hpos]
    exact h
  · right; right
    have hx : ¬ T.wrapped - T.vertex < 0 := by
      rw [h]; simp
    have hout : T.out = (1 - T.wrapped) / (1 - T.vertex) := by
      simp only [ofxTriOsc.out, h0, h1, if_false, hx]
      field_simp
    have hone : T.out = 1 := by
      rw [hout, h, div_self hne1]
    refine ⟨hpos, hlt, h.symm, ?_, hout, hone⟩
    rw [hone, h, div_self hne]
  · right; left
    have hx : ¬ T.wrapped - T.vertex < 0 := by
      rw [not_lt]; linarith
    have hout : T.out = (1 - T.wrapped) / (1 - T.vertex) := by
      simp only [ofxTriOsc.out, h0, h1, if_false, hx]
      field_simp
    refine ⟨hpos, hlt, h, hout, ?_⟩
    rw [hout, div_lt_one hpos1]
    linarith

end TriLemmas

section TriClaims

variable {K : Type} [LinearOrderedField K]

/-- C27. `setVertex(v)` stores `v` clamped to `[0, 1]`.  For the stored vertex `vx`
and every wrapped phase `w` in `[0, 1)`, `out()` lies in `[0, 1]`; it is `1 - w`
if `vx = 0`, `w` if `vx = 1`, and otherwise `w / vx` for `w ≤ vx` and
`(1 - w) / (1 - vx)` for `w ≥ vx` (the two agree at `w = vx`); and it is 1 exactly
when `w = vx`. -/
theorem C27_triangle_output (T : ofxTriOsc K) (v : K) (hw0 : 0 ≤ T.wrapped)
    (hw1 : T.wrapped < 1) :
    (T.setVertex v).getVertex = max 0 (min 1 v) ∧
    0 ≤ (T.setVertex v).getVertex ∧ (T.setVertex v).getVertex ≤ 1 ∧
    0 ≤ (T.setVertex v).out ∧ (T.setVertex v).out ≤ 1 ∧
    (T.setVertex v).out =
      (if (T.setVertex v).getVertex = 0 then 1 - T.wrapped
       else if (T.setVertex v).getVertex = 1 then T.wrapped
       else if T.wrapped ≤ (T.setVertex v).getVertex then
         T.wrapped / (T.setVertex v).getVertex
       else (1 - T.wrapped) / (1 - (T.setVertex v).getVertex)) ∧
    (T.setVertex v).out =
      (if (T.setVertex v).getVertex = 0 then 1 - T.wrapped
       else if (T.setVertex v).getVertex = 1 then T.wrapped
       else if (T.setVertex v).getVertex ≤ T.wrapped then
         (1 - T.wrapped) / (1 - (T.setVertex v).getVertex)
       else T.wrapped / (T.setVertex v).getVertex) ∧
    ((T.setVertex v).out = 1 ↔ T.wrapped = (T.setVertex v).getVertex) := by
  have hv0 : 0 ≤ (T.setVertex v).vertex := le_max_left _ _
  have hv1 : (T.setVertex v).vertex ≤ 1 :=
    max_le zero_le_one (min_le_left _ _)
  have hw : (T.setVertex v).wrapped = T.wrapped := rfl
  have hcases := triOsc_out_cases (T.setVertex v) hv0 hv1
  rw [hw] at hcases
  refine ⟨rfl, hv0, hv1, ?_⟩
  simp only [ofxTriOsc.getVertex]
  rcases hcases with ⟨hv, ho⟩ | ⟨hv, ho⟩ | ⟨hp, hl, hwv, ho, hlt⟩ | ⟨hp, hl, hwv, ho, hlt⟩ |
    ⟨hp, hl, hwv, ho, ho2, hone⟩
  · rw [ho, hv]
    refine ⟨by linarith, by linarith, by simp, by simp, ?_⟩
    constructor
    · intro h; linarith
    · intro h; linarith
  · rw [ho, hv]
    refine ⟨hw0, le_of_lt hw1, by simp, by simp, ?_⟩
    constructor
    · intro h; linarith
    · intro h; linarith
  · have hne0 : (T.setVertex v).vertex ≠ 0 := ne_of_gt hp
    have hne1 : (T.setVertex v).vertex ≠ 1 := ne_of_lt hl
    refine ⟨?_, le_of_lt hlt, ?_, ?_, ?_⟩
    · rw [ho]; exact div_nonneg hw0 (le_of_lt hp)
    · simp only [hne0, hne1, if_false, le_of_lt hwv, if_true, ho]
    · simp only [hne0, hne1, if_false, not_le.mpr hwv, ho]
    · constructor
      · intro h; linarith
      · intro h; linarith
  · have hne0 : (T.setVertex v).vertex ≠ 0 := ne_of_gt hp
    have hne1 : (T.setVertex v).vertex ≠ 1 := ne_of_lt hl
    refine ⟨?_, le_of_lt hlt, ?_, ?_, ?_⟩
    · rw [ho]; exact div_nonneg (by linarith) (by linarith)
    · simp only [hne0, hne1, if_false, not_le.mpr hwv, ho]
    · simp only [hne0, hne1, if_false, le_of_lt hwv, if_true, ho]
    · constructor
      · intro h; linarith
      · intro h; linarith
  · have hne0 : (T.setVertex v).vertex ≠ 0 := ne_of_gt hp
    have hne1 : (T.setVertex v).vertex ≠ 1 := ne_of_lt hl
    refine ⟨by rw [hone]; exact zero_le_one, le_of_eq hone, ?_, ?_, ?_⟩
    · simp only [hne0, hne1, if_false, le_of_eq hwv.symm, if_true, ho]
    · simp only [hne0, hne1, if_false, le_of_eq hwv, if_true, ho2]
    · exact ⟨fun _ => hwv.symm, fun _ => hone⟩

/-- Witness of C27: vertex 1/4 (set as 1/4) at wrapped phase 1/2. -/
theorem C27_triangle_output_witness :
    ((0 : ℚ) ≤ 1 / 2 ∧ (1 / 2 : ℚ) < 1) ∧
    (ofxTriOsc.setVertex ⟨exOsc, 0⟩ (1 / 4)).getVertex = 1 / 4 ∧
    (ofxTriOsc.setVertex ⟨{ exOsc with wrapped := 1 / 2 }, 0⟩ (1 / 4)).out = 2 / 3 := by
  have h := C27_triangle_output (⟨{ exOsc with wrapped := 1 / 2 }, 0⟩ : ofxTriOsc ℚ) (1 / 4)
    (by norm_num) (by norm_num)
  refine ⟨⟨by norm_num, by norm_num⟩, ?_, ?_⟩
  · norm_num [ofxTriOsc.setVertex, ofxTriOsc.getVertex]
  · rw [h.2.2.2.2.2.1]
    norm_num [ofxTriOsc.setVertex, ofxTriOsc.getVertex]

end TriClaims

section ReentrancyClaims

/-- C28 (the code at the failing input). A running engine whose only segment (to
10, ramp time 1, elapsed 2) carries the event that calls `clear` on the engine
itself: the segment completes in this `update` (ramp position 2).  The callback
empties the queue, which destroys the head segment with the event list that the
firing loop is walking, so the loop's next step reads a destroyed list (`none`)
before the check `segmentList.empty()` is reached.  If the loop walked a copy of
the list, the check would act as intended: no pop, empty queue, output 10. -/
theorem C28_reentrant_clear_reads_destroyed_list :
    (exSegment 10 1 0 2 [exClearEvent]).ramp.gt 1 ∧
    (exCallback exClearEvent
      { exLine [exSegment 10 1 0 2 [exClearEvent]] [] with value := 10 }).segmentList = [] ∧
    fireAllOwned exCallback (exSegment 10 1 0 2 [exClearEvent]).eventList
      { exLine [exSegment 10 1 0 2 [exClearEvent]] [] with value := 10 } = none ∧
    ((exLine [exSegment 10 1 0 2 [exClearEvent]] []).update exCallback ratCmath 30).1.segmentList =
      [] ∧
    ((exLine [exSegment 10 1 0 2 [exClearEvent]] []).update exCallback ratCmath 30).1.out = 10 := by
  have hramp : (exSegment 10 1 0 2 [exClearEvent]).ramp.gt 1 := by
    norm_num [ofxLineSegment.ramp, fdiv, exSegment, FloatDiv.gt]
  refine ⟨hramp, ?_, ?_, ?_, ?_⟩
  · simp [exCallback, ofxLine.clear]
  · simp [fireAllOwned, exSegment, exCallback, ofxLine.clear]
  · norm_num [ofxLine.update, exLine, fireAll, exSegment, exCallback, ofxLine.clear,
      ofxLineSegment.ramp, fdiv, FloatDiv.gt]
  · norm_num [ofxLine.update, exLine, fireAll, exSegment, exCallback, ofxLine.clear,
      ofxLine.out, ofxLineSegment.ramp, fdiv, FloatDiv.gt]

end ReentrancyClaims

section MultiInvariantLemmas

variable {K : Type} [LinearOrderedField K]

/-- An `update` of an engine whose vectors all have `n` elements succeeds and
leaves an engine whose vectors all have `n` elements. -/
lemma multi_update_hasLines (m : Cmath K) (fps : K) (n : Nat) (M : ofxMultiLine K)
    (hM : M.hasLines n) :
    ∃ r, M.update externalMultiCallback m fps = some r ∧ r.1.hasLines n := by
  cases hq : M.multiSegmentList with
  | nil =>
    rw [multi_update_of_empty externalMultiCallback m fps M hq]
    exact ⟨_, rfl, hM⟩
  | cons segment rest =>
    have hseg : segment.start.length = n ∧ segment.target.length = n :=
      hM.2 segment (by rw [hq]; exact List.mem_cons_self _ _)
    have hrest : ∀ s ∈ rest, s.start.length = n ∧ s.target.length = n :=
      fun s hs => hM.2 s (by rw [hq]; exact List.mem_cons_of_mem _ hs)
    cases hrun : M.bRunning with
    | false =>
      rw [multi_update_of_paused externalMultiCallback m fps M hrun]
      exact ⟨_, rfl, hM⟩
    | true =>
      by_cases h0 : segment.ramp.gt 0
      · by_cases h1 : segment.ramp.gt 1
        · rw [multi_update_of_complete externalMultiCallback m fps M segment rest hq hrun h1
            (fun _ _ _ => rfl)]
          refine ⟨_, rfl, ⟨hseg.2, ?_⟩⟩
          intro s hs
          cases rest with
          | nil => simp at hs
          | cons next tl =>
            simp only [List.mem_cons] at hs
            rcases hs with hs | hs
            · rw [hs]
              exact ⟨hseg.2, (hrest next (List.mem_cons_self _ _)).2⟩
            · exact hrest s (List.mem_cons_of_mem _ hs)
        · obtain ⟨out, ho1, ho2, _⟩ := interpolate_of_length
            (shapeMult m segment.shape segment.coeff segment.ramp.val)
            M.valueVec segment.start segment.target (by rw [hseg.1, hM.1])
            (by rw [hseg.2, hM.1])
          rw [multi_update_of_ramping externalMultiCallback m fps M segment rest out hq hrun
            h0 h1 ho1]
          refine ⟨_, rfl, ⟨by rw [ho2, hM.1], ?_⟩⟩
          intro s hs
          simp only [List.mem_cons] at hs
          rcases hs with hs | hs
          · rw [hs]; exact hseg
          · exact hrest s hs
      · rw [multi_update_of_waiting externalMultiCallback m fps M segment rest hq hrun h0]
        refine ⟨_, rfl, ⟨hM.1, ?_⟩⟩
        intro s hs
        simp only [List.mem_cons] at hs
        rcases hs with hs | hs
        · rw [hs]; exact hseg
        · exact hrest s hs

/-- Every call, with vectors of any length, succeeds on an engine whose segment
vectors have the length of the output, and leaves such an engine. -/
lemma multi_call_hasLines (m : Cmath K) (fps : K) (M : ofxMultiLine K)
    (hM : M.hasLines M.valueVec.length) (c : MultiCall K) :
    ∃ r, M.call externalMultiCallback m fps c = some r ∧
      r.1.hasLines r.1.valueVec.length := by
  cases c with
  | setNumLines k =>
    refine ⟨_, rfl, ⟨rfl, ?_⟩⟩
    intro s hs
    simp only [ofxMultiLine.setNumLines, List.mem_map] at hs
    obtain ⟨s0, _, hs0⟩ := hs
    rw [← hs0]
    simp only [ofxMultiLine.setNumLines, resize_length]
    exact ⟨trivial, trivial⟩
  | op o =>
    cases o with
    | update =>
      obtain ⟨r, hr, hinv⟩ := multi_update_hasLines m fps _ M hM
      refine ⟨r, hr, ?_⟩
      rw [hinv.1]
      exact hinv
    | setValues v =>
      exact ⟨_, rfl, ⟨rfl, fun s hs => by simp [ofxMultiLine.setValues] at hs⟩⟩
    | setValuesAll x =>
      exact ⟨_, rfl, ⟨rfl, fun s hs => by simp [ofxMultiLine.setValuesAll] at hs⟩⟩
    | setShape sh c => exact ⟨_, rfl, hM⟩
    | addOnSegmentEnd kind => exact ⟨_, rfl, hM⟩
    | addSegment t rt ons =>
      refine ⟨_, rfl, ⟨rfl, ?_⟩⟩
      intro s hs
      simp only [ofxMultiLine.addSegment, List.mem_append, List.mem_singleton] at hs
      rcases hs with hs | hs
      · exact hM.2 s hs
      · rw [hs]
        exact ⟨rfl, resize_length _ _⟩
    | removeLastSegment =>
      rcases List.eq_nil_or_concat M.multiSegmentList with hq | ⟨front, last, hq⟩
      · have hM2 : M.removeLastSegment = M := by
          simp [ofxMultiLine.removeLastSegment, hq]
        refine ⟨(M.removeLastSegment, []), rfl, ?_⟩
        simp only [hM2]
        exact hM
      · rw [List.concat_eq_append] at hq
        have hfront : ∀ s ∈ front, s.start.length = M.valueVec.length ∧
            s.target.length = M.valueVec.length :=
          fun s hs => hM.2 s (by rw [hq]; simp [hs])
        refine ⟨(M.removeLastSegment, []), rfl, ?_⟩
        simp only [multi_removeLastSegment_concat M front last hq]
        refine ⟨rfl, ?_⟩
        match front, hfront with
        | [], _ => intro s hs; simp at hs
        | [only], hfront =>
          intro s hs
          simp only [List.mem_singleton] at hs
          rw [hs]
          exact ⟨rfl, (hfront only (List.mem_singleton_self _)).2⟩
        | a :: b :: tl, hfront => exact hfront
    | nextSegment =>
      obtain ⟨speed, run, shape, coeff, events, values, queue⟩ := M
      cases queue with
      | nil => exact ⟨_, rfl, hM⟩
      | cons segment rest =>
        cases rest with
        | nil => exact ⟨_, rfl, ⟨rfl, fun s hs => absurd hs (List.not_mem_nil s)⟩⟩
        | cons next tl =>
          refine ⟨_, rfl, ⟨rfl, ?_⟩⟩
          intro s hs
          have hs2 : s ∈ ({ next with start := values } : ofxMultiLineSegment K) :: tl := hs
          rcases List.mem_cons.mp hs2 with hs | hs
          · rw [hs]
            exact ⟨rfl, (hM.2 next (by simp)).2⟩
          · exact hM.2 s (by simp [hs])
    | clear => exact ⟨_, rfl, ⟨rfl, fun s hs => by simp [ofxMultiLine.clear] at hs⟩⟩

lemma multi_calls_hasLines (m : Cmath K) (fps : K) (cs : List (MultiCall K))
    (M : ofxMultiLine K) (hM : M.hasLines M.valueVec.length) :
    ∃ r, ofxMultiLine.calls externalMultiCallback m fps cs M = some r ∧
      r.1.hasLines r.1.valueVec.length := by
  induction cs generalizing M with
  | nil => exact ⟨(M, []), rfl, hM⟩
  | cons c cs ih =>
    obtain ⟨r, hr, hinv⟩ := multi_call_hasLines m fps M hM c
    obtain ⟨r2, hr2, hinv2⟩ := ih r.1 hinv
    refine ⟨(r2.1, r.2 ++ r2.2), ?_, hinv2⟩
    simp only [ofxMultiLine.calls, hr, hr2]

end MultiInvariantLemmas

section MultiInvariantClaims

variable {K : Type} [LinearOrderedField K]

/-- C29. From the constructor `ofxMultiLine(numLines)`, every sequence of calls of
`setNumLines`, `setValues` (vector of any length, or scalar), `setShape`,
`addOnSegmentEnd`, `addSegment` (target vector of any length), `update`,
`removeLastSegment`, `nextSegment` and `clear` runs without reading past the end of
a vector, and in the state reached the start and target vectors of every queued
segment have the length of the output vector; the next `update` reads only
existing elements and leaves the output at the same length. -/
theorem C29_length_invariant (m : Cmath K) (fps : K) (numLines : Int)
    (cs : List (MultiCall K)) :
    ∃ r, ofxMultiLine.calls externalMultiCallback m fps cs
        (ofxMultiLine.construct numLines) = some r ∧
      (∀ segment ∈ r.1.multiSegmentList,
        segment.start.length = r.1.out.length ∧ segment.target.length = r.1.out.length) ∧
      ∃ r2, r.1.update externalMultiCallback m fps = some r2 ∧
        r2.1.out.length = r.1.out.length := by
  have h0 : (ofxMultiLine.construct numLines : ofxMultiLine K).hasLines
      (ofxMultiLine.construct numLines : ofxMultiLine K).valueVec.length :=
    ⟨rfl, fun s hs => by simp [ofxMultiLine.construct, ofxMultiLine.init] at hs⟩
  obtain ⟨r, hr, hinv⟩ := multi_calls_hasLines m fps cs _ h0
  obtain ⟨r2, hr2, hinv2⟩ := multi_update_hasLines m fps _ r.1 hinv
  exact ⟨r, hr, hinv.2, r2, hr2, hinv2.1⟩

end MultiInvariantClaims

section Binary32Lemmas

lemma roundHalfEven_cases (q : ℚ) : roundHalfEven q = ⌊q⌋ ∨
    (roundHalfEven q = ⌊q⌋ + 1 ∧ 1 / 2 ≤ q - ⌊q⌋) := by
  unfold roundHalfEven
  split
  · exact Or.inl rfl
  · rename_i h1
    split
    · exact Or.inr ⟨rfl, le_of_lt (by assumption)⟩
    · split
      · exact Or.inl rfl
      · exact Or.inr ⟨rfl, not_lt.mp h1⟩

lemma roundHalfEven_intCast (n : Int) : roundHalfEven (n : ℚ) = n := by
  unfold roundHalfEven
  simp

lemma roundHalfEven_le (y : ℚ) (M : Int) (h : y ≤ M) : roundHalfEven y ≤ M := by
  rcases roundHalfEven_cases y with h1 | ⟨h1, h2⟩
  · rw [h1]
    have := Int.floor_mono h
    simpa using this
  · rw [h1]
    have hfl : ⌊y⌋ ≤ M := by
      have := Int.floor_mono h
      simpa using this
    rcases lt_or_eq_of_le hfl with hlt | heq
    · omega
    · exfalso
      have : (⌊y⌋ : ℚ) = M := by exact_mod_cast heq
      linarith

lemma le_roundHalfEven (y : ℚ) (M : Int) (h : (M : ℚ) ≤ y) : M ≤ roundHalfEven y := by
  have hfl : M ≤ ⌊y⌋ := Int.le_floor.mpr h
  rcases roundHalfEven_cases y with h1 | ⟨h1, _⟩
  · rw [h1]; exact hfl
  · rw [h1]; omega

lemma log2Fuel_spec (fuel n : Nat) (hn : 1 ≤ n) (hf : n ≤ fuel) :
    2 ^ log2Fuel fuel n ≤ n ∧ n < 2 ^ (log2Fuel fuel n + 1) := by
  induction fuel generalizing n with
  | zero => omega
  | succ fuel ih =>
    unfold log2Fuel
    by_cases h2 : n < 2
    · simp only [h2, if_true]
      constructor <;> omega
    · simp only [h2, if_false]
      have hn2 : 1 ≤ n / 2 := by omega
      have hf2 : n / 2 ≤ fuel := by omega
      obtain ⟨h3, h4⟩ := ih (n / 2) hn2 hf2
      constructor
      · rw [pow_succ]
        omega
      · rw [pow_succ]
        omega

lemma ilog2_spec (q : ℚ) (hq : q ≠ 0) :
    (2 : ℚ) ^ ilog2 q ≤ |q| ∧ |q| < (2 : ℚ) ^ (ilog2 q + 1) := by
  have hnum : 1 ≤ q.num.natAbs := by
    have : q.num ≠ 0 := Rat.num_ne_zero.mpr hq
    omega
  have hden : 1 ≤ q.den := q.den_pos
  obtain ⟨ha1, ha2⟩ := log2Fuel_spec q.num.natAbs q.num.natAbs hnum (le_refl _)
  obtain ⟨hb1, hb2⟩ := log2Fuel_spec q.den q.den hden (le_refl _)
  have habs : |q| = (q.num.natAbs : ℚ) / (q.den : ℚ) := by
    rw [Rat.abs_def, Rat.divInt_eq_div, Int.cast_natCast, Int.cast_natCast]
  have hdpos : (0 : ℚ) < q.den := by exact_mod_cast q.den_pos
  have e1 : ((2 : ℚ) ^ log2Fuel q.num.natAbs q.num.natAbs) ≤ (q.num.natAbs : ℚ) := by
    exact_mod_cast ha1
  have e2 : (q.num.natAbs : ℚ) < (2 : ℚ) ^ (log2Fuel q.num.natAbs q.num.natAbs + 1) := by
    exact_mod_cast ha2
  have e3 : ((2 : ℚ) ^ log2Fuel q.den q.den) ≤ (q.den : ℚ) := by exact_mod_cast hb1
  have e4 : (q.den : ℚ) < (2 : ℚ) ^ (log2Fuel q.den q.den + 1) := by exact_mod_cast hb2
  have h2 : (0 : ℚ) < 2 := by norm_num
  unfold ilog2
  simp only
  set a := log2Fuel q.num.natAbs q.num.natAbs with ha
  set b := log2Fuel q.den q.den with hb
  split
  · rename_i h
    refine ⟨h, ?_⟩
    rw [habs, div_lt_iff₀ hdpos]
    have : (2 : ℚ) ^ ((a : Int) - (b : Int) + 1) * (2 : ℚ) ^ b = (2 : ℚ) ^ (a + 1) := by
      rw [← zpow_natCast, ← zpow_add₀ (by norm_num : (2 : ℚ) ≠ 0), ← zpow_natCast]
      congr 1
      push_cast
      ring
    calc (q.num.natAbs : ℚ) < (2 : ℚ) ^ (a + 1) := e2
      _ = (2 : ℚ) ^ ((a : Int) - (b : Int) + 1) * (2 : ℚ) ^ b := this.symm
      _ ≤ (2 : ℚ) ^ ((a : Int) - (b : Int) + 1) * (q.den : ℚ) :=
          mul_le_mul_of_nonneg_left e3 (le_of_lt (zpow_pos h2 _))
  · rename_i h
    refine ⟨?_, ?_⟩
    · rw [habs, le_div_iff₀ hdpos]
      have : (2 : ℚ) ^ ((a : Int) - (b : Int) - 1) * (2 : ℚ) ^ (b + 1) = (2 : ℚ) ^ a := by
        rw [← zpow_natCast, ← zpow_add₀ (by norm_num : (2 : ℚ) ≠ 0), ← zpow_natCast]
        congr 1
        push_cast
        ring
      calc (2 : ℚ) ^ ((a : Int) - (b : Int) - 1) * (q.den : ℚ)
          ≤ (2 : ℚ) ^ ((a : Int) - (b : Int) - 1) * (2 : ℚ) ^ (b + 1) :=
            mul_le_mul_of_nonneg_left (le_of_lt e4) (le_of_lt (zpow_pos h2 _))
        _ = (2 : ℚ) ^ a := this
        _ ≤ (q.num.natAbs : ℚ) := e1
    · have : (a : Int) - (b : Int) - 1 + 1 = (a : Int) - (b : Int) := by ring
      rw [this]
      exact not_le.mp h

lemma ilog2_lt_of_abs_lt (q : ℚ) (hq : q ≠ 0) (e : Int) (h : |q| < (2 : ℚ) ^ e) :
    ilog2 q < e := by
  by_contra hcon
  have hle : e ≤ ilog2 q := not_lt.mp hcon
  have h1 := (ilog2_spec q hq).1
  have h2 : (2 : ℚ) ^ e ≤ (2 : ℚ) ^ ilog2 q := zpow_le_zpow_right₀ (by norm_num) hle
  linarith

lemma le_ilog2_of_le_abs (q : ℚ) (hq : q ≠ 0) (e : Int) (h : (2 : ℚ) ^ e ≤ |q|) :
    e ≤ ilog2 q := by
  by_contra hcon
  have hlt : ilog2 q + 1 ≤ e := by omega
  have h1 := (ilog2_spec q hq).2
  have h2 : (2 : ℚ) ^ (ilog2 q + 1) ≤ (2 : ℚ) ^ e := zpow_le_zpow_right₀ (by norm_num) hlt
  linarith

lemma roundBinary_zero (p : Nat) (emin : Int) : roundBinary p emin 0 = 0 := by
  simp [roundBinary]

lemma roundBinary_nonneg (p : Nat) (emin : Int) (q : ℚ) (h : 0 ≤ q) :
    0 ≤ roundBinary p emin q := by
  unfold roundBinary
  split
  · exact le_refl 0
  · simp only
    have h2 : (0 : ℚ) < 2 ^ max (ilog2 q - ((p : Int) - 1)) emin := zpow_pos (by norm_num) _
    have hy : ((0 : Int) : ℚ) ≤ q / 2 ^ max (ilog2 q - ((p : Int) - 1)) emin := by
      rw [Int.cast_zero]
      exact div_nonneg h (le_of_lt h2)
    have hr := le_roundHalfEven _ 0 hy
    have hr2 : (0 : ℚ) ≤ (roundHalfEven (q / 2 ^ max (ilog2 q - ((p : Int) - 1)) emin) : ℚ) := by
      exact_mod_cast hr
    exact mul_nonneg hr2 (le_of_lt h2)

lemma roundBinary_nonpos (p : Nat) (emin : Int) (q : ℚ) (h : q ≤ 0) :
    roundBinary p emin q ≤ 0 := by
  unfold roundBinary
  split
  · exact le_refl 0
  · simp only
    have h2 : (0 : ℚ) < 2 ^ max (ilog2 q - ((p : Int) - 1)) emin := zpow_pos (by norm_num) _
    have hy : q / 2 ^ max (ilog2 q - ((p : Int) - 1)) emin ≤ ((0 : Int) : ℚ) := by
      rw [Int.cast_zero]
      exact div_nonpos_of_nonpos_of_nonneg h (le_of_lt h2)
    have hr := roundHalfEven_le _ 0 hy
    have hr2 : (roundHalfEven (q / 2 ^ max (ilog2 q - ((p : Int) - 1)) emin) : ℚ) ≤ 0 := by
      exact_mod_cast hr
    exact mul_nonpos_of_nonpos_of_nonneg hr2 (le_of_lt h2)

/-- Rounding does not pass 1: values up to 1 are rounded to values up to 1. -/
lemma roundBinary_le_one (p : Nat) (emin : Int) (hp : 1 ≤ p) (hemin : emin ≤ 0) (q : ℚ)
    (h : q ≤ 1) : roundBinary p emin q ≤ 1 := by
  rcases le_or_lt q 0 with hq | hq
  · exact le_trans (roundBinary_nonpos p emin q hq) zero_le_one
  · have hne : q ≠ 0 := ne_of_gt hq
    have habs : |q| < (2 : ℚ) ^ (1 : Int) := by
      rw [abs_of_pos hq]
      norm_num
      linarith
    have hlog : ilog2 q < 1 := ilog2_lt_of_abs_lt q hne 1 habs
    have he : max (ilog2 q - ((p : Int) - 1)) emin ≤ 0 := by
      apply max_le
      · have : (1 : Int) ≤ (p : Int) := by exact_mod_cast hp
        omega
      · exact hemin
    unfold roundBinary
    simp only [hne, if_false]
    generalize max (ilog2 q - ((p : Int) - 1)) emin = e at he
    obtain ⟨n, hn⟩ := Int.exists_eq_neg_ofNat he
    subst hn
    have h2n : (0 : ℚ) < 2 ^ n := pow_pos (by norm_num) n
    have hz : (2 : ℚ) ^ (-(n : Int)) = ((2 : ℚ) ^ n)⁻¹ := by
      rw [zpow_neg, zpow_natCast]
    rw [hz]
    have hy : q / ((2 : ℚ) ^ n)⁻¹ ≤ (((2 : Int) ^ n : Int) : ℚ) := by
      rw [div_inv_eq_mul]
      push_cast
      calc q * 2 ^ n ≤ 1 * 2 ^ n := mul_le_mul_of_nonneg_right h (le_of_lt h2n)
        _ = 2 ^ n := one_mul _
    have hr := roundHalfEven_le _ _ hy
    have hr2 : (roundHalfEven (q / ((2 : ℚ) ^ n)⁻¹) : ℚ) ≤ (2 : ℚ) ^ n := by
      exact_mod_cast hr
    calc (roundHalfEven (q / ((2 : ℚ) ^ n)⁻¹) : ℚ) * ((2 : ℚ) ^ n)⁻¹
        ≤ (2 : ℚ) ^ n * ((2 : ℚ) ^ n)⁻¹ :=
          mul_le_mul_of_nonneg_right hr2 (le_of_lt (inv_pos.mpr h2n))
      _ = 1 := mul_inv_cancel₀ (ne_of_gt h2n)

/-- A value `k * 2^e0` with fewer than `p` significant bits is not changed by
rounding. -/
lemma roundBinary_of_int_mul_zpow (p : Nat) (emin : Int) (k e0 : Int)
    (hk : |k| < 2 ^ p) (he0 : emin ≤ e0) :
    roundBinary p emin ((k : ℚ) * 2 ^ e0) = (k : ℚ) * 2 ^ e0 := by
  have h2 : (0 : ℚ) < 2 := by norm_num
  have h2ne : (2 : ℚ) ≠ 0 := by norm_num
  by_cases hk0 : k = 0
  · subst hk0
    simp [roundBinary]
  have hne : (k : ℚ) * 2 ^ e0 ≠ 0 :=
    mul_ne_zero (by exact_mod_cast hk0) (ne_of_gt (zpow_pos h2 e0))
  have habs : |(k : ℚ) * 2 ^ e0| < (2 : ℚ) ^ ((p : Int) + e0) := by
    rw [abs_mul, abs_of_pos (zpow_pos h2 e0), zpow_add₀ h2ne, zpow_natCast]
    have : |(k : ℚ)| < (2 : ℚ) ^ p := by
      have := hk
      rw [← Int.cast_abs]
      exact_mod_cast this
    exact mul_lt_mul_of_pos_right this (zpow_pos h2 e0)
  have hlog := ilog2_lt_of_abs_lt _ hne _ habs
  have he : max (ilog2 ((k : ℚ) * 2 ^ e0) - ((p : Int) - 1)) emin ≤ e0 := by
    apply max_le
    · omega
    · exact he0
  unfold roundBinary
  simp only [hne, if_false]
  generalize max (ilog2 ((k : ℚ) * 2 ^ e0) - ((p : Int) - 1)) emin = e at he
  obtain ⟨n, hn⟩ := Int.eq_ofNat_of_zero_le (sub_nonneg.mpr he)
  have he0' : e0 = e + n := by omega
  subst he0'
  have hq : (k : ℚ) * 2 ^ (e + (n : Int)) / 2 ^ e = ((k * 2 ^ n : Int) : ℚ) := by
    rw [zpow_add₀ h2ne, zpow_natCast]
    push_cast
    rw [mul_div_assoc, mul_div_cancel_left₀ _ (ne_of_gt (zpow_pos h2 e))]
  rw [hq, roundHalfEven_intCast, zpow_add₀ h2ne, zpow_natCast]
  push_cast
  ring

/-- Values of at least the smallest positive value of the format are rounded to
values of at least that value. -/
lemma roundBinary_ge_min (p : Nat) (emin : Int) (hp : 1 ≤ p) (q : ℚ)
    (h : (2 : ℚ) ^ emin ≤ q) : (2 : ℚ) ^ emin ≤ roundBinary p emin q := by
  have h2 : (0 : ℚ) < 2 := by norm_num
  have hq : 0 < q := lt_of_lt_of_le (zpow_pos h2 emin) h
  have hne : q ≠ 0 := ne_of_gt hq
  have hspec := (ilog2_spec q hne).1
  rw [abs_of_pos hq] at hspec
  have hle : (2 : ℚ) ^ max (ilog2 q - ((p : Int) - 1)) emin ≤ q := by
    rcases max_cases (ilog2 q - ((p : Int) - 1)) emin with ⟨h1, _⟩ | ⟨h1, _⟩
    · rw [h1]
      have : (1 : Int) ≤ (p : Int) := by exact_mod_cast hp
      have : (2 : ℚ) ^ (ilog2 q - ((p : Int) - 1)) ≤ (2 : ℚ) ^ ilog2 q :=
        zpow_le_zpow_right₀ (by norm_num) (by omega)
      linarith
    · rw [h1]
      exact h
  have hmin : emin ≤ max (ilog2 q - ((p : Int) - 1)) emin := le_max_right _ _
  unfold roundBinary
  simp only [hne, if_false]
  generalize max (ilog2 q - ((p : Int) - 1)) emin = e at hle hmin
  have hpos : (0 : ℚ) < 2 ^ e := zpow_pos h2 e
  have hy : ((1 : Int) : ℚ) ≤ q / 2 ^ e := by
    rw [Int.cast_one, le_div_iff₀ hpos]
    linarith
  have hr := le_roundHalfEven _ 1 hy
  have hr2 : (1 : ℚ) ≤ (roundHalfEven (q / 2 ^ e) : ℚ) := by exact_mod_cast hr
  calc (2 : ℚ) ^ emin ≤ 2 ^ e := zpow_le_zpow_right₀ (by norm_num) hmin
    _ = 1 * 2 ^ e := (one_mul _).symm
    _ ≤ (roundHalfEven (q / 2 ^ e) : ℚ) * 2 ^ e :=
      mul_le_mul_of_nonneg_right hr2 (le_of_lt hpos)

lemma roundBinary_pos (p : Nat) (emin : Int) (hp : 1 ≤ p) (q : ℚ)
    (h : (2 : ℚ) ^ emin ≤ q) : 0 < roundBinary p emin q :=
  lt_of_lt_of_le (zpow_pos (by norm_num) emin) (roundBinary_ge_min p emin hp q h)

/-- A `float` value is a multiple of the smallest subnormal `2^(-149)`. -/
lemma isFloat32_multiple (q : ℚ) (h : isFloat32 q) :
    ∃ n : Int, q = (n : ℚ) * 2 ^ (-149 : Int) := by
  unfold isFloat32 fl32 roundBinary at h
  by_cases hq : q = 0
  · exact ⟨0, by simp [hq]⟩
  · simp only [hq, if_false] at h
    have he : (-149 : Int) ≤ max (ilog2 q - (((24 : ℕ) : Int) - 1)) (-149) := le_max_right _ _
    generalize max (ilog2 q - (((24 : ℕ) : Int) - 1)) (-149) = e at h he
    obtain ⟨n, hn⟩ := Int.eq_ofNat_of_zero_le (sub_nonneg.mpr he)
    have he' : e = -149 + n := by omega
    subst he'
    refine ⟨roundHalfEven (q / 2 ^ (-149 + (n : Int))) * 2 ^ n, ?_⟩
    conv_lhs => rw [← h]
    rw [zpow_add₀ (by norm_num : (2 : ℚ) ≠ 0), zpow_natCast]
    push_cast
    ring

/-- The `float` difference of two `float` values has the sign of their exact
difference (there is no underflow to zero). -/
lemma fl32_sub_nonpos_iff (a b : ℚ) (ha : isFloat32 a) (hb : isFloat32 b) :
    fl32 (a - b) ≤ 0 ↔ a - b ≤ 0 := by
  constructor
  · intro h
    by_contra hcon
    have hpos : 0 < a - b := not_le.mp hcon
    obtain ⟨na, hna⟩ := isFloat32_multiple a ha
    obtain ⟨nb, hnb⟩ := isFloat32_multiple b hb
    have h2 : (0 : ℚ) < 2 ^ (-149 : Int) := zpow_pos (by norm_num) _
    have hdiff : a - b = ((na - nb : Int) : ℚ) * 2 ^ (-149 : Int) := by
      rw [hna, hnb]
      push_cast
      ring
    have hn : 1 ≤ na - nb := by
      have : (0 : ℚ) < ((na - nb : Int) : ℚ) := by
        rw [hdiff] at hpos
        by_contra hc
        have h4 : ((na - nb : Int) : ℚ) ≤ 0 := not_lt.mp hc
        have := mul_nonpos_of_nonpos_of_nonneg h4 (le_of_lt h2)
        linarith
      have : (0 : Int) < na - nb := by exact_mod_cast this
      omega
    have hge : (2 : ℚ) ^ (-149 : Int) ≤ a - b := by
      rw [hdiff]
      have : (1 : ℚ) ≤ ((na - nb : Int) : ℚ) := by exact_mod_cast hn
      calc (2 : ℚ) ^ (-149 : Int) = 1 * 2 ^ (-149 : Int) := (one_mul _).symm
        _ ≤ ((na - nb : Int) : ℚ) * 2 ^ (-149 : Int) :=
          mul_le_mul_of_nonneg_right this (le_of_lt h2)
    have := roundBinary_pos 24 (-149) (by norm_num) (a - b) hge
    unfold fl32 at h
    linarith
  · intro h
    exact roundBinary_nonpos 24 (-149) (a - b) h

end Binary32Lemmas

section Binary32LongLemmas

/-- Rounding does not pass a value of the format: if `q ≤ M * 2^t` for a
significand `0 < M < 2^p` and an exponent `t ≥ emin`, the rounded `q` is at most
`M * 2^t`. -/
lemma roundBinary_le_float (p : Nat) (emin : Int) (M t : Int) (hM0 : 0 < M)
    (hM : M < 2 ^ p) (ht : emin ≤ t) (q : ℚ) (h : q ≤ (M : ℚ) * 2 ^ t) :
    roundBinary p emin q ≤ (M : ℚ) * 2 ^ t := by
  have h2 : (0 : ℚ) < 2 := by norm_num
  have hM0q : (0 : ℚ) < (M : ℚ) := by exact_mod_cast hM0
  have hMq : (M : ℚ) < 2 ^ p := by exact_mod_cast hM
  rcases le_or_lt q 0 with hq | hq
  · exact le_trans (roundBinary_nonpos p emin q hq)
      (le_of_lt (mul_pos hM0q (zpow_pos h2 t)))
  · have hne : q ≠ 0 := ne_of_gt hq
    have hspec := (ilog2_spec q hne).1
    rw [abs_of_pos hq] at hspec
    have he : max (ilog2 q - ((p : Int) - 1)) emin ≤ t := by
      apply max_le _ ht
      by_contra hcon
      have hlt : t + (p : Int) ≤ ilog2 q := by omega
      have h3 : (2 : ℚ) ^ (t + (p : Int)) ≤ (2 : ℚ) ^ ilog2 q :=
        zpow_le_zpow_right₀ (by norm_num) hlt
      have h4 : (2 : ℚ) ^ (t + (p : Int)) = 2 ^ t * 2 ^ p := by
        rw [zpow_add₀ (ne_of_gt h2), zpow_natCast]
      have h5 : (M : ℚ) * 2 ^ t < 2 ^ t * 2 ^ p := by
        rw [mul_comm]
        exact mul_lt_mul_of_pos_left hMq (zpow_pos h2 t)
      linarith
    unfold roundBinary
    simp only [hne, if_false]
    generalize max (ilog2 q - ((p : Int) - 1)) emin = e at he
    obtain ⟨n, hn⟩ := Int.eq_ofNat_of_zero_le (sub_nonneg.mpr he)
    have ht2 : t = e + (n : Int) := by omega
    subst ht2
    have hpe : (0 : ℚ) < 2 ^ e := zpow_pos h2 e
    have hsplit : (2 : ℚ) ^ (e + (n : Int)) = 2 ^ e * 2 ^ n := by
      rw [zpow_add₀ (ne_of_gt h2), zpow_natCast]
    rw [hsplit] at h ⊢
    have hy : q / 2 ^ e ≤ ((M * 2 ^ n : Int) : ℚ) := by
      rw [div_le_iff₀ hpe]
      push_cast
      linarith
    have hr := roundHalfEven_le _ _ hy
    have hr2 : (roundHalfEven (q / 2 ^ e) : ℚ) ≤ (M : ℚ) * 2 ^ n := by
      exact_mod_cast hr
    calc (roundHalfEven (q / 2 ^ e) : ℚ) * 2 ^ e
        ≤ ((M : ℚ) * 2 ^ n) * 2 ^ e := mul_le_mul_of_nonneg_right hr2 (le_of_lt hpe)
      _ = (M : ℚ) * (2 ^ e * 2 ^ n) := by ring

lemma fl32_le_float (M t : Int) (hM0 : 0 < M) (hM : M < 2 ^ 24) (ht : -149 ≤ t) (q : ℚ)
    (h : q ≤ (M : ℚ) * 2 ^ t) : fl32 q ≤ (M : ℚ) * 2 ^ t :=
  roundBinary_le_float 24 (-149) M t hM0 hM ht q h

/-- The `float` sum of an elapsed time of at most `2^20` and the time step of one
frame at 30 frames per second is at most `2^20`. -/
lemma fl32_add_step_le (el : ℚ) (hel : el ≤ 1048576) :
    fl32 (el + fl32 (1 / 30)) ≤ 1048576 := by
  have hdt : fl32 (1 / 30) = 8947849 / 2 ^ 28 := by decide!
  rw [hdt]
  rcases le_or_lt (el + 8947849 / 2 ^ 28) 1048576 with hle | hgt
  · have := fl32_le_float 1048576 0 (by norm_num) (by norm_num) (by norm_num) _
      (show el + 8947849 / 2 ^ 28 ≤ ((1048576 : Int) : ℚ) * 2 ^ (0 : Int) by
        push_cast; simpa using hle)
    simpa using this
  · have hq : (0 : ℚ) < el + 8947849 / 2 ^ 28 := by linarith
    have hne : el + 8947849 / 2 ^ 28 ≠ 0 := ne_of_gt hq
    have hlo : (20 : Int) ≤ ilog2 (el + 8947849 / 2 ^ 28) := by
      apply le_ilog2_of_le_abs _ hne
      rw [abs_of_pos hq]
      norm_num
      linarith
    have hhi : ilog2 (el + 8947849 / 2 ^ 28) < 21 := by
      apply ilog2_lt_of_abs_lt _ hne
      rw [abs_of_pos hq]
      norm_num
      linarith
    have hlog : ilog2 (el + 8947849 / 2 ^ 28) = 20 := by omega
    have hround : roundHalfEven ((el + 8947849 / 2 ^ 28) / 2 ^ (-3 : Int)) = 8388608 := by
      have hfloor : ⌊(el + 8947849 / 2 ^ 28) / 2 ^ (-3 : Int)⌋ = 8388608 := by
        rw [Int.floor_eq_iff]
        constructor
        · rw [le_div_iff₀ (by positivity)]
          norm_num
          linarith
        · rw [div_lt_iff₀ (by positivity)]
          norm_num
          linarith
      unfold roundHalfEven
      rw [hfloor]
      have hfr : (el + 8947849 / 2 ^ 28) / 2 ^ (-3 : Int) - ((8388608 : Int) : ℚ) < 1 / 2 := by
        rw [sub_lt_iff_lt_add, div_lt_iff₀ (by positivity)]
        norm_num
        linarith
      rw [if_pos hfr]
    have hmax : max ((20 : Int) - (((24 : ℕ) : Int) - 1)) (-149) = -3 := by decide
    unfold fl32 roundBinary
    simp only [hne, if_false, hlog]
    rw [hmax, hround]
    norm_num

/-- One `update` of the long ramp while the ramp position is not above 1. -/
lemma long_update (el v : ℚ) (h1 : ¬ 1 < fl32 (fl32 el / 2000000)) :
    (exLongAt el v).update32 externalCallback ratCmath 30 =
      (exLongAt (fl32 (el + fl32 (1 / 30)))
        (if 0 < fl32 (fl32 el / 2000000) then
          fl32 (fl32 (fl32 10 * fl32 (fl32 el / 2000000))) else v), []) := by
  by_cases h0 : 0 < fl32 (fl32 el / 2000000)
  · simp [ofxLine.update32, exLongAt, ofxLineSegment.ramp32, fdiv32, FloatDiv.gt, FloatDiv.val,
      shapeMult32, h0, h1]
  · simp [ofxLine.update32, exLongAt, ofxLineSegment.ramp32, fdiv32, FloatDiv.gt, FloatDiv.val,
      shapeMult32, h0]

/-- The ramp position of the long ramp is at most `3/4` while the elapsed time is at
most `2^20`. -/
lemma long_ramp_le (el : ℚ) (hel : el ≤ 1048576) :
    fl32 (fl32 el / 2000000) ≤ 3 / 4 := by
  have h1 : fl32 el ≤ 1048576 := by
    have := fl32_le_float 1048576 0 (by norm_num) (by norm_num) (by norm_num) el
      (by push_cast; simpa using hel)
    simpa using this
  have := fl32_le_float 3 (-2) (by norm_num) (by norm_num) (by norm_num)
    (fl32 el / 2000000)
    (by
      rw [div_le_iff₀ (by norm_num)]
      norm_num
      linarith)
  norm_num at this ⊢
  linarith

/-- Every state of the long ramp reached from an elapsed time of at most `2^20` and
an output of at most 8 has these two properties, its one segment is still queued,
and nothing has fired. -/
lemma long_updateN (n : Nat) (el v : ℚ) (hel : el ≤ 1048576) (hv : v ≤ 8) :
    ∃ el2 v2, el2 ≤ 1048576 ∧ v2 ≤ 8 ∧
      ofxLine.updateN32 externalCallback ratCmath 30 n (exLongAt el v) =
        (exLongAt el2 v2, []) := by
  induction n generalizing el v with
  | zero => exact ⟨el, v, hel, hv, rfl⟩
  | succ n ih =>
    have hr := long_ramp_le el hel
    have h1 : ¬ 1 < fl32 (fl32 el / 2000000) := by
      intro h
      linarith
    have hstep := long_update el v h1
    have hel2 := fl32_add_step_le el hel
    have hv2 : (if 0 < fl32 (fl32 el / 2000000) then
          fl32 (fl32 (fl32 10 * fl32 (fl32 el / 2000000))) else v) ≤ 8 := by
      split
      · have h10 : fl32 10 = 10 := by decide!
        rw [h10]
        have ha : fl32 (10 * fl32 (fl32 el / 2000000)) ≤ 8 := by
          have := fl32_le_float 8 0 (by norm_num) (by norm_num) (by norm_num)
            (10 * fl32 (fl32 el / 2000000)) (by push_cast; linarith)
          simpa using this
        have := fl32_le_float 8 0 (by norm_num) (by norm_num) (by norm_num)
          (fl32 (10 * fl32 (fl32 el / 2000000))) (by push_cast; linarith)
        simpa using this
      · exact hv
    obtain ⟨el3, v3, h3, h4, h5⟩ := ih _ _ hel2 hv2
    refine ⟨el3, v3, h3, h4, ?_⟩
    simp only [ofxLine.updateN32, hstep, h5, List.append_nil]

end Binary32LongLemmas

section Binary32LineClaims

lemma updateN32_of_fixed (onTimeOut : ofxControlBaseEvent ℚ → ofxLine ℚ → ofxLine ℚ)
    (m : Cmath ℚ) (fps : ℚ) (L : ofxLine ℚ) (h : L.update32 onTimeOut m fps = (L, []))
    (n : Nat) : ofxLine.updateN32 onTimeOut m fps n L = (L, []) := by
  induction n with
  | zero => rfl
  | succ n ih => simp only [ofxLine.updateN32, h, ih, List.append_nil]

/-- C4 (the code at the failing input). A fresh engine (speed 1, running) at 30
frames per second after `addSegment(10, 2000000)`: one segment with ramp time
2000000 and onset 0.  After any number of updates the segment is still queued, its
elapsed time is at most `2^20 = 1048576`, nothing has fired and `out()` is at most
8, not the target 10.  The reason: at the elapsed time `2^20` the `float` sum
`elapsed + speed / fps` is `elapsed` again (the time step 1/30 is less than half
the spacing 1/8 of the `float` values at `2^20`), the ramp position stays at
`2^20 / 2000000`, below 1, and `update` changes nothing. -/
theorem C4_long_segment_never_completes :
    (((ofxLine.init : ofxLine ℚ).addSegment 10 2000000 0).speed = 1 ∧
      ((ofxLine.init : ofxLine ℚ).addSegment 10 2000000 0).bRunning = true ∧
      (((ofxLine.init : ofxLine ℚ).addSegment 10 2000000 0).segmentList.map
        fun segment => (segment.time, segment.onset, segment.target, segment.elapsed)) =
        [(2000000, 0, 10, 0)]) ∧
    (∀ n,
      ((ofxLine.updateN32 externalCallback ratCmath 30 n
          ((ofxLine.init : ofxLine ℚ).addSegment 10 2000000 0)).1.segmentList.map
        fun segment => (segment.time, segment.onset, segment.target)) = [(2000000, 0, 10)] ∧
      (∀ segment ∈ (ofxLine.updateN32 externalCallback ratCmath 30 n
          ((ofxLine.init : ofxLine ℚ).addSegment 10 2000000 0)).1.segmentList,
        segment.elapsed ≤ 1048576) ∧
      (ofxLine.updateN32 externalCallback ratCmath 30 n
          ((ofxLine.init : ofxLine ℚ).addSegment 10 2000000 0)).1.out ≤ 8 ∧
      (ofxLine.updateN32 externalCallback ratCmath 30 n
          ((ofxLine.init : ofxLine ℚ).addSegment 10 2000000 0)).1.out ≠ 10 ∧
      (ofxLine.updateN32 externalCallback ratCmath 30 n
          ((ofxLine.init : ofxLine ℚ).addSegment 10 2000000 0)).2 = []) ∧
    fl32 (1048576 + fl32 (1 / 30)) = 1048576 ∧
    (∀ n, ofxLine.updateN32 externalCallback ratCmath 30 n exStalled = (exStalled, [])) := by
  have hfix : exStalled.update32 externalCallback ratCmath 30 = (exStalled, []) := by
    decide!
  have hall := updateN32_of_fixed externalCallback ratCmath 30 exStalled hfix
  have hinit : ((ofxLine.init : ofxLine ℚ).addSegment 10 2000000 0) = exLongAt 0 0 := by
    decide!
  refine ⟨by decide!, fun n => ?_, by decide!, hall⟩
  obtain ⟨el, v, hel, hv, hrun⟩ := long_updateN n 0 0 (by norm_num) (by norm_num)
  rw [hinit, hrun]
  refine ⟨by simp [exLongAt], ?_, hv, ?_, rfl⟩
  · intro segment hseg
    simp only [exLongAt, List.mem_singleton] at hseg
    rw [hseg]
    exact hel
  · intro h
    have : (exLongAt el v).out = v := rfl
    rw [this] at h
    linarith

end Binary32LineClaims

section Binary32ClockLemmas

/-- The walk of `update` ages every clock by the `float` sum, fires the clocks
that are due and keeps the others, both in list order. -/
lemma walk32_eq_filter (dt : ℚ) (clocks : List (ofxControlBaseEvent ℚ)) :
    ofxClock.walk32 dt clocks =
      ((clocks.map fun e => e.addElapsed32 dt).filter (fun e => decide (¬ e.elapsed > e.delay)),
       (clocks.map fun e => e.addElapsed32 dt).filter (fun e => decide (e.elapsed > e.delay))) := by
  induction clocks with
  | nil => rfl
  | cons clock rest ih =>
    simp only [ofxClock.walk32, ih, List.map_cons]
    by_cases h : (clock.addElapsed32 dt).elapsed > (clock.addElapsed32 dt).delay
    · simp [h, List.filter_cons]
    · have h2 := not_lt.mp h
      simp [h, h2, List.filter_cons]

end Binary32ClockLemmas

section Binary32ClockClaims

/-- C18. Clock scheduler step in binary32: when the scheduler is running, one
`update` replaces the elapsed time of every entry by the `float` sum of it and the
`float` quotient `speed / fps` (delay and action are kept), fires exactly the
entries whose new elapsed time is greater than their delay, once each and in
insertion order, and removes exactly those; the other entries stay in their order.
When it is paused, `update` changes nothing and fires nothing. -/
theorem C18_clock_update_step (fps : ℚ) (C : ofxClock ℚ) :
    (C.bRunning = true →
      (C.update32 fps).1.clockList =
        (C.clockList.map fun e =>
          ({ delay := e.delay, elapsed := fl32 (e.elapsed + fl32 (C.speed / fps)),
             kind := e.kind } : ofxControlBaseEvent ℚ)).filter
          (fun e => decide (¬ e.elapsed > e.delay)) ∧
      (C.update32 fps).1.speed = C.speed ∧
      (C.update32 fps).1.bRunning = true ∧
      (C.update32 fps).2 =
        (C.clockList.map fun e =>
          ({ delay := e.delay, elapsed := fl32 (e.elapsed + fl32 (C.speed / fps)),
             kind := e.kind } : ofxControlBaseEvent ℚ)).filter
          (fun e => decide (e.elapsed > e.delay))) ∧
    (C.bRunning = false → C.update32 fps = (C, [])) := by
  constructor
  · intro hrun
    refine ⟨?_, ?_, ?_, ?_⟩ <;>
      simp [ofxClock.update32, hrun, walk32_eq_filter, ofxControlBaseEvent.addElapsed32]
  · intro hrun
    simp [ofxClock.update32, hrun]

/-- Witness of C18: a running scheduler at 30 frames per second whose first clock
(delay 0) fires and whose second clock (delay 1) stays, both with the elapsed time
`fl32 (1/30) = 8947849 / 2^28`; and the same scheduler paused. -/
theorem C18_clock_update_step_witness :
    ((exClock.update32 30).1.clockList =
        (exClock.clockList.map fun e =>
          ({ delay := e.delay, elapsed := fl32 (e.elapsed + fl32 (exClock.speed / 30)),
             kind := e.kind } : ofxControlBaseEvent ℚ)).filter
          (fun e => decide (¬ e.elapsed > e.delay)) ∧
      (exClock.update32 30).1.speed = exClock.speed ∧
      (exClock.update32 30).1.bRunning = true ∧
      (exClock.update32 30).2 =
        (exClock.clockList.map fun e =>
          ({ delay := e.delay, elapsed := fl32 (e.elapsed + fl32 (exClock.speed / 30)),
             kind := e.kind } : ofxControlBaseEvent ℚ)).filter
          (fun e => decide (e.elapsed > e.delay))) ∧
    ofxClock.update32 30 { exClock with bRunning := false } =
      ({ exClock with bRunning := false }, []) ∧
    (exClock.update32 30).1.clockList =
      [{ delay := 1, elapsed := 8947849 / 2 ^ 28, kind := exEvent2.kind }] ∧
    (exClock.update32 30).2 = [{ delay := 0, elapsed := 8947849 / 2 ^ 28, kind := exEvent.kind }] :=
  ⟨(C18_clock_update_step 30 exClock).1 rfl,
   (C18_clock_update_step 30 { exClock with bRunning := false }).2 rfl,
   by decide!, by decide!⟩

end Binary32ClockClaims

section Binary32ClockStepLemmas

lemma walk32_append (dt : ℚ) (xs ys : List (ofxControlBaseEvent ℚ)) :
    ofxClock.walk32 dt (xs ++ ys) =
      ((ofxClock.walk32 dt xs).1 ++ (ofxClock.walk32 dt ys).1,
       (ofxClock.walk32 dt xs).2 ++ (ofxClock.walk32 dt ys).2) := by
  simp only [walk32_eq_filter, List.map_append, List.filter_append]

/-- Updates change neither the speed nor the running flag of a scheduler. -/
lemma clock32_afterUpdates_frame (fps : ℚ) (k : Nat) (C : ofxClock ℚ) :
    (C.afterUpdates32 fps k).speed = C.speed ∧
    (C.afterUpdates32 fps k).bRunning = C.bRunning := by
  induction k generalizing C with
  | zero => exact ⟨rfl, rfl⟩
  | succ k ih =>
    have h := ih (C.update32 fps).1
    have hu : (C.update32 fps).1.speed = C.speed ∧
        (C.update32 fps).1.bRunning = C.bRunning := by
      unfold ofxClock.update32
      split <;> exact ⟨rfl, rfl⟩
    simp only [ofxClock.afterUpdates32]
    exact ⟨h.1.trans hu.1, h.2.trans hu.2⟩

/-- An entry at the back of the list of a running scheduler does not disturb the
entries before it: after `k` updates it is still at the back, with the `float`
running sum of `k` time steps as elapsed time, if none of the first `k` running
sums exceeded its delay, and gone otherwise. -/
lemma clock32_afterUpdates_append (fps s : ℚ) (k : Nat)
    (xs : List (ofxControlBaseEvent ℚ)) (e : ofxControlBaseEvent ℚ) :
    ofxClock.afterUpdates32 fps k ⟨s, true, xs ++ [e]⟩ =
      ⟨s, true, (ofxClock.afterUpdates32 fps k ⟨s, true, xs⟩).clockList ++
        (if ∀ j, j < k → (fun x => fl32 (x + fl32 (s / fps)))^[j + 1] e.elapsed ≤ e.delay then
          [⟨e.delay, (fun x => fl32 (x + fl32 (s / fps)))^[k] e.elapsed, e.kind⟩] else [])⟩ := by
  induction k generalizing xs e with
  | zero =>
    obtain ⟨delay, elapsed, kind⟩ := e
    simp [ofxClock.afterUpdates32]
  | succ k ih =>
    have hstep : ofxClock.afterUpdates32 fps (k + 1) ⟨s, true, xs ++ [e]⟩ =
        ofxClock.afterUpdates32 fps k
          ⟨s, true, (ofxClock.walk32 (fl32 (s / fps)) xs).1 ++
            (ofxClock.walk32 (fl32 (s / fps)) [e]).1⟩ := by
      simp only [ofxClock.afterUpdates32, ofxClock.update32, if_true, walk32_append]
    have hstep2 : ofxClock.afterUpdates32 fps (k + 1) ⟨s, true, xs⟩ =
        ofxClock.afterUpdates32 fps k ⟨s, true, (ofxClock.walk32 (fl32 (s / fps)) xs).1⟩ := by
      simp only [ofxClock.afterUpdates32, ofxClock.update32, if_true]
    rw [hstep, hstep2]
    by_cases hfire : fl32 (e.elapsed + fl32 (s / fps)) > e.delay
    · have hw : (ofxClock.walk32 (fl32 (s / fps)) [e]).1 = [] := by
        simp [ofxClock.walk32, ofxControlBaseEvent.addElapsed32, hfire]
      have hnot : ¬ ∀ j, j < k + 1 →
          (fun x => fl32 (x + fl32 (s / fps)))^[j + 1] e.elapsed ≤ e.delay := by
        intro h
        have h0 := h 0 (Nat.succ_pos k)
        simp only [zero_add, Function.iterate_one] at h0
        exact absurd h0 (not_le.mpr hfire)
      rw [hw, List.append_nil, if_neg hnot, List.append_nil]
      have hf := clock32_afterUpdates_frame fps k
        (⟨s, true, (ofxClock.walk32 (fl32 (s / fps)) xs).1⟩ : ofxClock ℚ)
      generalize ofxClock.afterUpdates32 fps k
        (⟨s, true, (ofxClock.walk32 (fl32 (s / fps)) xs).1⟩ : ofxClock ℚ) = A at hf
      obtain ⟨s2, r2, ys⟩ := A
      simp only at hf
      rw [hf.1, hf.2]
    · have hw : (ofxClock.walk32 (fl32 (s / fps)) [e]).1 = [e.addElapsed32 (fl32 (s / fps))] := by
        simp [ofxClock.walk32, ofxControlBaseEvent.addElapsed32, hfire]
      have hle : fl32 (e.elapsed + fl32 (s / fps)) ≤ e.delay := not_lt.mp hfire
      rw [hw, ih (ofxClock.walk32 (fl32 (s / fps)) xs).1 (e.addElapsed32 (fl32 (s / fps)))]
      have hcond : (∀ j, j < k →
          (fun x => fl32 (x + fl32 (s / fps)))^[j + 1]
            (e.addElapsed32 (fl32 (s / fps))).elapsed ≤
            (e.addElapsed32 (fl32 (s / fps))).delay) ↔
          (∀ j, j < k + 1 →
            (fun x => fl32 (x + fl32 (s / fps)))^[j + 1] e.elapsed ≤ e.delay) := by
        constructor
        · intro h j hj
          cases j with
          | zero =>
            simp only [zero_add, Function.iterate_one]
            exact hle
          | succ j =>
            have := h j (by omega)
            rw [Function.iterate_succ_apply]
            exact this
        · intro h j hj
          have := h (j + 1) (by omega)
          rw [Function.iterate_succ_apply] at this
          exact this
      have helem : (fun x => fl32 (x + fl32 (s / fps)))^[k]
          (e.addElapsed32 (fl32 (s / fps))).elapsed =
          (fun x => fl32 (x + fl32 (s / fps)))^[k + 1] e.elapsed := by
        rw [Function.iterate_succ_apply]
        rfl
      simp only [hcond, helem]
      rfl

/-- The events fired by the `(k + 1)`-th update: the entry at the back fires, last,
exactly when none of the first `k` running sums exceeded its delay and the
`(k + 1)`-th does. -/
lemma clock32_log_append (fps s : ℚ) (k : Nat)
    (xs : List (ofxControlBaseEvent ℚ)) (e : ofxControlBaseEvent ℚ) :
    ((ofxClock.afterUpdates32 fps k ⟨s, true, xs ++ [e]⟩).update32 fps).2 =
      ((ofxClock.afterUpdates32 fps k ⟨s, true, xs⟩).update32 fps).2 ++
        (if (∀ j, j < k → (fun x => fl32 (x + fl32 (s / fps)))^[j + 1] e.elapsed ≤ e.delay) ∧
            e.delay < (fun x => fl32 (x + fl32 (s / fps)))^[k + 1] e.elapsed then
          [⟨e.delay, (fun x => fl32 (x + fl32 (s / fps)))^[k + 1] e.elapsed, e.kind⟩]
         else []) := by
  rw [clock32_afterUpdates_append fps s k xs e]
  have hf := clock32_afterUpdates_frame fps k (⟨s, true, xs⟩ : ofxClock ℚ)
  generalize ofxClock.afterUpdates32 fps k (⟨s, true, xs⟩ : ofxClock ℚ) = A at hf
  obtain ⟨s2, r2, ys⟩ := A
  simp only at hf
  obtain ⟨hs2, hr2⟩ := hf
  subst hs2 hr2
  simp only [ofxClock.update32, if_true, walk32_append]
  congr 1
  have hsucc : (fun x => fl32 (x + fl32 (s2 / fps)))^[k + 1] e.elapsed =
      fl32 ((fun x => fl32 (x + fl32 (s2 / fps)))^[k] e.elapsed + fl32 (s2 / fps)) :=
    Function.iterate_succ_apply' _ _ _
  by_cases hpend : ∀ j, j < k →
      (fun x => fl32 (x + fl32 (s2 / fps)))^[j + 1] e.elapsed ≤ e.delay
  · rw [if_pos hpend]
    by_cases hfire : e.delay < (fun x => fl32 (x + fl32 (s2 / fps)))^[k + 1] e.elapsed
    · have hfire2 := hfire
      rw [hsucc] at hfire2
      rw [if_pos ⟨hpend, hfire⟩, hsucc]
      simp only [ofxClock.walk32, ofxControlBaseEvent.addElapsed32, gt_iff_lt, hfire2, if_true]
    · have hfire2 := hfire
      rw [hsucc] at hfire2
      rw [if_neg (fun h => hfire h.2)]
      simp only [ofxClock.walk32, ofxControlBaseEvent.addElapsed32, gt_iff_lt, hfire2, if_false]
  · rw [if_neg hpend, if_neg (fun h => hpend h.1)]
    rfl

end Binary32ClockStepLemmas
section Binary32ClockStepLemmas2

lemma fl32_zero : fl32 0 = 0 := roundBinary_zero 24 (-149)

lemma fl32_of_int_mul_zpow (k e0 : Int) (hk : |k| < 2 ^ 24) (he0 : -149 ≤ e0) :
    fl32 ((k : ℚ) * 2 ^ e0) = (k : ℚ) * 2 ^ e0 :=
  roundBinary_of_int_mul_zpow 24 (-149) k e0 hk he0

/-- The running sum of time steps `2^(-m)` is exact for the first `2^24` steps. -/
lemma iterate_pow2_step (m : Nat) (hm : m ≤ 149) (j : Nat) (hj : j < 2 ^ 24) :
    (fun x => fl32 (x + 1 / 2 ^ m))^[j] 0 = (j : ℚ) / 2 ^ m := by
  induction j with
  | zero => simp
  | succ j ih =>
    rw [Function.iterate_succ_apply', ih (by omega)]
    have hform : (j : ℚ) / 2 ^ m + 1 / 2 ^ m = ((j + 1 : Int) : ℚ) * 2 ^ (-(m : Int)) := by
      rw [zpow_neg, zpow_natCast]
      push_cast
      field_simp
    have hres : ((j + 1 : ℕ) : ℚ) / 2 ^ m = ((j + 1 : Int) : ℚ) * 2 ^ (-(m : Int)) := by
      rw [zpow_neg, zpow_natCast]
      push_cast
      field_simp
    rw [hform, hres]
    apply fl32_of_int_mul_zpow
    · have : (0 : Int) ≤ (j : Int) + 1 := by omega
      rw [abs_of_nonneg this]
      have h2 : ((j + 1 : ℕ) : Int) < ((2 ^ 24 : ℕ) : Int) := by exact_mod_cast hj
      push_cast at h2
      exact h2
    · omega

end Binary32ClockStepLemmas2

section Binary32ClockStepClaims

/-- C30 (as stated, refuted on an example). Speed 1 at 30 frames per second, one
entry with delay 1: thirty `float` additions of `1/30` give `8388611 / 2^23 > 1`,
so the entry fires in the 30th `update`, while `30 * 1 / 30` is not greater than 1
and `floor(1 * 30 / 1) + 1` is 31. -/
theorem C30_rate_thirty_counterexample :
    ((((ofxClock.init : ofxClock ℚ).add 1 exEvent.kind).afterUpdates32 30 29).update32 30).2 =
      [{ delay := 1, elapsed := 8388611 / 2 ^ 23, kind := exEvent.kind }] ∧
    ¬ ((30 : ℚ) * 1 / 30 > 1) ∧ ⌊(1 : ℚ) * 30 / 1⌋ + 1 = 31 := by
  decide!

/-- C30 (amended). A running scheduler at the frame rate `fps`, and an entry added
with delay `d` (stored as 0 when `d` is negative).  Let the running sums be the
`float` sums `a(0) = 0`, `a(j + 1) = a(j) + dt` of the `float` time step
`dt = speed / fps`.  The entries already in the list fire as they would without
the new one, and the new entry fires in the `(k + 1)`-th `update` after it was
added, after those, exactly when `a(k + 1)` is the first running sum greater than
its delay; until then it is pending with elapsed time `a(k)`, afterwards it is
gone, so it fires in at most one update.  With speed 0 all running sums are 0 and
the entry never fires; if `speed / fps` is at least `2^(-149)` then `a(1) > 0`, so
an entry with delay 0 fires in the first update.  If `speed / fps` is the power of
two `2^(-m)`, the running sums are exact for the first `2^24` updates and the entry
fires in update `floor(d * 2^m) + 1`. -/
theorem C30_clock_firing_step (fps : ℚ) (C : ofxClock ℚ) (d : ℚ)
    (kind : ofxControlEventKind) (hrun : C.bRunning = true) (k : Nat) :
    (((C.add d kind).afterUpdates32 fps k).update32 fps).2 =
      ((C.afterUpdates32 fps k).update32 fps).2 ++
        (if (∀ j, j < k →
              (fun x => fl32 (x + fl32 (C.speed / fps)))^[j + 1] 0 ≤ (if d ≥ 0 then d else 0)) ∧
            (if d ≥ 0 then d else 0) < (fun x => fl32 (x + fl32 (C.speed / fps)))^[k + 1] 0 then
          [⟨if d ≥ 0 then d else 0, (fun x => fl32 (x + fl32 (C.speed / fps)))^[k + 1] 0, kind⟩]
         else []) ∧
    ((C.add d kind).afterUpdates32 fps k).clockList =
      (C.afterUpdates32 fps k).clockList ++
        (if ∀ j, j < k →
              (fun x => fl32 (x + fl32 (C.speed / fps)))^[j + 1] 0 ≤ (if d ≥ 0 then d else 0) then
          [⟨if d ≥ 0 then d else 0, (fun x => fl32 (x + fl32 (C.speed / fps)))^[k] 0, kind⟩]
         else []) ∧
    (∀ k2, k2 < k →
      (if d ≥ 0 then d else 0) < (fun x => fl32 (x + fl32 (C.speed / fps)))^[k2 + 1] 0 →
      ¬ ∀ j, j < k →
        (fun x => fl32 (x + fl32 (C.speed / fps)))^[j + 1] 0 ≤ (if d ≥ 0 then d else 0)) ∧
    (C.speed = 0 → ∀ j, (fun x => fl32 (x + fl32 (C.speed / fps)))^[j] 0 = 0) ∧
    ((2 : ℚ) ^ (-149 : Int) ≤ C.speed / fps →
      0 < (fun x => fl32 (x + fl32 (C.speed / fps)))^[1] 0) ∧
    (∀ m : Nat, m ≤ 149 → C.speed / fps = 1 / 2 ^ m → k + 1 < 2 ^ 24 →
      (((∀ j, j < k →
            (fun x => fl32 (x + fl32 (C.speed / fps)))^[j + 1] 0 ≤ (if d ≥ 0 then d else 0)) ∧
          (if d ≥ 0 then d else 0) < (fun x => fl32 (x + fl32 (C.speed / fps)))^[k + 1] 0) ↔
        (k : Int) + 1 = ⌊(if d ≥ 0 then d else 0) * 2 ^ m⌋ + 1)) := by
  obtain ⟨s, run, xs⟩ := C
  simp only at hrun
  subst hrun
  have hds : (0 : ℚ) ≤ (if d ≥ 0 then d else 0) := by
    split
    · assumption
    · exact le_refl 0
  have hlog := clock32_log_append fps s k xs ⟨if d ≥ 0 then d else 0, 0, kind⟩
  have hlist := clock32_afterUpdates_append fps s k xs ⟨if d ≥ 0 then d else 0, 0, kind⟩
  refine ⟨hlog, ?_, ?_, ?_, ?_, ?_⟩
  · simp only [ofxClock.add]
    rw [hlist]
  · intro k2 hk2 hgt hall
    exact absurd (hall k2 hk2) (not_le.mpr hgt)
  · intro hs j
    simp only at hs
    subst hs
    induction j with
    | zero => rfl
    | succ j ih =>
      rw [Function.iterate_succ_apply', ih]
      simp [fl32_zero]
  · intro hmin
    simp only at hmin
    have h1 : (2 : ℚ) ^ (-149 : Int) ≤ fl32 (s / fps) :=
      roundBinary_ge_min 24 (-149) (by norm_num) (s / fps) hmin
    have h2 : (2 : ℚ) ^ (-149 : Int) ≤ fl32 (0 + fl32 (s / fps)) := by
      rw [zero_add]
      exact roundBinary_ge_min 24 (-149) (by norm_num) _ h1
    simp only [Function.iterate_one]
    exact lt_of_lt_of_le (zpow_pos (by norm_num) _) h2
  · intro m hm hstep hk
    simp only at hstep
    generalize (if d ≥ 0 then d else 0) = ds at hds
    have hdt : fl32 (s / fps) = 1 / 2 ^ m := by
      rw [hstep]
      have h := fl32_of_int_mul_zpow 1 (-(m : Int)) (by norm_num) (by omega)
      rw [zpow_neg, zpow_natCast] at h
      simpa using h
    rw [hdt]
    have hacc : ∀ j, j < 2 ^ 24 → (fun x => fl32 (x + 1 / 2 ^ m))^[j] 0 = (j : ℚ) / 2 ^ m :=
      iterate_pow2_step m hm
    have hpow : (0 : ℚ) < 2 ^ m := pow_pos (by norm_num) m
    have hfl : ((k : Int) + 1 = ⌊ds * 2 ^ m⌋ + 1) ↔ ⌊ds * 2 ^ m⌋ = (k : Int) := by
      constructor <;> intro h <;> omega
    rw [hfl, Int.floor_eq_iff, hacc (k + 1) hk]
    constructor
    · rintro ⟨hall, hlt⟩
      constructor
      · cases k with
        | zero =>
          simp only [Nat.cast_zero, Int.cast_zero]
          exact mul_nonneg hds (le_of_lt hpow)
        | succ k =>
          have h := hall k (Nat.lt_succ_self k)
          rw [hacc (k + 1) (by omega), div_le_iff₀ hpow] at h
          push_cast at h ⊢
          exact h
      · rw [lt_div_iff₀ hpow] at hlt
        push_cast at hlt ⊢
        exact hlt
    · rintro ⟨hle, hlt⟩
      constructor
      · intro j hj
        rw [hacc (j + 1) (by omega), div_le_iff₀ hpow]
        have : ((j + 1 : ℕ) : ℚ) ≤ (k : ℚ) := by exact_mod_cast hj
        push_cast at hle
        linarith
      · rw [lt_div_iff₀ hpow]
        push_cast at hlt ⊢
        exact hlt

/-- Witness of C30 (amended): the scheduler with two entries at 30 frames per
second, new entry with delay 1: it fires in the 30th update, last; and at 32 frames
per second, where the time step `1/32` is a power of two, in update
`floor(1 * 32) + 1 = 33`. -/
theorem C30_clock_firing_step_witness :
    exClock.bRunning = true ∧
    (((exClock.add 1 exEvent.kind).afterUpdates32 30 29).update32 30).2 =
      ((exClock.afterUpdates32 30 29).update32 30).2 ++
        [⟨if (1 : ℚ) ≥ 0 then 1 else 0,
          (fun x => fl32 (x + fl32 (exClock.speed / 30)))^[29 + 1] 0, exEvent.kind⟩] ∧
    (fun x => fl32 (x + fl32 (exClock.speed / 30)))^[29 + 1] 0 = 8388611 / 2 ^ 23 ∧
    ((32 : ℕ) : Int) + 1 = ⌊(if (1 : ℚ) ≥ 0 then (1 : ℚ) else 0) * 2 ^ 5⌋ + 1 := by
  have h := C30_clock_firing_step 30 exClock 1 exEvent.kind rfl 29
  have hc : (∀ j, j < 29 →
        (fun x => fl32 (x + fl32 (exClock.speed / 30)))^[j + 1] 0 ≤
          (if (1 : ℚ) ≥ 0 then 1 else 0)) ∧
      (if (1 : ℚ) ≥ 0 then 1 else 0) <
        (fun x => fl32 (x + fl32 (exClock.speed / 30)))^[29 + 1] 0 := by
    decide!
  have h1 := h.1
  rw [if_pos hc] at h1
  have h32 := (C30_clock_firing_step 32 exClock 1 exEvent.kind rfl 32).2.2.2.2.2 5
    (by norm_num) (by norm_num [exClock]) (by norm_num)
  have hc32 : (∀ j, j < 32 →
        (fun x => fl32 (x + fl32 (exClock.speed / 32)))^[j + 1] 0 ≤
          (if (1 : ℚ) ≥ 0 then 1 else 0)) ∧
      (if (1 : ℚ) ≥ 0 then 1 else 0) <
        (fun x => fl32 (x + fl32 (exClock.speed / 32)))^[32 + 1] 0 := by
    decide!
  exact ⟨rfl, h1, by decide!, h32.mp hc32⟩

end Binary32ClockStepClaims

section Binary32OscLemmas

lemma fl64_zero : fl64 0 = 0 := roundBinary_zero 53 (-1074)

/-- The remainder `fmod(x, 1)`: negative with `fmod(x, 1) + 1` the fractional part
of `x`, or the fractional part itself. -/
lemma fmod_one_cases (x : ℚ) :
    (fmod x 1 < 0 ∧ fmod x 1 + 1 = Int.fract x) ∨ (¬ fmod x 1 < 0 ∧ fmod x 1 = Int.fract x) := by
  have h := wrapUnit_eq_fract x
  by_cases hneg : fmod x 1 < 0
  · left
    rw [if_pos hneg] at h
    exact ⟨hneg, h⟩
  · right
    rw [if_neg hneg] at h
    exact ⟨hneg, h⟩

/-- The normalisation `w = fmod(x, 1); if (w < 0) w += 1.0` in binary32 gives a
value in `[0, 1]`. -/
lemma wrapUnit32_range (x : ℚ) :
    0 ≤ (if fmod x 1 < 0 then fl32 (fl64 (fmod x 1 + 1)) else fmod x 1) ∧
    (if fmod x 1 < 0 then fl32 (fl64 (fmod x 1 + 1)) else fmod x 1) ≤ 1 := by
  rcases fmod_one_cases x with ⟨hneg, hfr⟩ | ⟨hneg, hfr⟩
  · rw [if_pos hneg, hfr]
    have h0 : 0 ≤ Int.fract x := Int.fract_nonneg x
    have h1 : Int.fract x ≤ 1 := le_of_lt (Int.fract_lt_one x)
    have h64a : 0 ≤ fl64 (Int.fract x) := roundBinary_nonneg 53 (-1074) _ h0
    have h64b : fl64 (Int.fract x) ≤ 1 :=
      roundBinary_le_one 53 (-1074) (by norm_num) (by norm_num) _ h1
    exact ⟨roundBinary_nonneg 24 (-149) _ h64a,
      roundBinary_le_one 24 (-149) (by norm_num) (by norm_num) _ h64b⟩
  · rw [if_neg hneg, hfr]
    exact ⟨Int.fract_nonneg x, le_of_lt (Int.fract_lt_one x)⟩

lemma osc32_update_running (fps : ℚ) (O : ofxBaseOsc ℚ) (hrun : O.bRunning = true) :
    O.update32 fps =
      ({ O with
          wrapped := O.wrap32,
          counter := if (!O.bReset && decide (periodBoundary32 O.freq O.wrapped O.wrap32)) = true
            then incrementInt O.counter else O.counter,
          bReset := false,
          phase :=
            if fmod (fl32 (fl32 (O.phase + fl32 (fl32 (O.speed * O.freq) / fps)) +
                FLT_EPSILON)) 1 < 0 then
              fl32 (fl64 (fmod (fl32 (fl32 (O.phase + fl32 (fl32 (O.speed * O.freq) / fps)) +
                FLT_EPSILON)) 1 + 1))
            else fmod (fl32 (fl32 (O.phase + fl32 (fl32 (O.speed * O.freq) / fps)) +
                FLT_EPSILON)) 1 },
       if (!O.bReset && decide (periodBoundary32 O.freq O.wrapped O.wrap32)) = true
         then O.eventList else []) := by
  simp only [ofxBaseOsc.update32, hrun, if_true]

lemma osc32_update_paused (fps : ℚ) (O : ofxBaseOsc ℚ) (hrun : O.bRunning = false) :
    O.update32 fps = (O, []) := by
  simp [ofxBaseOsc.update32, hrun]

lemma wrap32_range (O : ofxBaseOsc ℚ) (hp0 : 0 ≤ O.phase) (hp1 : O.phase ≤ 1) :
    0 ≤ O.wrap32 ∧ O.wrap32 ≤ 1 := by
  unfold ofxBaseOsc.wrap32
  split
  · exact wrapUnit32_range _
  · exact ⟨hp0, hp1⟩

/-- One call keeps the oscillator running and its phase and wrapped phase in
`[0, 1]`, when the argument of `setPhase` lies in `[0, 1)`. -/
lemma osc32_step_inRange (fps : ℚ) (O : ofxBaseOsc ℚ) (op : OscOp ℚ) (hop : op.phaseInRange)
    (hrun : O.bRunning = true) (hp : 0 ≤ O.phase ∧ O.phase ≤ 1)
    (hw : 0 ≤ O.wrapped ∧ O.wrapped ≤ 1) :
    (O.step32 fps op).1.bRunning = true ∧
    (0 ≤ (O.step32 fps op).1.phase ∧ (O.step32 fps op).1.phase ≤ 1) ∧
    (0 ≤ (O.step32 fps op).1.wrapped ∧ (O.step32 fps op).1.wrapped ≤ 1) := by
  cases op with
  | update =>
    simp only [ofxBaseOsc.step32, osc32_update_running fps O hrun]
    exact ⟨hrun, wrapUnit32_range _, wrap32_range O hp.1 hp.2⟩
  | setPhase p =>
    have hp2 : 0 ≤ p ∧ p < 1 := hop
    exact ⟨hrun, ⟨hp2.1, le_of_lt hp2.2⟩, hw⟩
  | setPhaseOffset o => exact ⟨hrun, hp, hw⟩
  | setFrequency hz => exact ⟨hrun, hp, hw⟩

lemma osc32_run_inRange (fps : ℚ) (ops : List (OscOp ℚ)) (O : ofxBaseOsc ℚ)
    (hops : ∀ op ∈ ops, op.phaseInRange)
    (hrun : O.bRunning = true) (hp : 0 ≤ O.phase ∧ O.phase ≤ 1)
    (hw : 0 ≤ O.wrapped ∧ O.wrapped ≤ 1) :
    (ofxBaseOsc.run32 fps ops O).1.bRunning = true ∧
    (0 ≤ (ofxBaseOsc.run32 fps ops O).1.phase ∧ (ofxBaseOsc.run32 fps ops O).1.phase ≤ 1) ∧
    (0 ≤ (ofxBaseOsc.run32 fps ops O).1.wrapped ∧
      (ofxBaseOsc.run32 fps ops O).1.wrapped ≤ 1) := by
  induction ops generalizing O with
  | nil => exact ⟨hrun, hp, hw⟩
  | cons op ops ih =>
    obtain ⟨h1, h2, h3⟩ :=
      osc32_step_inRange fps O op (hops op (List.mem_cons_self _ _)) hrun hp hw
    exact ih (O.step32 fps op).1 (fun o ho => hops o (List.mem_cons_of_mem _ ho)) h1 h2 h3

lemma incrementInt_of_int (c : Int) (hlo : -2 ^ 31 ≤ c) (hhi : c ≤ INT_MAX) :
    incrementInt c = if c = INT_MAX then -2147483648 else c + 1 := by
  unfold incrementInt INT_MAX at *
  norm_num at hlo hhi ⊢
  split <;> omega

end Binary32OscLemmas

section Binary32FloatLemmas

/-- A significand of at most `2^24` in absolute value with an exponent of at least
`-149` gives a `float` value. -/
lemma isFloat32_of_repr (k e : Int) (hk : |k| ≤ 2 ^ 24) (he : -149 ≤ e) :
    isFloat32 ((k : ℚ) * 2 ^ e) := by
  unfold isFloat32
  rcases lt_or_eq_of_le hk with hlt | heq
  · exact fl32_of_int_mul_zpow k e hlt he
  · have h2 : (2 : ℚ) ≠ 0 := by norm_num
    have hsplit : (2 : ℚ) ^ (e + 1) = 2 ^ e * 2 := by
      rw [zpow_add₀ h2, zpow_one]
    rcases abs_eq (by norm_num : (0 : Int) ≤ 2 ^ 24) |>.mp heq with hk1 | hk1
    · have hrew : (k : ℚ) * 2 ^ e = ((2 ^ 23 : Int) : ℚ) * 2 ^ (e + 1) := by
        rw [hk1, hsplit]
        push_cast
        ring
      rw [hrew]
      exact fl32_of_int_mul_zpow (2 ^ 23) (e + 1) (by norm_num) (by omega)
    · have hrew : (k : ℚ) * 2 ^ e = ((-2 ^ 23 : Int) : ℚ) * 2 ^ (e + 1) := by
        rw [hk1, hsplit]
        push_cast
        ring
      rw [hrew]
      exact fl32_of_int_mul_zpow (-2 ^ 23) (e + 1) (by norm_num) (by omega)

/-- The result of rounding to `float` has a significand of at most `2^24` in
absolute value and an exponent of at least `-149`. -/
lemma fl32_repr (x : ℚ) :
    ∃ k e : Int, |k| ≤ 2 ^ 24 ∧ -149 ≤ e ∧ fl32 x = (k : ℚ) * 2 ^ e := by
  by_cases hx : x = 0
  · exact ⟨0, 0, by norm_num, by norm_num, by simp [hx, fl32_zero]⟩
  · have h2 : (0 : ℚ) < 2 := by norm_num
    have hspec := (ilog2_spec x hx).2
    have he : (-149 : Int) ≤ max (ilog2 x - (((24 : ℕ) : Int) - 1)) (-149) := le_max_right _ _
    have he2 : ilog2 x - (((24 : ℕ) : Int) - 1) ≤ max (ilog2 x - (((24 : ℕ) : Int) - 1)) (-149) :=
      le_max_left _ _
    refine ⟨roundHalfEven (x / 2 ^ max (ilog2 x - (((24 : ℕ) : Int) - 1)) (-149)),
      max (ilog2 x - (((24 : ℕ) : Int) - 1)) (-149), ?_, he, ?_⟩
    · generalize max (ilog2 x - (((24 : ℕ) : Int) - 1)) (-149) = e at he he2
      have hpe : (0 : ℚ) < 2 ^ e := zpow_pos h2 e
      have hbound : |x| ≤ 2 ^ 24 * 2 ^ e := by
        have h3 : (2 : ℚ) ^ (ilog2 x + 1) ≤ (2 : ℚ) ^ (e + 24) :=
          zpow_le_zpow_right₀ (by norm_num) (by push_cast at he2; omega)
        have h4 : (2 : ℚ) ^ (e + 24) = 2 ^ 24 * 2 ^ e := by
          rw [zpow_add₀ (ne_of_gt h2)]
          norm_num
          ring
        linarith
      have habs := abs_le.mp hbound
      rw [abs_le]
      constructor
      · apply le_roundHalfEven
        rw [le_div_iff₀ hpe]
        push_cast
        linarith [habs.1]
      · apply roundHalfEven_le
        rw [div_le_iff₀ hpe]
        push_cast
        linarith [habs.2]
    · unfold fl32 roundBinary
      simp only [hx, if_false]

/-- Rounding to `float` gives a `float` value. -/
lemma isFloat32_fl32 (x : ℚ) : isFloat32 (fl32 x) := by
  obtain ⟨k, e, hk, he, h⟩ := fl32_repr x
  rw [h]
  exact isFloat32_of_repr k e hk he

lemma fmod_one_of_abs_lt_one (q : ℚ) (h : |q| < 1) : fmod q 1 = q := by
  have hb := abs_lt.mp h
  unfold fmod truncate
  simp only [div_one, mul_one]
  split
  · rename_i h0
    have h3 : ⌊q⌋ = 0 := by
      rw [Int.floor_eq_iff]
      exact ⟨by simpa using h0, by simpa using hb.2⟩
    rw [h3, Int.cast_zero, sub_zero]
  · rename_i h0
    have h3 : ⌈q⌉ = 0 := by
      rw [Int.ceil_eq_iff]
      exact ⟨by simpa using hb.1, by simpa using le_of_lt (not_le.mp h0)⟩
    rw [h3, Int.cast_zero, sub_zero]

lemma fmod_one_abs_lt_one (q : ℚ) : |fmod q 1| < 1 := by
  unfold fmod truncate
  rw [abs_lt]
  simp only [div_one, mul_one]
  split
  · have h1 := Int.floor_le q
    have h2 := Int.lt_floor_add_one q
    constructor <;> linarith
  · have h1 := Int.le_ceil q
    have h2 := Int.ceil_lt_add_one q
    constructor <;> linarith

/-- The remainder `fmod(x, 1)` of a `float` value is a `float` value. -/
lemma isFloat32_fmod_one (q : ℚ) (h : isFloat32 q) : isFloat32 (fmod q 1) := by
  by_cases hq1 : |q| < 1
  · rw [fmod_one_of_abs_lt_one q hq1]
    exact h
  · have hq1b : 1 ≤ |q| := not_lt.mp hq1
    obtain ⟨k, e, hk, he, hrep⟩ := fl32_repr q
    unfold isFloat32 at h
    rw [h] at hrep
    have h2 : (0 : ℚ) < 2 := by norm_num
    rcases le_or_lt 0 e with hpos | hneg
    · -- the value is an integer
      obtain ⟨n, hn⟩ := Int.eq_ofNat_of_zero_le hpos
      have hint : q = ((k * 2 ^ n : Int) : ℚ) := by
        rw [hrep, hn]
        push_cast
        rw [zpow_natCast]
      have hz : fmod q 1 = 0 := by
        rw [hint]
        unfold fmod truncate
        simp only [div_one, mul_one]
        split
        · rw [Int.floor_intCast]
          exact sub_self _
        · rw [Int.ceil_intCast]
          exact sub_self _
      rw [hz]
      exact fl32_zero
    · obtain ⟨m, hm⟩ := Int.exists_eq_neg_ofNat (le_of_lt hneg)
      subst hm
      have hpm : (0 : ℚ) < 2 ^ m := pow_pos h2 m
      have hz : (2 : ℚ) ^ (-(m : Int)) = ((2 : ℚ) ^ m)⁻¹ := by
        rw [zpow_neg, zpow_natCast]
      have hkq : |(k : ℚ)| ≤ 2 ^ 24 := by
        have : ((|k| : Int) : ℚ) ≤ ((2 ^ 24 : Int) : ℚ) := by exact_mod_cast hk
        rw [Int.cast_abs] at this
        simpa using this
      -- the exponent is at least -24
      have hm24 : (2 : ℚ) ^ m ≤ 2 ^ 24 := by
        have hq2 : |q| = |(k : ℚ)| * ((2 : ℚ) ^ m)⁻¹ := by
          rw [hrep, hz, abs_mul, abs_of_pos (inv_pos.mpr hpm)]
        rw [hq2] at hq1b
        have : 1 * (2 : ℚ) ^ m ≤ |(k : ℚ)| := by
          rw [← div_eq_mul_inv] at hq1b
          exact (le_div_iff₀ hpm).mp hq1b
        linarith
      -- the remainder on the grid of the value
      have hgrid : fmod q 1 =
          ((k - truncate q * 2 ^ m : Int) : ℚ) * 2 ^ (-(m : Int)) := by
        unfold fmod
        simp only [div_one, mul_one]
        rw [hz]
        push_cast
        rw [sub_mul, mul_assoc, mul_inv_cancel₀ (ne_of_gt hpm), mul_one, ← hz, ← hrep]
      have hlt := fmod_one_abs_lt_one q
      rw [hgrid]
      apply isFloat32_of_repr _ _ _ he
      rw [hgrid, hz, abs_mul, abs_of_pos (inv_pos.mpr hpm), ← div_eq_mul_inv,
        div_lt_iff₀ hpm, one_mul] at hlt
      have hj : |((k - truncate q * 2 ^ m : Int) : ℚ)| ≤ ((2 ^ 24 : Int) : ℚ) := by
        push_cast
        push_cast at hlt
        linarith
      rw [← Int.cast_abs] at hj
      exact_mod_cast hj

/-- The wrapped phase computed by `update` from a `float` phase is a `float`
value. -/
lemma wrap32_isFloat32 (O : ofxBaseOsc ℚ) (hp : isFloat32 O.phase) : isFloat32 O.wrap32 := by
  unfold ofxBaseOsc.wrap32
  split
  · simp only
    split
    · exact isFloat32_fl32 _
    · exact isFloat32_fmod_one _ (isFloat32_fl32 _)
  · exact hp

end Binary32FloatLemmas

section Binary32OscClaims

/-- C20 (as stated, refuted on an example). The oscillator one update before the
period boundary, with the period counter at `INT_MAX`: the update fires the event,
and `++counter` overflows; the counter is `-2147483648` afterwards, not
`INT_MAX + 1`. -/
theorem C20_counter_overflow_counterexample :
    (ofxBaseOsc.update32 30 { exOsc32 with counter := INT_MAX }).2 = [exEvent] ∧
    (ofxBaseOsc.update32 30 { exOsc32 with counter := INT_MAX }).1.counter = -2147483648 ∧
    (ofxBaseOsc.update32 30 { exOsc32 with counter := INT_MAX }).1.counter ≠ INT_MAX + 1 := by
  decide!

/-- C20 (amended). Oscillator boundary rule in binary32, with the period counter a
32 bit `int`: let `w` be the wrapped phase before an `update` of a running
oscillator whose wrapped phase and phase are `float` values, and `w2` the wrapped
phase computed in it.  The update fires all attached events (once each, in list
order) and increments the period counter if the just-reset flag is clear and either
`freq > 0` and `w2 - w ≤ 0`, or `freq < 0` and `w - w2 ≤ 0`; otherwise it fires
nothing and leaves the counter.  The increment adds exactly 1, except at `INT_MAX`,
where it overflows to `-2147483648`.  In both cases the flag is clear afterwards and
the counter has grown by at most 1.  A paused oscillator is not changed by
`update`. -/
theorem C20_oscillator_boundary_rule (fps : ℚ) (O : ofxBaseOsc ℚ)
    (hw : isFloat32 O.wrapped) (hp : isFloat32 O.phase)
    (hlo : -2 ^ 31 ≤ O.counter) (hhi : O.counter ≤ INT_MAX) :
    (O.bRunning = true →
      (O.update32 fps).1.wrapped = O.wrap32 ∧
      ((O.bReset = false ∧
          ((O.freq > 0 ∧ (O.update32 fps).1.wrapped - O.wrapped ≤ 0) ∨
           (O.freq < 0 ∧ O.wrapped - (O.update32 fps).1.wrapped ≤ 0))) →
        (O.update32 fps).2 = O.eventList ∧
        (O.update32 fps).1.counter =
          if O.counter = INT_MAX then -2147483648 else O.counter + 1) ∧
      (¬ (O.bReset = false ∧
          ((O.freq > 0 ∧ (O.update32 fps).1.wrapped - O.wrapped ≤ 0) ∨
           (O.freq < 0 ∧ O.wrapped - (O.update32 fps).1.wrapped ≤ 0))) →
        (O.update32 fps).2 = [] ∧ (O.update32 fps).1.counter = O.counter) ∧
      (O.update32 fps).1.bReset = false ∧
      (O.update32 fps).1.counter ≤ O.counter + 1 ∧
      (O.update32 fps).1.eventList = O.eventList) ∧
    (O.bRunning = false → O.update32 fps = (O, [])) := by
  have hinc := incrementInt_of_int O.counter hlo hhi
  have hw2 : isFloat32 O.wrap32 := wrap32_isFloat32 O hp
  have hb : periodBoundary32 O.freq O.wrapped O.wrap32 ↔
      ((O.freq > 0 ∧ O.wrap32 - O.wrapped ≤ 0) ∨ (O.freq < 0 ∧ O.wrapped - O.wrap32 ≤ 0)) := by
    unfold periodBoundary32
    rw [fl32_sub_nonpos_iff _ _ hw2 hw, fl32_sub_nonpos_iff _ _ hw hw2]
  constructor
  · intro hrun
    rw [osc32_update_running fps O hrun]
    refine ⟨rfl, ?_, ?_, rfl, ?_, rfl⟩
    · intro hc
      have hb2 : periodBoundary32 O.freq O.wrapped O.wrap32 := hb.mpr hc.2
      simp only [hc.1, hb2, Bool.not_false, decide_True, Bool.and_self, if_true, hinc]
      exact ⟨trivial, trivial⟩
    · intro hc
      by_cases hreset : O.bReset = false
      · have hb2 : ¬ periodBoundary32 O.freq O.wrapped O.wrap32 :=
          fun h => hc ⟨hreset, hb.mp h⟩
        simp only [hreset, hb2, Bool.not_false, decide_False, Bool.and_false,
          Bool.false_eq_true, if_false]
        exact ⟨trivial, trivial⟩
      · have hreset2 : O.bReset = true := by simpa using hreset
        simp only [hreset2, Bool.not_true, Bool.false_and, Bool.false_eq_true, if_false]
        exact ⟨trivial, trivial⟩
    · simp only
      split
      · rw [hinc]
        unfold INT_MAX at *
        split <;> omega
      · omega
  · intro hrun
    exact osc32_update_paused fps O hrun

/-- Witness of C20 (amended): the oscillator one update before the period boundary
(wrapped phase from `2027255 / 2^21` back to `33 / 2^23`): the event fires and the
counter goes from 0 to 1; and the same oscillator paused. -/
theorem C20_oscillator_boundary_rule_witness :
    (isFloat32 exOsc32.wrapped ∧ isFloat32 exOsc32.phase ∧ -2 ^ 31 ≤ exOsc32.counter ∧
      exOsc32.counter ≤ INT_MAX) ∧
    ((exOsc32.update32 30).2 = exOsc32.eventList ∧
      (exOsc32.update32 30).1.counter =
        if exOsc32.counter = INT_MAX then -2147483648 else exOsc32.counter + 1) ∧
    (exOsc32.update32 30).1.counter = 1 ∧
    (exOsc32.update32 30).1.wrapped = 33 / 2 ^ 23 ∧
    ofxBaseOsc.update32 30 { exOsc32 with bRunning := false } =
      ({ exOsc32 with bRunning := false }, []) :=
  ⟨by decide!,
   ((C20_oscillator_boundary_rule 30 exOsc32 (by decide!) (by decide!) (by decide!)
      (by decide!)).1 rfl).2.1 ⟨rfl, Or.inl (by decide!)⟩,
   by decide!, by decide!,
   (C20_oscillator_boundary_rule 30 { exOsc32 with bRunning := false } (by decide!)
      (by decide!) (by decide!) (by decide!)).2 rfl⟩

/-- C21 (as stated, refuted on examples). In binary32, at 30 frames per second:
after one `update` of a fresh oscillator the wrapped phase is 0 while
`(phase + offset) mod 1` is already `8947881 / 2^28` (the wrapped phase is computed
before the phase is advanced); after `setPhase(5)` on a fresh oscillator the next
`update` copies the phase unwrapped, `out()` is 5; and after
`setPhaseOffset(-1e-9f)` the next `update` computes the remainder `-1e-9f` and adds
`1.0`, which rounds to exactly 1: `out()` is 1, outside `[0, 1)`. -/
theorem C21_wrapped_phase_counterexample :
    (((ofxBaseOsc.init : ofxBaseOsc ℚ).update32 30).1.out = 0 ∧
      Int.fract (((ofxBaseOsc.init : ofxBaseOsc ℚ).update32 30).1.phase +
        ((ofxBaseOsc.init : ofxBaseOsc ℚ).update32 30).1.offset) = 8947881 / 2 ^ 28) ∧
    (((ofxBaseOsc.init : ofxBaseOsc ℚ).setPhase 5).update32 30).1.out = 5 ∧
    (((ofxBaseOsc.init : ofxBaseOsc ℚ).setPhaseOffset (fl32 (-1 / 10 ^ 9))).update32 30).1.out =
      1 := by
  decide!

/-- C21 (amended). In binary32, in every state reached from `init` by `update`,
`setPhaseOffset`, `setFrequency` and `setPhase` with arguments in `[0, 1)`, the
wrapped phase returned by `out()` and `getPhase()` lies in `[0, 1]`.  The wrapped
phase after the next `update` is computed from the phase and offset the oscillator
has before that `update`: with offset 0 it is the phase; otherwise, with `x` the
`float` sum `phase + offset`, it is the fractional part of `x` (`x mod 1`,
normalised to be non-negative), rounded to `float` when the remainder `fmod(x, 1)`
is negative. -/
theorem C21_wrapped_phase_in_range (fps : ℚ) (ops : List (OscOp ℚ))
    (hops : ∀ op ∈ ops, op.phaseInRange) :
    0 ≤ (ofxBaseOsc.run32 fps ops ofxBaseOsc.init).1.out ∧
    (ofxBaseOsc.run32 fps ops ofxBaseOsc.init).1.out ≤ 1 ∧
    (ofxBaseOsc.run32 fps ops ofxBaseOsc.init).1.getPhase =
      (ofxBaseOsc.run32 fps ops ofxBaseOsc.init).1.out ∧
    ((ofxBaseOsc.run32 fps ops ofxBaseOsc.init).1.update32 fps).1.out =
      (if (ofxBaseOsc.run32 fps ops ofxBaseOsc.init).1.offset ≠ 0 then
        (if fmod (fl32 ((ofxBaseOsc.run32 fps ops ofxBaseOsc.init).1.phase +
              (ofxBaseOsc.run32 fps ops ofxBaseOsc.init).1.offset)) 1 < 0 then
          fl32 (fl64 (Int.fract (fl32 ((ofxBaseOsc.run32 fps ops ofxBaseOsc.init).1.phase +
            (ofxBaseOsc.run32 fps ops ofxBaseOsc.init).1.offset))))
         else Int.fract (fl32 ((ofxBaseOsc.run32 fps ops ofxBaseOsc.init).1.phase +
            (ofxBaseOsc.run32 fps ops ofxBaseOsc.init).1.offset)))
       else (ofxBaseOsc.run32 fps ops ofxBaseOsc.init).1.phase) := by
  obtain ⟨hrun, hp, hw⟩ := osc32_run_inRange fps ops (ofxBaseOsc.init : ofxBaseOsc ℚ) hops rfl
    ⟨le_refl _, zero_le_one⟩ ⟨le_refl _, zero_le_one⟩
  refine ⟨hw.1, hw.2, rfl, ?_⟩
  rw [osc32_update_running fps _ hrun]
  simp only [ofxBaseOsc.out, ofxBaseOsc.wrap32]
  split
  · rcases fmod_one_cases (fl32 ((ofxBaseOsc.run32 fps ops ofxBaseOsc.init).1.phase +
        (ofxBaseOsc.run32 fps ops ofxBaseOsc.init).1.offset)) with ⟨hneg, hfr⟩ | ⟨hneg, hfr⟩
    · rw [if_pos hneg, if_pos hneg, hfr]
    · rw [if_neg hneg, if_neg hneg, hfr]
  · rfl

/-- Witness of C21 (amended): a phase reset and an offset between updates. -/
theorem C21_wrapped_phase_in_range_witness :
    (∀ op ∈ [OscOp.update, OscOp.setPhase (1 / 2 : ℚ), OscOp.setPhaseOffset (3 / 4),
      OscOp.update], op.phaseInRange) ∧
    0 ≤ (ofxBaseOsc.run32 30
      [OscOp.update, OscOp.setPhase (1 / 2), OscOp.setPhaseOffset (3 / 4), OscOp.update]
      ofxBaseOsc.init).1.out ∧
    (ofxBaseOsc.run32 30
      [OscOp.update, OscOp.setPhase (1 / 2), OscOp.setPhaseOffset (3 / 4), OscOp.update]
      ofxBaseOsc.init).1.out ≤ 1 ∧
    (ofxBaseOsc.run32 30
      [OscOp.update, OscOp.setPhase (1 / 2), OscOp.setPhaseOffset (3 / 4), OscOp.update]
      ofxBaseOsc.init).1.out = 1 / 4 :=
  ⟨by norm_num [OscOp.phaseInRange],
   (C21_wrapped_phase_in_range 30
    [OscOp.update, OscOp.setPhase (1 / 2), OscOp.setPhaseOffset (3 / 4), OscOp.update]
    (by norm_num [OscOp.phaseInRange])).1,
   (C21_wrapped_phase_in_range 30
    [OscOp.update, OscOp.setPhase (1 / 2), OscOp.setPhaseOffset (3 / 4), OscOp.update]
    (by norm_num [OscOp.phaseInRange])).2.1,
   by decide!⟩

end Binary32OscClaims

section Binary32OscCountLemmas

end Binary32OscCountLemmas
section Binary32OscCountLemmas2

end Binary32OscCountLemmas2

section Binary32OscCountClaims

end Binary32OscCountClaims

end OfxControlUtils
